import Mathlib

/-!
# send-gcode: protocol engine and serial transport

A shallow embedding of `GCodeSender.cpp` and of the buffered read and write
paths of `Serial.cpp`, followed by theorems about the frames the engine sends.

Conventions of the embedding.

* A byte is a natural number in `0..255`; a string or a buffer is a `List Nat`.
  A C `char` holding a byte `>= 128` is represented by its unsigned value: the
  only arithmetic the code performs on characters is the checksum
  `cs = cs ^ ch` stored into a `uint8_t`, whose low eight bits do not depend on
  the signedness of `char`.
* A `const char*` into the caller's buffer is the offset from `content`;
  `contentEnd` is `content.length`.
* `unsigned` is a natural number reduced modulo `2^32`.
* `while` loops are structural recursions on a fuel argument; the fuel supplied
  by the callers is the number of bytes left, which the loops cannot exceed
  (see `advanceWhile_fuel`, `sendLoop_exit`, `toString_eq_digits`,
  `scanWhile_eq`, `lineLoop_spec` and `lineLoop_overflow`).
* `printf` tracing (`verbose`) has no effect on the state and is left out.
-/

namespace GCodeSender

/-- The bytes of a string literal. -/
def bytes (s : String) : List Nat := s.toList.map Char.toNat

/-- Modulus of the C++ type `unsigned`. -/
def UINT : Nat := 2 ^ 32

/-- Loop of `toString`: `while(n) { s = char('0' + n%10) + s; n /= 10; }`. -/
def toStringLoop : Nat → Nat → List Nat → List Nat
  | 0, _, s => s
  | fuel + 1, n, s =>
    if n ≠ 0 then toStringLoop fuel (n / 10) ((48 + n % 10) :: s) else s

/-- `std::string toString(unsigned n)`. -/
def toString (n : Nat) : List Nat :=
  if n = 0 then [48] else toStringLoop n n []

/-- The accumulation `uint8_t cs = 0; for_each(s.begin(), s.end(), cs = cs ^ ch)`. -/
def checksum (s : List Nat) : Nat :=
  s.foldl (fun cs ch => (cs ^^^ ch) % 256) 0

/-- Completion of a frame: `s += "*" + toString(cs) + "\n"`. -/
def addChecksum (s : List Nat) : List Nat :=
  s ++ ([42] ++ toString (checksum s) ++ [10])

/-- The reset frame of `send`: `"N" + toString(num) + " M110"` with its
checksum appended. -/
def resetFrame (num : Nat) : List Nat :=
  addChecksum (bytes "N" ++ toString num ++ bytes " M110")

/-- A command frame of `send`: `"N" + toString(num) + " " + string(pos, e)`
with its checksum appended. -/
def commandFrame (num : Nat) (payload : List Nat) : List Nat :=
  addChecksum (bytes "N" ++ toString num ++ bytes " " ++ payload)

/-- C `isspace` in the "C" locale: space, `\t`, `\n`, `\v`, `\f`, `\r`. -/
def isspace (c : Nat) : Bool := c == 32 || (9 ≤ c && c ≤ 13)

/-- Condition `*e != '\r' && *e != '\n' && *e != '(' && *e != ';'`. -/
def notCommandEnd (c : Nat) : Bool := c != 13 && c != 10 && c != 40 && c != 59

/-- Condition `*e != '\r' && *e != '\n'`. -/
def notLineEnd (c : Nat) : Bool := c != 13 && c != 10

/-- The loop `while(p != contentEnd && ok(*p)) ++p;`. -/
def advanceWhile (ok : Nat → Bool) (content : List Nat) : Nat → Nat → Nat
  | 0, p => p
  | fuel + 1, p =>
    if p ≠ content.length ∧ ok (content.getD p 0) = true then
      advanceWhile ok content fuel (p + 1)
    else p

/-- `string(pos, e)`: the bytes of the buffer in `[pos, e)`. -/
def substring (content : List Nat) (pos e : Nat) : List Nat :=
  (content.drop pos).take (e - pos)

end GCodeSender

/-- State of a `GCodeSender`. The field `wire` records, in order, the strings
handed to `serial.send`. -/
structure GCodeSender where
  content : List Nat
  pos : Nat
  lastSent : Nat
  lastChecksumLine : Nat
  sentM110 : Bool
  done : Bool
  wire : List (List Nat)
deriving DecidableEq, Repr

namespace GCodeSender

/-- The loop `while(pos != contentEnd && !sentLine) { ... }` of `send`, with the
local `sentLine` threaded through. -/
def sendLoop : Nat → GCodeSender → Bool → GCodeSender × Bool
  | 0, s, sentLine => (s, sentLine)
  | fuel + 1, s, sentLine =>
    if s.pos ≠ s.content.length ∧ sentLine = false then
      let n := s.content.length
      let pos := advanceWhile isspace s.content (n - s.pos) s.pos
      let e := advanceWhile notCommandEnd s.content (n - pos) pos
      let e2 := advanceWhile notLineEnd s.content (n - e) e
      if pos ≠ e then
        let num := (s.lastChecksumLine + 1) % UINT
        sendLoop fuel
          { s with pos := e2, lastSent := pos, lastChecksumLine := num,
                   wire := s.wire ++ [commandFrame num (substring s.content pos e)] } true
      else
        sendLoop fuel { s with pos := e2 } sentLine
    else (s, sentLine)

/-- `void GCodeSender::send()`. -/
def send (s : GCodeSender) : GCodeSender :=
  if s.sentM110 = false then
    let num := (s.lastChecksumLine + 1) % UINT
    { s with lastChecksumLine := num, wire := s.wire ++ [resetFrame num],
             sentM110 := true }
  else
    let r := sendLoop (s.content.length - s.pos) s false
    if r.2 = false then { r.1 with done := true } else r.1

/-- The test `e-b == 5 && !strncmp(b, "start", 5)` of `receiveLine`. -/
def isStart (line : List Nat) : Bool :=
  line.length == 5 && line.take 5 == bytes "start"

/-- The test `e-b >= 6 && !strncmp(b, "Resend", 6)` of `receiveLine`. -/
def isResend (line : List Nat) : Bool :=
  decide (line.length ≥ 6) && line.take 6 == bytes "Resend"

/-- The test `e-b >= 2 && !strncmp(b, "ok", 2)` of `receiveLine`. -/
def isOk (line : List Nat) : Bool :=
  decide (line.length ≥ 2) && line.take 2 == bytes "ok"

/-- `void GCodeSender::receiveLine(const char* b, const char* e)`, on the line
`[b, e)`. -/
def receiveLine (s : GCodeSender) (line : List Nat) : GCodeSender :=
  if isStart line = true then
    send { s with pos := s.lastSent, sentM110 := false,
                  lastChecksumLine := (s.lastChecksumLine + 20) % UINT }
  else if isResend line = true then
    { s with pos := s.lastSent,
             lastChecksumLine := (s.lastChecksumLine + (UINT - 1)) % UINT }
  else if isOk line = true then
    send s
  else s

/-- The constructor `GCodeSender::GCodeSender(port, bps, content, contentEnd,
verbose)` on a port that opens with no communication event pending (so that no
line is received inside `serial.open`). -/
def new (content : List Nat) : GCodeSender :=
  send { content := content, pos := 0, lastSent := 0, lastChecksumLine := 0,
         sentM110 := false, done := false, wire := [] }

/-- `bool getDone()`. -/
def getDone (s : GCodeSender) : Bool := s.done

/-- The engine after the lines `lines` have been received, in order. -/
def receiveLines (s : GCodeSender) (lines : List (List Nat)) : GCodeSender :=
  lines.foldl receiveLine s

/-! ### The same code with every read of the buffer checked

`send` reads the caller's buffer through `*pos`, `*e` and `string(pos, e)`. The
definitions below repeat the loops with each read checked against
`[content, contentEnd)`: the result is `none` as soon as a byte outside the
buffer would be read. -/

/-- The loop `while(p != contentEnd && ok(*p)) ++p;` with `*p` checked. -/
def advanceWhileChecked (ok : Nat → Bool) (content : List Nat) : Nat → Nat → Option Nat
  | 0, p => some p
  | fuel + 1, p =>
    if p ≠ content.length then
      match content[p]? with
      | none => none
      | some c => if ok c = true then advanceWhileChecked ok content fuel (p + 1) else some p
    else some p

/-- `string(pos, e)` with the range checked: `pos <= e <= contentEnd`. -/
def substringChecked (content : List Nat) (pos e : Nat) : Option (List Nat) :=
  if pos ≤ e ∧ e ≤ content.length then some ((content.drop pos).take (e - pos)) else none

/-- The loop of `send` with every read checked. -/
def sendLoopChecked : Nat → GCodeSender → Bool → Option (GCodeSender × Bool)
  | 0, s, sentLine => some (s, sentLine)
  | fuel + 1, s, sentLine =>
    if s.pos ≠ s.content.length ∧ sentLine = false then
      let n := s.content.length
      match advanceWhileChecked isspace s.content (n - s.pos) s.pos with
      | none => none
      | some pos =>
        match advanceWhileChecked notCommandEnd s.content (n - pos) pos with
        | none => none
        | some e =>
          match advanceWhileChecked notLineEnd s.content (n - e) e with
          | none => none
          | some e2 =>
            if pos ≠ e then
              match substringChecked s.content pos e with
              | none => none
              | some payload =>
                let num := (s.lastChecksumLine + 1) % UINT
                sendLoopChecked fuel
                  { s with pos := e2, lastSent := pos, lastChecksumLine := num,
                           wire := s.wire ++ [commandFrame num payload] } true
            else
              sendLoopChecked fuel { s with pos := e2 } sentLine
    else some (s, sentLine)

/-- `void GCodeSender::send()` with every read checked. -/
def sendChecked (s : GCodeSender) : Option GCodeSender :=
  if s.sentM110 = false then
    let num := (s.lastChecksumLine + 1) % UINT
    some { s with lastChecksumLine := num, wire := s.wire ++ [resetFrame num],
                  sentM110 := true }
  else
    match sendLoopChecked (s.content.length - s.pos) s false with
    | none => none
    | some r => some (if r.2 = false then { r.1 with done := true } else r.1)

/-- `void GCodeSender::receiveLine(const char* b, const char* e)` with every
read of the buffer checked. -/
def receiveLineChecked (s : GCodeSender) (line : List Nat) : Option GCodeSender :=
  if isStart line = true then
    sendChecked { s with pos := s.lastSent, sentM110 := false,
                         lastChecksumLine := (s.lastChecksumLine + 20) % UINT }
  else if isResend line = true then
    some { s with pos := s.lastSent,
                  lastChecksumLine := (s.lastChecksumLine + (UINT - 1)) % UINT }
  else if isOk line = true then
    sendChecked s
  else some s

/-! ### The command lines of a buffer, as the specification words them -/

/-- Specification: the physical lines of a buffer, split at every `\r` or `\n`. -/
def physicalLines (buf : List Nat) : List (List Nat) :=
  buf.splitOnP (fun c => c == 13 || c == 10)

/-- Specification: a physical line with its leading whitespace dropped and cut
at the first `(` or `;`. -/
def commandText (line : List Nat) : List Nat :=
  (line.dropWhile isspace).takeWhile (fun c => c != 40 && c != 59)

/-- Specification: the command lines of a buffer, the non-empty command texts
of its physical lines, in order. -/
def commandLines (buf : List Nat) : List (List Nat) :=
  ((physicalLines buf).map commandText).filter (fun l => decide (l ≠ []))

/-- The line number a frame carries, as its receiver reads it: the decimal
number between the leading `N` and the first byte that is not a digit. -/
def frameNumber (frame : List Nat) : Option Nat :=
  match frame with
  | 78 :: rest =>
    let ds := rest.takeWhile (fun c => decide (48 ≤ c ∧ c ≤ 57))
    if ds = [] then none else some (ds.foldl (fun a d => 10 * a + (d - 48)) 0)
  | _ => none

/-- The command frames carrying the payloads `ps`, in order, numbered
`c + 1`, `c + 2`, ... in `unsigned` arithmetic. -/
def commandFrames (c : Nat) : List (List Nat) → List (List Nat)
  | [] => []
  | p :: ps => commandFrame ((c + 1) % UINT) p :: commandFrames (c + 1) ps

end GCodeSender


/-! ## The serial transport (`Serial.cpp`)

The model keeps the fields of `Serial` that the buffered read and write paths
use. Two fields record what the transport does to its environment: `written`
lists the strings passed to `WriteFile`, `lines` the ranges passed to the
`receivedLine` callback, both in order. The results of the operating system
calls are arguments of the operations. An operation that ends in
`close(); throw runtime_error(...)` returns `Except.error` with the message; the
program then ends. -/

/-- State of a `Serial`. `readBuffer` holds the first `bytesInReadBuffer` bytes
of the C++ array. -/
structure Serial where
  fullyOpened : Bool
  handleValid : Bool
  writing : Bool
  writeQueue : List (List Nat)
  readBuffer : List Nat
  written : List (List Nat)
  lines : List (List Nat)
  status : List String
deriving DecidableEq, Repr

namespace Serial

/-- `static const size_t readBufferSize = 1024`. -/
def readBufferSize : Nat := 1024

/-- The transport after the constructor and an `open` that succeeds with no
communication event pending. -/
def opened : Serial :=
  { fullyOpened := true, handleValid := true, writing := false, writeQueue := [],
    readBuffer := [], written := [], lines := [], status := [] }

/-- `void Serial::startWrite()`. `pending` tells that `WriteFile` returned
false with `ERROR_IO_PENDING`, the only outcome the code accepts. -/
def startWrite (s : Serial) (pending : Bool) : Except String Serial :=
  match s.writing, s.writeQueue with
  | true, _ => .ok s
  | false, [] => .ok s
  | false, front :: _ =>
    if pending = true then .ok { s with writing := true, written := s.written ++ [front] }
    else .error "Serial write error"

/-- `void Serial::send(std::string&& data)`. -/
def send (s : Serial) (data : List Nat) (pending : Bool) : Except String Serial :=
  if s.fullyOpened = false then .ok s
  else startWrite { s with writeQueue := s.writeQueue ++ [data] } pending

/-- `void Serial::onWrite()`. `ok` and `numWritten` are the results of
`GetOverlappedResult`. Reading `front()` of an empty queue is undefined in C++
and is reported as an error of its own. -/
def onWrite (s : Serial) (ok : Bool) (numWritten : Nat) (pending : Bool) :
    Except String Serial :=
  if s.handleValid = false ∨ s.writing = false then .ok s
  else
    match s.writeQueue with
    | [] => .error "undefined: front() of an empty writeQueue"
    | front :: rest =>
      if ok = false ∨ numWritten ≠ front.length then .error "serial write error"
      else startWrite { s with writing := false, writeQueue := rest } pending

/-- A call into the write path: `send(data)` or the completion handler
`onWrite()`, with the results of the operating system calls it makes. -/
inductive WriteEvent where
  | send (data : List Nat) (pending : Bool)
  | onWrite (ok : Bool) (numWritten : Nat) (pending : Bool)
deriving DecidableEq, Repr

/-- One call into the write path. -/
def writeStep (s : Serial) : WriteEvent → Except String Serial
  | .send data pending => send s data pending
  | .onWrite ok numWritten pending => onWrite s ok numWritten pending

/-- A sequence of calls into the write path, stopping at the first exception. -/
def writeRun (s : Serial) : List WriteEvent → Except String Serial
  | [] => .ok s
  | ev :: evs =>
    match writeStep s ev with
    | .ok s' => writeRun s' evs
    | .error msg => .error msg

/-- The strings passed to `send` by a sequence of calls, in order. -/
def sentData : List WriteEvent → List (List Nat)
  | [] => []
  | .send data _ :: evs => data :: sentData evs
  | .onWrite _ _ _ :: evs => sentData evs

/-- Condition `readBuffer[p] == '\r' || readBuffer[p] == '\n'`. -/
def isLineEnd (c : Nat) : Bool := c == 13 || c == 10

/-- Condition `readBuffer[p] != '\r' && readBuffer[p] != '\n'`. -/
def notLineEnd (c : Nat) : Bool := c != 13 && c != 10

/-- The loop `while(p < bytesInReadBuffer && ok(readBuffer[p])) ++p;`. -/
def scanWhile (ok : Nat → Bool) (buf : List Nat) : Nat → Nat → Nat
  | 0, p => p
  | fuel + 1, p =>
    if p < buf.length ∧ ok (buf.getD p 0) = true then scanWhile ok buf fuel (p + 1) else p

/-- The inner `while(1)` of `processCommState`, which takes the complete lines
out of the read buffer. -/
def lineLoop : Nat → Serial → Serial
  | 0, s => s
  | fuel + 1, s =>
    let n := s.readBuffer.length
    let p := scanWhile notLineEnd s.readBuffer n 0
    if p < n then
      let lines := if p ≠ 0 then s.lines ++ [s.readBuffer.take p] else s.lines
      let p2 := scanWhile isLineEnd s.readBuffer (n - p) p
      lineLoop fuel { s with lines := lines, readBuffer := s.readBuffer.drop p2 }
    else if n = readBufferSize then
      { s with readBuffer := [],
               status := s.status ++ ["buffer overfilled with garbage; dumping\n"] }
    else s

/-- The branch `if(commEventMask & EV_RXCHAR)` of `processCommState` with a
`ReadFile` that succeeds: `avail` are the bytes the driver holds, of which
`ReadFile` returns at most the `readBufferSize - bytesInReadBuffer` asked
for. -/
def onRxChar (s : Serial) (avail : List Nat) : Serial :=
  let data := avail.take (readBufferSize - s.readBuffer.length)
  if data.length ≠ 0 then
    lineLoop ((s.readBuffer ++ data).length + 1) { s with readBuffer := s.readBuffer ++ data }
  else s

/-- Successive reads. -/
def feed (s : Serial) (chunks : List (List Nat)) : Serial :=
  chunks.foldl onRxChar s

/-- Each read of `chunks` fits the free space of the read buffer at the time
it is made. -/
def fits : Serial → List (List Nat) → Bool
  | _, [] => true
  | s, c :: cs => decide (c.length ≤ readBufferSize - s.readBuffer.length) && fits (onRxChar s c) cs

/-- Specification: the lines of a byte stream, each maximal non-empty run of
bytes other than `\r` and `\n` that is followed by a terminator, in order. The
last piece of the split is the run that no terminator follows yet. -/
def streamLines (stream : List Nat) : List (List Nat) :=
  ((stream.splitOnP isLineEnd).dropLast).filter (fun l => decide (l ≠ []))

/-- Specification: the bytes after the last terminator of a stream. -/
def streamRest (stream : List Nat) : List Nat :=
  ((stream.splitOnP isLineEnd).getLast?).getD []

end Serial

/-! ## Auxiliary facts about the frame text -/

namespace GCodeSender

theorem xor_mod_256 (a b : Nat) : (a ^^^ b) % 256 = (a % 256) ^^^ (b % 256) := by
  apply Nat.eq_of_testBit_eq
  intro i
  have h : (256 : Nat) = 2 ^ 8 := by norm_num
  rw [h]
  simp only [Nat.testBit_mod_two_pow, Nat.testBit_xor]
  by_cases hi : i < 8 <;> simp [hi]

theorem checksum_foldl (l : List Nat) (a : Nat) :
    l.foldl (fun cs ch => (cs ^^^ ch) % 256) (a % 256)
      = (l.foldl (fun x y => x ^^^ y) a) % 256 := by
  induction l generalizing a with
  | nil => rfl
  | cons c l ih =>
    simp only [List.foldl_cons]
    have h : (a % 256 ^^^ c) % 256 = (a ^^^ c) % 256 := by
      rw [xor_mod_256, xor_mod_256 a c, Nat.mod_mod]
    rw [h, ih]

/-- The `uint8_t` accumulation is the XOR of all bytes, reduced to eight bits. -/
theorem checksum_eq (l : List Nat) :
    checksum l = (l.foldl (fun x y => x ^^^ y) 0) % 256 := by
  have := checksum_foldl l 0
  simpa [checksum] using this

theorem checksum_lt (l : List Nat) : checksum l < 256 := by
  rw [checksum_eq]; exact Nat.mod_lt _ (by norm_num)

theorem toStringLoop_eq (fuel : Nat) : ∀ (n : Nat) (s : List Nat), n ≤ fuel →
    toStringLoop fuel n s = ((Nat.digits 10 n).reverse.map (fun d => 48 + d)) ++ s := by
  induction fuel with
  | zero =>
    intro n s h
    have : n = 0 := by omega
    subst this
    simp [toStringLoop]
  | succ fuel ih =>
    intro n s h
    by_cases hn : n = 0
    · subst hn; simp [toStringLoop]
    · have hlt : n / 10 < n := Nat.div_lt_self (Nat.pos_of_ne_zero hn) (by norm_num)
      rw [toStringLoop, if_pos hn, ih (n / 10) _ (by omega),
        Nat.digits_def' (by norm_num) (Nat.pos_of_ne_zero hn)]
      simp

/-- The source `toString` is the canonical decimal rendering: the digits of
`Nat.digits 10 n`, most significant first, as ASCII, and `"0"` for zero. -/
theorem toString_eq_digits (n : Nat) :
    toString n = if n = 0 then [48] else (Nat.digits 10 n).reverse.map (fun d => 48 + d) := by
  unfold toString
  split
  · rfl
  · rw [toStringLoop_eq n n [] (le_refl _)]; simp

theorem sendLoop_true (fuel : Nat) (s : GCodeSender) : sendLoop fuel s true = (s, true) := by
  cases fuel <;> simp [sendLoop]

end GCodeSender

/-! ## The scanning loops, as list operations on the unread bytes -/

namespace GCodeSender

theorem advanceWhile_eq (ok : Nat → Bool) (content : List Nat) (fuel : Nat) :
    ∀ p, p ≤ content.length → content.length - p ≤ fuel →
      advanceWhile ok content fuel p = p + ((content.drop p).takeWhile ok).length := by
  induction fuel with
  | zero =>
    intro p hp hf
    have : p = content.length := by omega
    subst this
    simp [advanceWhile]
  | succ fuel ih =>
    intro p hp hf
    rw [advanceWhile]
    by_cases hlen : p = content.length
    · subst hlen; simp
    · have hlt : p < content.length := by omega
      rw [List.drop_eq_getElem_cons hlt, List.getD_eq_getElem _ _ hlt]
      by_cases hok : ok content[p] = true
      · rw [if_pos ⟨hlen, hok⟩, ih (p + 1) (by omega) (by omega), List.takeWhile_cons_of_pos hok]
        simp; omega
      · rw [if_neg (by simp [hok]), List.takeWhile_cons_of_neg hok]
        simp

theorem drop_length_takeWhile (ok : Nat → Bool) (l : List Nat) :
    l.drop (l.takeWhile ok).length = l.dropWhile ok := by
  induction l with
  | nil => rfl
  | cons c l ih =>
    by_cases h : ok c = true
    · simp [List.takeWhile_cons_of_pos h, List.dropWhile_cons_of_pos h, ih]
    · simp [List.takeWhile_cons_of_neg h, List.dropWhile_cons_of_neg h]

theorem take_length_takeWhile (ok : Nat → Bool) (l : List Nat) :
    l.take (l.takeWhile ok).length = l.takeWhile ok := by
  induction l with
  | nil => rfl
  | cons c l ih =>
    by_cases h : ok c = true
    · simp [List.takeWhile_cons_of_pos h, ih]
    · simp [List.takeWhile_cons_of_neg h]

theorem drop_advanceWhile (ok : Nat → Bool) (content : List Nat) (fuel p : Nat)
    (hp : p ≤ content.length) (hf : content.length - p ≤ fuel) :
    content.drop (advanceWhile ok content fuel p) = (content.drop p).dropWhile ok := by
  rw [advanceWhile_eq ok content fuel p hp hf, ← drop_length_takeWhile, List.drop_drop]

theorem substring_advanceWhile (ok : Nat → Bool) (content : List Nat) (fuel p : Nat)
    (hp : p ≤ content.length) (hf : content.length - p ≤ fuel) :
    substring content p (advanceWhile ok content fuel p) = (content.drop p).takeWhile ok := by
  rw [advanceWhile_eq ok content fuel p hp hf, substring]
  simp [take_length_takeWhile]

theorem advanceWhile_le (ok : Nat → Bool) (content : List Nat) (fuel p : Nat)
    (hp : p ≤ content.length) (hf : content.length - p ≤ fuel) :
    advanceWhile ok content fuel p ≤ content.length := by
  rw [advanceWhile_eq ok content fuel p hp hf]
  have h1 := (List.takeWhile_prefix ok (l := content.drop p)).length_le
  simp at h1
  omega

theorem le_advanceWhile (ok : Nat → Bool) (content : List Nat) (fuel p : Nat) :
    p ≤ advanceWhile ok content fuel p := by
  induction fuel generalizing p with
  | zero => simp [advanceWhile]
  | succ fuel ih =>
    rw [advanceWhile]
    split
    · exact Nat.le_trans (Nat.le_succ p) (ih (p + 1))
    · exact le_refl p

/-- Fuel beyond the number of bytes left does not change the result of the loop -/
theorem advanceWhile_fuel (ok : Nat → Bool) (content : List Nat) (fuel fuel' p : Nat)
    (hp : p ≤ content.length) (hf : content.length - p ≤ fuel) (hf' : content.length - p ≤ fuel') :
    advanceWhile ok content fuel p = advanceWhile ok content fuel' p := by
  rw [advanceWhile_eq ok content fuel p hp hf, advanceWhile_eq ok content fuel' p hp hf']

/-! ## The command lines of a buffer, one line at a time -/

theorem commandLines_nil : commandLines [] = [] := by
  simp [commandLines, physicalLines, List.splitOnP_nil, commandText]

theorem commandLines_cons_space (c : Nat) (l : List Nat) (h : isspace c = true) :
    commandLines (c :: l) = commandLines l := by
  unfold commandLines physicalLines
  rw [List.splitOnP_cons]
  by_cases hc : (c == 13 || c == 10) = true
  · rw [if_pos hc]
    simp [commandText]
  · rw [if_neg hc]
    cases hs : List.splitOnP (fun c => c == 13 || c == 10) l with
    | nil => exact absurd hs (List.splitOnP_ne_nil _ _)
    | cons x xs =>
      simp only [List.modifyHead, List.map_cons]
      have : commandText (c :: x) = commandText x := by
        simp [commandText, List.dropWhile_cons_of_pos h]
      rw [this]

theorem commandLines_dropWhile_space (l : List Nat) :
    commandLines (l.dropWhile isspace) = commandLines l := by
  induction l with
  | nil => rfl
  | cons c l ih =>
    by_cases h : isspace c = true
    · rw [List.dropWhile_cons_of_pos h, ih, commandLines_cons_space c l h]
    · rw [List.dropWhile_cons_of_neg h]

theorem takeWhile_notCommandEnd (l : List Nat) :
    l.takeWhile notCommandEnd
      = (l.takeWhile notLineEnd).takeWhile (fun c => c != 40 && c != 59) := by
  induction l with
  | nil => rfl
  | cons c l ih =>
    by_cases h1 : notLineEnd c = true
    · rw [List.takeWhile_cons_of_pos h1]
      by_cases h2 : (c != 40 && c != 59) = true
      · have h3 : notCommandEnd c = true := by
          simp only [notCommandEnd, notLineEnd] at *
          simp only [Bool.and_eq_true] at *
          exact ⟨⟨h1, h2.1⟩, h2.2⟩
        rw [List.takeWhile_cons_of_pos h3, List.takeWhile_cons_of_pos (p := fun c => c != 40 && c != 59) h2, ih]
      · have h3 : ¬ notCommandEnd c = true := by
          intro h3; apply h2
          simp only [notCommandEnd, notLineEnd] at *
          simp only [Bool.and_eq_true] at *
          exact ⟨h3.1.2, h3.2⟩
        rw [List.takeWhile_cons_of_neg h3, List.takeWhile_cons_of_neg (p := fun c => c != 40 && c != 59) h2]
    · have h3 : ¬ notCommandEnd c = true := by
        intro h3; apply h1
        simp only [notCommandEnd, notLineEnd] at *
        simp only [Bool.and_eq_true] at *
        exact h3.1.1
      rw [List.takeWhile_cons_of_neg h3, List.takeWhile_cons_of_neg h1]
      rfl

theorem dropWhile_notLineEnd_notCommandEnd (l : List Nat) :
    (l.dropWhile notCommandEnd).dropWhile notLineEnd = l.dropWhile notLineEnd := by
  induction l with
  | nil => rfl
  | cons c l ih =>
    by_cases h3 : notCommandEnd c = true
    · have h1 : notLineEnd c = true := by
        simp only [notCommandEnd, notLineEnd] at *
        simp only [Bool.and_eq_true] at *
        exact h3.1.1
      rw [List.dropWhile_cons_of_pos h3, List.dropWhile_cons_of_pos h1, ih]
    · rw [List.dropWhile_cons_of_neg h3]

theorem isspace_of_not_notLineEnd (c : Nat) (h : ¬ notLineEnd c = true) : isspace c = true := by
  simp only [notLineEnd, Bool.and_eq_true, bne_iff_ne, ne_eq, not_and, not_not] at h
  by_cases h13 : c = 13
  · subst h13; decide
  · have := h h13; subst this; decide

/-- One line of the buffer: a buffer that does not begin with whitespace
contributes the text up to the first command end, when that is not empty, and
then the command lines from its first line terminator on. -/
theorem commandLines_line (l : List Nat) (hl : ∀ c ∈ l.head?, isspace c = false) :
    commandLines l
      = (if l.takeWhile notCommandEnd = [] then [] else [l.takeWhile notCommandEnd])
          ++ commandLines (l.dropWhile notLineEnd) := by
  have htext : commandText (l.takeWhile notLineEnd) = l.takeWhile notCommandEnd := by
    rw [takeWhile_notCommandEnd, commandText]
    congr 1
    cases l with
    | nil => rfl
    | cons c l =>
      have hc : isspace c = false := hl c (by simp)
      by_cases h1 : notLineEnd c = true
      · rw [List.takeWhile_cons_of_pos h1, List.dropWhile_cons_of_neg (by simp [hc])]
      · rw [List.takeWhile_cons_of_neg h1]; rfl
  have hsplit := List.takeWhile_append_dropWhile notLineEnd l
  have hfirst : ∀ x ∈ l.takeWhile notLineEnd, ¬ ((fun c => c == 13 || c == 10) x = true) := by
    intro x hx
    have := List.mem_takeWhile_imp hx
    simp only [notLineEnd, Bool.and_eq_true, bne_iff_ne, ne_eq] at this
    simp [this.1, this.2]
  cases hrest : l.dropWhile notLineEnd with
  | nil =>
    rw [hrest, List.append_nil] at hsplit
    have hp : physicalLines l = [l] := by
      unfold physicalLines
      apply List.splitOnP_eq_single
      rw [← hsplit]; exact hfirst
    rw [commandLines_nil, List.append_nil]
    unfold commandLines
    rw [hp]
    rw [hsplit] at htext
    simp only [List.map_cons, List.map_nil, htext]
    by_cases he : l.takeWhile notCommandEnd = [] <;> simp [he]
  | cons sep rest =>
    rw [hrest] at hsplit
    have hsep : (fun c => c == 13 || c == 10) sep = true := by
      have := List.head_dropWhile_not notLineEnd l (by rw [hrest]; simp)
      simp only [hrest, List.head_cons, notLineEnd] at this
      by_cases h13 : sep = 13
      · simp [h13]
      · by_cases h10 : sep = 10
        · simp [h10]
        · simp [h13, h10] at this
    have hp : physicalLines l = l.takeWhile notLineEnd :: physicalLines rest := by
      unfold physicalLines
      conv_lhs => rw [← hsplit]
      exact List.splitOnP_first _ _ hfirst sep hsep rest
    have hsp : isspace sep = true := by
      simp only [Bool.or_eq_true, beq_iff_eq] at hsep
      rcases hsep with h | h <;> subst h <;> decide
    rw [commandLines_cons_space sep rest hsp]
    unfold commandLines
    rw [hp]
    simp only [List.map_cons, htext]
    by_cases he : l.takeWhile notCommandEnd = [] <;> simp [he, List.filter_cons]

end GCodeSender

/-! ## One call of the sending loop -/

namespace GCodeSender

theorem takeWhile_isspace_dropWhile (l : List Nat) :
    (l.dropWhile isspace).takeWhile isspace = [] := by
  induction l with
  | nil => rfl
  | cons c l ih =>
    by_cases h : isspace c = true
    · rw [List.dropWhile_cons_of_pos h, ih]
    · rw [List.dropWhile_cons_of_neg h, List.takeWhile_cons_of_neg h]

theorem head_dropWhile_isspace (l : List Nat) :
    ∀ c ∈ (l.dropWhile isspace).head?, isspace c = false := by
  induction l with
  | nil => simp
  | cons c l ih =>
    by_cases h : isspace c = true
    · rw [List.dropWhile_cons_of_pos h]; exact ih
    · rw [List.dropWhile_cons_of_neg h]
      intro d hd
      simp only [List.head?_cons, Option.mem_def, Option.some.injEq] at hd
      subst hd
      simpa using h

/-- The outcome of the loop of `send` started with `sentLine = false` at a
position inside the buffer. Either no command line remains and the cursor ends
at `contentEnd`, or the next command line `[q, e)` is framed and sent, the
cursor ends at the line terminator `e2` that follows it, and the command lines
left are those of the bytes from `e2` on. -/
theorem sendLoop_spec (fuel : Nat) : ∀ (s : GCodeSender), s.pos ≤ s.content.length →
    s.content.length - s.pos ≤ fuel →
    (commandLines (s.content.drop s.pos) = [] ∧
      sendLoop fuel s false = ({ s with pos := s.content.length }, false)) ∨
    (∃ q e e2, s.pos ≤ q ∧ q < e ∧ e ≤ e2 ∧ e2 ≤ s.content.length ∧
      advanceWhile isspace s.content (s.content.length - q) q = q ∧
      e = advanceWhile notCommandEnd s.content (s.content.length - q) q ∧
      e2 = advanceWhile notLineEnd s.content (s.content.length - e) e ∧
      commandLines (s.content.drop s.pos)
        = substring s.content q e :: commandLines (s.content.drop e2) ∧
      commandLines (s.content.drop q) = commandLines (s.content.drop s.pos) ∧
      sendLoop fuel s false =
        ({ s with pos := e2, lastSent := q,
                  lastChecksumLine := (s.lastChecksumLine + 1) % UINT,
                  wire := s.wire ++ [commandFrame ((s.lastChecksumLine + 1) % UINT)
                    (substring s.content q e)] }, true)) := by
  induction fuel with
  | zero =>
    intro s hpos hfuel
    left
    have hp : s.pos = s.content.length := by omega
    refine ⟨?_, ?_⟩
    · rw [hp, List.drop_length, commandLines_nil]
    · rw [sendLoop, ← hp]
  | succ fuel ih =>
    intro s hpos hfuel
    by_cases hp : s.pos = s.content.length
    · left
      refine ⟨?_, ?_⟩
      · rw [hp, List.drop_length, commandLines_nil]
      · rw [sendLoop, if_neg (by simp [hp]), ← hp]
    · have hlt : s.pos < s.content.length := by omega
      -- the three scans of the loop body
      obtain ⟨q, hq⟩ : ∃ q, q = advanceWhile isspace s.content (s.content.length - s.pos) s.pos :=
        ⟨_, rfl⟩
      obtain ⟨e, he⟩ : ∃ e, e = advanceWhile notCommandEnd s.content (s.content.length - q) q :=
        ⟨_, rfl⟩
      obtain ⟨e2, he2⟩ : ∃ e2, e2 = advanceWhile notLineEnd s.content (s.content.length - e) e :=
        ⟨_, rfl⟩
      have hq_ge : s.pos ≤ q := hq ▸ le_advanceWhile _ _ _ _
      have hq_le : q ≤ s.content.length := hq ▸ advanceWhile_le _ _ _ _ hpos (le_refl _)
      have he_ge : q ≤ e := he ▸ le_advanceWhile _ _ _ _
      have he_le : e ≤ s.content.length := he ▸ advanceWhile_le _ _ _ _ hq_le (le_refl _)
      have he2_ge : e ≤ e2 := he2 ▸ le_advanceWhile _ _ _ _
      have he2_le : e2 ≤ s.content.length := he2 ▸ advanceWhile_le _ _ _ _ he_le (le_refl _)
      have hdq : s.content.drop q = (s.content.drop s.pos).dropWhile isspace :=
        hq ▸ drop_advanceWhile _ _ _ _ hpos (le_refl _)
      have hde : s.content.drop e = (s.content.drop q).dropWhile notCommandEnd :=
        he ▸ drop_advanceWhile _ _ _ _ hq_le (le_refl _)
      have hde2 : s.content.drop e2 = (s.content.drop q).dropWhile notLineEnd := by
        rw [← dropWhile_notLineEnd_notCommandEnd, ← hde]
        exact he2 ▸ drop_advanceWhile _ _ _ _ he_le (le_refl _)
      have hsub : substring s.content q e = (s.content.drop q).takeWhile notCommandEnd :=
        he ▸ substring_advanceWhile _ _ _ _ hq_le (le_refl _)
      have hlen_e : e = q + ((s.content.drop q).takeWhile notCommandEnd).length :=
        he ▸ advanceWhile_eq _ _ _ _ hq_le (le_refl _)
      have hcl : commandLines (s.content.drop s.pos)
          = (if (s.content.drop q).takeWhile notCommandEnd = [] then []
              else [(s.content.drop q).takeWhile notCommandEnd])
            ++ commandLines (s.content.drop e2) := by
        rw [← commandLines_dropWhile_space, ← hdq, hde2]
        apply commandLines_line
        rw [hdq]; exact head_dropWhile_isspace _
      have hstep : sendLoop (fuel + 1) s false =
          if q ≠ e then
            sendLoop fuel
              { s with pos := e2, lastSent := q,
                       lastChecksumLine := (s.lastChecksumLine + 1) % UINT,
                       wire := s.wire ++ [commandFrame ((s.lastChecksumLine + 1) % UINT)
                         (substring s.content q e)] } true
          else sendLoop fuel { s with pos := e2 } false := by
        rw [sendLoop, if_pos ⟨hp, rfl⟩]
        simp only [← hq, ← he, ← he2]
      by_cases hqe : q = e
      · -- no command on this line: the loop goes round again from `e2`
        have hnil : (s.content.drop q).takeWhile notCommandEnd = [] := by
          apply List.eq_nil_of_length_eq_zero; omega
        rw [hnil, if_pos rfl, List.nil_append] at hcl
        have hadv : s.pos < e2 := by
          by_cases hqp : s.pos < q
          · omega
          · have hqp' : q = s.pos := by omega
            have hqlt : q < s.content.length := by omega
            rw [List.drop_eq_getElem_cons hqlt] at hnil hdq hde2
            have hns : isspace s.content[q] = false := by
              have := head_dropWhile_isspace (s.content.drop s.pos) s.content[q]
                (by rw [← hdq]; simp)
              exact this
            have hnl : notLineEnd s.content[q] = true := by
              by_contra hc
              have := isspace_of_not_notLineEnd _ hc
              rw [hns] at this; exact absurd this (by simp)
            rw [List.dropWhile_cons_of_pos hnl] at hde2
            have h1 : (s.content.drop e2).length ≤ (s.content.drop (q + 1)).length := by
              rw [hde2]
              exact (List.dropWhile_suffix notLineEnd).length_le
            simp only [List.length_drop] at h1
            omega
        rw [hstep, if_neg (by simpa using hqe)]
        rcases ih { s with pos := e2 } he2_le (by simp only; omega) with ⟨h1, h2⟩ | h
        · left
          exact ⟨by rw [hcl]; exact h1, h2⟩
        · right
          obtain ⟨q', e', e2', h1, h2, h3, h4, h5, h6, h7, h8, h8', h9⟩ := h
          refine ⟨q', e', e2', ?_, h2, h3, h4, h5, h6, h7, ?_, ?_, h9⟩
          · simp only at h1; omega
          · rw [hcl]; exact h8
          · rw [hcl]; exact h8'
      · -- a command `[q, e)` is framed and sent
        right
        have hne : (s.content.drop q).takeWhile notCommandEnd ≠ [] := by
          intro h; rw [h] at hlen_e; simp at hlen_e; exact hqe hlen_e.symm
        rw [if_neg hne, ← hsub] at hcl
        refine ⟨q, e, e2, hq_ge, by omega, he2_ge, he2_le, ?_, he, he2, hcl, ?_, ?_⟩
        · rw [advanceWhile_eq _ _ _ _ hq_le (le_refl _), hdq, takeWhile_isspace_dropWhile]
          rfl
        · rw [hdq, commandLines_dropWhile_space]
        · rw [hstep, if_pos hqe, sendLoop_true]

end GCodeSender

/-! ## Frames -/

namespace GCodeSender

/-- The loop of `send` stops because its condition is false: the cursor is at
`contentEnd` or a line has been sent. The fuel never cuts it short. -/
theorem sendLoop_exit (s : GCodeSender) (hpos : s.pos ≤ s.content.length) :
    (sendLoop (s.content.length - s.pos) s false).1.pos = s.content.length ∨
    (sendLoop (s.content.length - s.pos) s false).2 = true := by
  rcases sendLoop_spec _ s hpos (le_refl _) with ⟨_, h⟩ | ⟨q, e, e2, _, _, _, _, _, _, _, _, _, h⟩
  · left; rw [h]
  · right; rw [h]

/-- The loop of `send` hands at most one string to the transport, a command
frame numbered with the incremented line counter. -/
theorem sendLoop_wire (fuel : Nat) : ∀ (s : GCodeSender) (b : Bool),
    (sendLoop fuel s b).1.wire = s.wire ∨
    ∃ payload, (sendLoop fuel s b).1.wire
      = s.wire ++ [commandFrame ((s.lastChecksumLine + 1) % UINT) payload] := by
  induction fuel with
  | zero => intro s b; left; rfl
  | succ fuel ih =>
    intro s b
    rw [sendLoop]
    split
    · simp only
      split
      · right
        rw [sendLoop_true]
        exact ⟨_, rfl⟩
      · exact ih _ _
    · left; rfl

theorem addChecksum_eq (text : List Nat) :
    addChecksum text
      = text ++ bytes "*" ++ toString ((text.foldl (fun x y => x ^^^ y) 0) % 256)
          ++ bytes "\n" := by
  rw [addChecksum, checksum_eq]
  simp [bytes]

theorem new_wire (content : List Nat) : (new content).wire = [bytes "N1 M110*34\n"] := by
  simp only [new, send, if_true]
  decide

end GCodeSender

/-- C1. Every string that `GCodeSender::send` hands to the transport has the
exact wire form. With `c` the line counter before the call and `c + 1` taken in
`unsigned` arithmetic: a reset frame is `"N" dec(c+1) " M110" "*" dec(x) "\n"`
and a command frame is `"N" dec(c+1) " " payload "*" dec(x) "\n"`, where `x` is
the XOR of all bytes of the text before the `*`, as an eight-bit value, and
`dec` is `toString`, which is the canonical decimal rendering (the digits of
`Nat.digits 10`, most significant first, `"0"` for zero). A call with
`sentM110` unset sends exactly the reset frame; a call with it set sends nothing
or exactly one command frame. No assumption is made on the bytes of the buffer.
The frame sent by the constructor is `"N1 M110*34\n"`. -/
theorem C1_frame_wire_form (s : GCodeSender) :
    (∀ n : Nat, GCodeSender.toString n
        = if n = 0 then [48] else (Nat.digits 10 n).reverse.map (fun d => 48 + d)) ∧
    ((s.sentM110 = false ∧
        (GCodeSender.send s).wire = s.wire ++
          [GCodeSender.bytes "N"
            ++ GCodeSender.toString ((s.lastChecksumLine + 1) % 2 ^ 32)
            ++ GCodeSender.bytes " M110" ++ GCodeSender.bytes "*"
            ++ GCodeSender.toString
                (((GCodeSender.bytes "N"
                    ++ GCodeSender.toString ((s.lastChecksumLine + 1) % 2 ^ 32)
                    ++ GCodeSender.bytes " M110").foldl (fun x y => x ^^^ y) 0) % 256)
            ++ GCodeSender.bytes "\n"]) ∨
     (s.sentM110 = true ∧
        ((GCodeSender.send s).wire = s.wire ∨
         ∃ payload : List Nat,
          (GCodeSender.send s).wire = s.wire ++
            [GCodeSender.bytes "N"
              ++ GCodeSender.toString ((s.lastChecksumLine + 1) % 2 ^ 32)
              ++ GCodeSender.bytes " " ++ payload ++ GCodeSender.bytes "*"
              ++ GCodeSender.toString
                  (((GCodeSender.bytes "N"
                      ++ GCodeSender.toString ((s.lastChecksumLine + 1) % 2 ^ 32)
                      ++ GCodeSender.bytes " " ++ payload).foldl (fun x y => x ^^^ y) 0) % 256)
              ++ GCodeSender.bytes "\n"]))) ∧
    (∀ content : List Nat,
      (GCodeSender.new content).wire = [GCodeSender.bytes "N1 M110*34\n"]) := by
  refine ⟨GCodeSender.toString_eq_digits, ?_, GCodeSender.new_wire⟩
  cases hm : s.sentM110 with
  | false =>
    left
    refine ⟨rfl, ?_⟩
    rw [GCodeSender.send, if_pos hm]
    simp only [GCodeSender.resetFrame, GCodeSender.addChecksum_eq, GCodeSender.UINT]
  | true =>
    right
    refine ⟨rfl, ?_⟩
    rw [GCodeSender.send, if_neg (by simp [hm])]
    have hw : ∀ r : GCodeSender × Bool,
        (if r.2 = false then { r.1 with done := true } else r.1).wire = r.1.wire := by
      intro r; split <;> rfl
    simp only [hw]
    rcases GCodeSender.sendLoop_wire (s.content.length - s.pos) s false with h | ⟨payload, h⟩
    · left; exact h
    · right
      refine ⟨payload, ?_⟩
      rw [h]
      simp only [GCodeSender.commandFrame, GCodeSender.addChecksum_eq, GCodeSender.UINT]

/-! ## Streaming under acknowledgements only -/

namespace GCodeSender

theorem UINT_eq : UINT = 4294967296 := by norm_num [UINT]

theorem isOk_cases (l : List Nat) (h : isOk l = true) :
    isStart l = false ∧ isResend l = false := by
  match l, h with
  | a :: b :: rest, h =>
    simp only [isOk, bytes, Bool.and_eq_true, decide_eq_true_eq, beq_iff_eq] at h
    have h2 := h.2
    simp only [List.take_succ_cons, List.take_zero] at h2
    have ha : a = 111 := by
      have := (List.cons.inj h2).1
      simpa using this
    subst ha
    constructor
    · simp [isStart, bytes]
    · simp [isResend, bytes]
  | [], h => simp [isOk] at h
  | [_], h => simp [isOk] at h

theorem receiveLine_ok (s : GCodeSender) (l : List Nat) (h : isOk l = true) :
    receiveLine s l = send s := by
  have := isOk_cases l h
  simp [receiveLine, this.1, this.2, h]

theorem receiveLines_append (s : GCodeSender) (xs ys : List (List Nat)) :
    receiveLines s (xs ++ ys) = receiveLines (receiveLines s xs) ys := by
  simp [receiveLines, List.foldl_append]

theorem receiveLines_snoc (s : GCodeSender) (xs : List (List Nat)) (l : List Nat) :
    receiveLines s (xs ++ [l]) = receiveLine (receiveLines s xs) l := by
  simp [receiveLines, List.foldl_append]

theorem commandFrames_snoc (ps : List (List Nat)) : ∀ (c : Nat) (p : List Nat),
    commandFrames c (ps ++ [p])
      = commandFrames c ps ++ [commandFrame ((c + ps.length + 1) % UINT) p] := by
  induction ps with
  | nil => intro c p; simp [commandFrames]
  | cons a ps ih =>
    intro c p
    show commandFrames c (a :: (ps ++ [p])) = _
    rw [commandFrames, ih, commandFrames, List.length_cons, List.cons_append]
    have : c + 1 + ps.length + 1 = c + (ps.length + 1) + 1 := by omega
    rw [this]

theorem commandFrames_length (ps : List (List Nat)) : ∀ c, (commandFrames c ps).length = ps.length := by
  induction ps with
  | nil => intro c; rfl
  | cons a ps ih => intro c; simp [commandFrames, ih]

/-- What one call of `send` does once the reset frame has been sent, in terms of
the command lines of the unread bytes. -/
theorem send_spec (s : GCodeSender) (hm : s.sentM110 = true) (hpos : s.pos ≤ s.content.length) :
    (commandLines (s.content.drop s.pos) = [] ∧
      send s = { s with pos := s.content.length, done := true }) ∨
    (∃ q e e2, s.pos ≤ q ∧ q < e ∧ e ≤ e2 ∧ e2 ≤ s.content.length ∧
      advanceWhile isspace s.content (s.content.length - q) q = q ∧
      e = advanceWhile notCommandEnd s.content (s.content.length - q) q ∧
      e2 = advanceWhile notLineEnd s.content (s.content.length - e) e ∧
      commandLines (s.content.drop s.pos)
        = substring s.content q e :: commandLines (s.content.drop e2) ∧
      commandLines (s.content.drop q) = commandLines (s.content.drop s.pos) ∧
      send s =
        { s with pos := e2, lastSent := q,
                 lastChecksumLine := (s.lastChecksumLine + 1) % UINT,
                 wire := s.wire ++ [commandFrame ((s.lastChecksumLine + 1) % UINT)
                   (substring s.content q e)] }) := by
  rcases sendLoop_spec _ s hpos (le_refl _) with ⟨h1, h2⟩ |
    ⟨q, e, e2, h1, h2, h3, h4, h5, h6, h7, h8, h8', h9⟩
  · left
    refine ⟨h1, ?_⟩
    rw [send, if_neg (by simp [hm])]
    simp only [h2, if_true]
  · right
    refine ⟨q, e, e2, h1, h2, h3, h4, h5, h6, h7, h8, h8', ?_⟩
    rw [send, if_neg (by simp [hm])]
    simp only [h9]
    rfl

/-- The state of the engine after `n` acknowledgements received in a state
`t` in which the reset frame has been sent: the first `n` command lines of the
unread bytes have been framed and sent, numbered after the line counter of
`t`. -/
theorem run_ok_from (t : GCodeSender) (hm : t.sentM110 = true) (hp : t.pos ≤ t.content.length)
    (hc : t.lastChecksumLine < UINT)
    (oks : List (List Nat)) (hok : ∀ l ∈ oks, isOk l = true) :
    let s := receiveLines t oks
    let cmds := commandLines (t.content.drop t.pos)
    s.content = t.content ∧ s.sentM110 = true ∧ s.pos ≤ t.content.length ∧
    s.wire = t.wire ++ commandFrames t.lastChecksumLine (cmds.take oks.length) ∧
    s.lastChecksumLine = (t.lastChecksumLine + min oks.length cmds.length) % UINT ∧
    commandLines (t.content.drop s.pos) = cmds.drop oks.length ∧
    s.done = (t.done || decide (cmds.length < oks.length)) ∧
    (1 ≤ min oks.length cmds.length →
      commandLines (t.content.drop s.lastSent) = cmds.drop (min oks.length cmds.length - 1)) := by
  induction oks using List.reverseRecOn with
  | nil =>
    simp only [receiveLines, List.foldl_nil, List.length_nil, List.take_zero, List.drop_zero]
    refine ⟨trivial, hm, hp, ?_, ?_, trivial, ?_, ?_⟩
    · simp [commandFrames]
    · simp [Nat.mod_eq_of_lt hc]
    · simp
    · intro h; simp at h
  | append_singleton oks l ih =>
    have hl : isOk l = true := hok l (by simp)
    have ih' := ih (fun x hx => hok x (by simp [hx]))
    simp only at ih'
    obtain ⟨hc', hm', hp', hw, hn, hcl, hd, hls⟩ := ih'
    simp only [receiveLines_snoc, receiveLine_ok _ _ hl, List.length_append, List.length_singleton]
    generalize receiveLines t oks = s at hc' hm' hp' hw hn hcl hd hls
    generalize hcmds : commandLines (t.content.drop t.pos) = cmds at hw hn hcl hd hls ⊢
    rw [← hc'] at hp' hcl hls ⊢
    rcases send_spec s hm' hp' with ⟨h1, h2⟩ |
      ⟨q, e, e2, h1, h2, h3, h4, h5, h6, h7, h8, h8', h9⟩
    · -- nothing left to send
      rw [h1] at hcl
      have hk : cmds.length ≤ oks.length := by
        have := congrArg List.length hcl
        simp at this; omega
      rw [h2]
      simp only
      refine ⟨trivial, hm', le_refl _, ?_, ?_, ?_, ?_, ?_⟩
      · rw [hw, List.take_of_length_le hk, List.take_of_length_le (by omega)]
      · rw [hn, Nat.min_eq_right hk, Nat.min_eq_right (by omega)]
      · rw [List.drop_length, commandLines_nil, List.drop_eq_nil_of_le (by omega)]
      · have : decide (cmds.length < oks.length + 1) = true := by simp; omega
        rw [this]; simp
      · rw [Nat.min_eq_right hk] at hls
        rw [Nat.min_eq_right (by omega)]
        exact hls
    · -- the next command line is sent
      rw [h8] at hcl
      have hk : oks.length < cmds.length := by
        by_contra hge
        have hnil : cmds.drop oks.length = [] := List.drop_eq_nil_of_le (by omega)
        rw [hnil] at hcl
        exact absurd hcl (by simp)
      have hget : cmds[oks.length] = substring s.content q e := by
        have h := List.drop_eq_getElem_cons hk
        rw [← hcl] at h
        exact (List.cons.inj h).1.symm
      have hrest : commandLines (s.content.drop e2) = cmds.drop (oks.length + 1) := by
        have h := List.drop_eq_getElem_cons hk
        rw [← hcl] at h
        exact (List.cons.inj h).2
      rw [h9]
      simp only
      refine ⟨trivial, hm', h4, ?_, ?_, hrest, ?_, ?_⟩
      · rw [hw, hn, List.take_succ, List.getElem?_eq_getElem hk, hget]
        simp only [Option.toList_some]
        rw [commandFrames_snoc, List.append_assoc]
        congr 3
        rw [List.length_take, Nat.min_eq_left (le_of_lt hk), UINT_eq]
        congr 1
        omega
      · rw [hn, Nat.min_eq_left (le_of_lt hk), Nat.min_eq_left (by omega), UINT_eq]
        omega
      · rw [hd, decide_eq_false (by omega), decide_eq_false (by omega)]
      · intro _
        rw [Nat.min_eq_left (by omega), Nat.add_sub_cancel, h8', h8, hcl]

/-- The state of the engine after construction on `buf` and `n` received
acknowledgements. -/
theorem run_ok (buf : List Nat) (oks : List (List Nat)) (hok : ∀ l ∈ oks, isOk l = true) :
    let s := receiveLines (new buf) oks
    s.content = buf ∧ s.sentM110 = true ∧ s.pos ≤ buf.length ∧
    s.wire = resetFrame 1 :: commandFrames 1 ((commandLines buf).take oks.length) ∧
    s.lastChecksumLine = (1 + min oks.length (commandLines buf).length) % UINT ∧
    commandLines (buf.drop s.pos) = (commandLines buf).drop oks.length ∧
    s.done = decide ((commandLines buf).length < oks.length) := by
  have hnew : new buf = GCodeSender.mk buf 0 0 1 true false [resetFrame 1] := by
    simp [new, send, UINT]
  have h := run_ok_from (new buf) (by rw [hnew]) (by rw [hnew]; exact Nat.zero_le _)
    (by rw [hnew, UINT_eq]; norm_num) oks hok
  simp only [hnew, List.drop_zero, Bool.false_or, List.singleton_append] at h ⊢
  exact ⟨h.1, h.2.1, h.2.2.1, h.2.2.2.1, h.2.2.2.2.1, h.2.2.2.2.2.1, h.2.2.2.2.2.2.1⟩

end GCodeSender

namespace GCodeSender

/-- A call of `send` hands at most one string to the transport. -/
theorem send_wire_cases (s : GCodeSender) :
    (send s).wire = s.wire ∨ ∃ f, (send s).wire = s.wire ++ [f] := by
  rw [send]
  split
  · right; exact ⟨_, rfl⟩
  · have hw : ∀ r : GCodeSender × Bool,
        (if r.2 = false then { r.1 with done := true } else r.1).wire = r.1.wire := by
      intro r; split <;> rfl
    simp only [hw]
    rcases sendLoop_wire (s.content.length - s.pos) s false with h | ⟨payload, h⟩
    · left; exact h
    · right; exact ⟨_, h⟩

/-- A received line makes the engine hand at most one string to the transport. -/
theorem receiveLine_wire_cases (s : GCodeSender) (line : List Nat) :
    (receiveLine s line).wire = s.wire ∨ ∃ f, (receiveLine s line).wire = s.wire ++ [f] := by
  rw [receiveLine]
  split
  · exact send_wire_cases _
  · split
    · left; rfl
    · split
      · exact send_wire_cases _
      · left; rfl

/-- A command line of the specification is not empty and holds no comment
marker. -/
theorem commandLines_mem (buf : List Nat) (p : List Nat) (hp : p ∈ commandLines buf) :
    p ≠ [] ∧ ∀ c ∈ p, c ≠ 40 ∧ c ≠ 59 := by
  simp only [commandLines, List.mem_filter, List.mem_map, decide_eq_true_eq] at hp
  obtain ⟨⟨line, _, hline⟩, hne⟩ := hp
  refine ⟨hne, ?_⟩
  intro c hc
  rw [← hline, commandText] at hc
  have := List.mem_takeWhile_imp hc
  simpa using this

end GCodeSender

/-- C2. For every source buffer, after construction and any number of received
`ok` lines, the strings handed to the transport are the reset frame followed by
the command frames of the first `n` command lines of the specification
(`commandLines`: the buffer split at every `\r` or `\n`, each line with leading
whitespace dropped and cut at the first `(` or `;`, empty results left out), in
order, where `n` is the number of `ok` lines. So each `ok` sends at most one
frame (indeed every received line does), no command line is skipped, duplicated
or reordered, and no payload holds a comment marker. -/
theorem C2_command_payloads (buf : List Nat) (oks : List (List Nat))
    (hok : ∀ l ∈ oks, GCodeSender.isOk l = true) :
    (GCodeSender.receiveLines (GCodeSender.new buf) oks).wire
      = GCodeSender.resetFrame 1 ::
          GCodeSender.commandFrames 1 ((GCodeSender.commandLines buf).take oks.length) ∧
    (∀ (s : GCodeSender) (line : List Nat),
      (GCodeSender.receiveLine s line).wire = s.wire ∨
      ∃ f, (GCodeSender.receiveLine s line).wire = s.wire ++ [f]) ∧
    (∀ p ∈ GCodeSender.commandLines buf, p ≠ [] ∧ ∀ c ∈ p, c ≠ 40 ∧ c ≠ 59) :=
  ⟨(GCodeSender.run_ok buf oks hok).2.2.2.1, GCodeSender.receiveLine_wire_cases,
    GCodeSender.commandLines_mem buf⟩

/-- C2, instance: a buffer with a trailing comment, a blank line, a comment
line and an indented command, acknowledged three times. -/
theorem C2_command_payloads_witness :
    (∀ l ∈ [GCodeSender.bytes "ok", GCodeSender.bytes "ok 1", GCodeSender.bytes "ok"],
      GCodeSender.isOk l = true) ∧
    (GCodeSender.receiveLines (GCodeSender.new (GCodeSender.bytes "G1 X1 ; go\n\r\n(note)\n  M2"))
        [GCodeSender.bytes "ok", GCodeSender.bytes "ok 1", GCodeSender.bytes "ok"]).wire
      = GCodeSender.resetFrame 1 ::
          GCodeSender.commandFrames 1 ((GCodeSender.commandLines
            (GCodeSender.bytes "G1 X1 ; go\n\r\n(note)\n  M2")).take 3) :=
  ⟨by decide,
   (C2_command_payloads (GCodeSender.bytes "G1 X1 ; go\n\r\n(note)\n  M2")
      [GCodeSender.bytes "ok", GCodeSender.bytes "ok 1", GCodeSender.bytes "ok"]
      (by decide)).1⟩

/-- C3, as stated, fails: on the buffer `"G1 X1\nG1 X2\n"` the frame sent when
the reset frame is acknowledged is not of the form `N1 G1 X1*<cs>\n`, because
the reset frame has taken line number 1. -/
theorem C3_counterexample :
    ¬ ∃ cs : List Nat,
      (GCodeSender.receiveLines (GCodeSender.new (GCodeSender.bytes "G1 X1\nG1 X2\n"))
          [GCodeSender.bytes "ok"]).wire
        = (GCodeSender.new (GCodeSender.bytes "G1 X1\nG1 X2\n")).wire
            ++ [GCodeSender.bytes "N1 G1 X1*" ++ cs ++ GCodeSender.bytes "\n"] := by
  rintro ⟨cs, h⟩
  have hw : (GCodeSender.receiveLines (GCodeSender.new (GCodeSender.bytes "G1 X1\nG1 X2\n"))
      [GCodeSender.bytes "ok"]).wire
      = [GCodeSender.bytes "N1 M110*34\n", GCodeSender.bytes "N2 G1 X1*99\n"] := by decide
  rw [hw, GCodeSender.new_wire] at h
  simp [GCodeSender.bytes] at h

/-- C3, amended. On the buffer `"G1 X1\nG1 X2\n"` the constructor sends
`N1 M110*34\n`; the `ok` that acknowledges it makes the engine send
`N2 G1 X1*99\n`; one more `ok` makes it send `N3 G1 X2*97\n`, with `getDone()`
still false; a further `ok` sends nothing and makes `getDone()` true. The
numbers 99 and 97 are the checksums of `N2 G1 X1` and `N3 G1 X2`. -/
theorem C3_two_line_buffer (l1 l2 l3 : List Nat) (h1 : GCodeSender.isOk l1 = true)
    (h2 : GCodeSender.isOk l2 = true) (h3 : GCodeSender.isOk l3 = true) :
    (GCodeSender.new (GCodeSender.bytes "G1 X1\nG1 X2\n")).wire
      = [GCodeSender.bytes "N1 M110*34\n"] ∧
    (GCodeSender.receiveLines (GCodeSender.new (GCodeSender.bytes "G1 X1\nG1 X2\n")) [l1]).wire
      = [GCodeSender.bytes "N1 M110*34\n", GCodeSender.bytes "N2 G1 X1*99\n"] ∧
    (GCodeSender.receiveLines (GCodeSender.new (GCodeSender.bytes "G1 X1\nG1 X2\n")) [l1, l2]).wire
      = [GCodeSender.bytes "N1 M110*34\n", GCodeSender.bytes "N2 G1 X1*99\n",
         GCodeSender.bytes "N3 G1 X2*97\n"] ∧
    (GCodeSender.receiveLines (GCodeSender.new (GCodeSender.bytes "G1 X1\nG1 X2\n"))
        [l1, l2]).getDone = false ∧
    (GCodeSender.receiveLines (GCodeSender.new (GCodeSender.bytes "G1 X1\nG1 X2\n"))
        [l1, l2, l3]).wire
      = [GCodeSender.bytes "N1 M110*34\n", GCodeSender.bytes "N2 G1 X1*99\n",
         GCodeSender.bytes "N3 G1 X2*97\n"] ∧
    (GCodeSender.receiveLines (GCodeSender.new (GCodeSender.bytes "G1 X1\nG1 X2\n"))
        [l1, l2, l3]).getDone = true ∧
    GCodeSender.checksum (GCodeSender.bytes "N2 G1 X1") = 99 ∧
    GCodeSender.checksum (GCodeSender.bytes "N3 G1 X2") = 97 := by
  have hcl : GCodeSender.commandLines (GCodeSender.bytes "G1 X1\nG1 X2\n")
      = [GCodeSender.bytes "G1 X1", GCodeSender.bytes "G1 X2"] := by decide
  have r1 := GCodeSender.run_ok (GCodeSender.bytes "G1 X1\nG1 X2\n") [l1]
    (by simpa using h1)
  have r2 := GCodeSender.run_ok (GCodeSender.bytes "G1 X1\nG1 X2\n") [l1, l2]
    (by simpa using ⟨h1, h2⟩)
  have r3 := GCodeSender.run_ok (GCodeSender.bytes "G1 X1\nG1 X2\n") [l1, l2, l3]
    (by simpa using ⟨h1, h2, h3⟩)
  simp only [hcl, List.length_cons, List.length_nil] at r1 r2 r3
  refine ⟨GCodeSender.new_wire _, ?_, ?_, ?_, ?_, ?_, by decide, by decide⟩
  · rw [r1.2.2.2.1]; decide
  · rw [r2.2.2.2.1]; decide
  · rw [GCodeSender.getDone, r2.2.2.2.2.2.2]; decide
  · rw [r3.2.2.2.1]; decide
  · rw [GCodeSender.getDone, r3.2.2.2.2.2.2]; decide

/-- C3, instance of the amended statement with three plain `ok` lines. -/
theorem C3_two_line_buffer_witness :
    GCodeSender.isOk (GCodeSender.bytes "ok") = true ∧
    (GCodeSender.receiveLines (GCodeSender.new (GCodeSender.bytes "G1 X1\nG1 X2\n"))
        [GCodeSender.bytes "ok", GCodeSender.bytes "ok", GCodeSender.bytes "ok"]).getDone
      = true :=
  ⟨by decide,
   (C3_two_line_buffer (GCodeSender.bytes "ok") (GCodeSender.bytes "ok")
      (GCodeSender.bytes "ok") (by decide) (by decide) (by decide)).2.2.2.2.2.1⟩

/-- C4. For every source buffer with `k` command lines, after construction and
`n` received `ok` lines: `getDone()` is true exactly when `n > k`, so it is
false after each of the first `k` acknowledgements and true from the
`(k+1)`-th on; `1 + min n k` strings have been handed to the transport, the
reset frame and one command frame for each of the first `k` acknowledgements;
and an `ok` received when `k` or more have been received sends nothing. -/
theorem C4_done_after_last_line (buf : List Nat) (oks : List (List Nat))
    (hok : ∀ l ∈ oks, GCodeSender.isOk l = true) :
    (GCodeSender.receiveLines (GCodeSender.new buf) oks).getDone
      = decide ((GCodeSender.commandLines buf).length < oks.length) ∧
    (GCodeSender.receiveLines (GCodeSender.new buf) oks).wire.length
      = 1 + min oks.length (GCodeSender.commandLines buf).length ∧
    (∀ l : List Nat, GCodeSender.isOk l = true →
      (GCodeSender.commandLines buf).length ≤ oks.length →
      (GCodeSender.receiveLines (GCodeSender.new buf) (oks ++ [l])).wire
        = (GCodeSender.receiveLines (GCodeSender.new buf) oks).wire ∧
      (GCodeSender.receiveLines (GCodeSender.new buf) (oks ++ [l])).getDone = true) := by
  have r := GCodeSender.run_ok buf oks hok
  refine ⟨r.2.2.2.2.2.2, ?_, ?_⟩
  · rw [r.2.2.2.1, List.length_cons, GCodeSender.commandFrames_length, List.length_take]
    omega
  · intro l hl hk
    have r' := GCodeSender.run_ok buf (oks ++ [l]) (by
      intro x hx
      rcases List.mem_append.1 hx with h | h
      · exact hok x h
      · simp only [List.mem_singleton] at h; subst h; exact hl)
    refine ⟨?_, ?_⟩
    · rw [r.2.2.2.1, r'.2.2.2.1, List.take_of_length_le hk,
        List.take_of_length_le (by simp; omega)]
    · rw [GCodeSender.getDone, r'.2.2.2.2.2.2]
      simp; omega

/-- C4, instance: the buffer `"   (comment)\n; also comment\n"` has no command
line; once the reset frame is acknowledged `getDone()` is true and only the
reset frame has been sent. -/
theorem C4_done_after_last_line_witness :
    (∀ l ∈ [GCodeSender.bytes "ok"], GCodeSender.isOk l = true) ∧
    GCodeSender.commandLines (GCodeSender.bytes "   (comment)\n; also comment\n") = [] ∧
    (GCodeSender.receiveLines
        (GCodeSender.new (GCodeSender.bytes "   (comment)\n; also comment\n"))
        [GCodeSender.bytes "ok"]).getDone = true ∧
    (GCodeSender.receiveLines
        (GCodeSender.new (GCodeSender.bytes "   (comment)\n; also comment\n"))
        [GCodeSender.bytes "ok"]).wire.length = 1 := by
  have h := C4_done_after_last_line (GCodeSender.bytes "   (comment)\n; also comment\n")
    [GCodeSender.bytes "ok"] (by decide)
  have hcl : GCodeSender.commandLines (GCodeSender.bytes "   (comment)\n; also comment\n") = [] := by
    decide
  refine ⟨by decide, hcl, ?_, ?_⟩
  · rw [h.1, hcl]; decide
  · rw [h.2.1, hcl]; decide

/-! ## Reachable states and retransmission -/

namespace GCodeSender

theorem new_eq (buf : List Nat) :
    new buf = GCodeSender.mk buf 0 0 1 true false [resetFrame 1] := by
  simp [new, send, UINT]

theorem isResend_cases (l : List Nat) (h : isResend l = true) : isStart l = false := by
  match l, h with
  | a :: rest, h =>
    simp only [isResend, bytes, Bool.and_eq_true, decide_eq_true_eq, beq_iff_eq] at h
    have h2 := h.2
    simp only [List.take_succ_cons] at h2
    have ha : a = 82 := by
      have := (List.cons.inj h2).1
      simpa using this
    subst ha
    simp [isStart, bytes]
  | [], h => simp [isResend] at h

theorem receiveLine_resend (s : GCodeSender) (l : List Nat) (h : isResend l = true) :
    receiveLine s l =
      { s with pos := s.lastSent,
               lastChecksumLine := (s.lastChecksumLine + (UINT - 1)) % UINT } := by
  simp [receiveLine, isResend_cases l h, h]

theorem receiveLine_start (s : GCodeSender) (l : List Nat) (h : isStart l = true) :
    receiveLine s l =
      { s with pos := s.lastSent, sentM110 := true,
               lastChecksumLine := ((s.lastChecksumLine + 20) % UINT + 1) % UINT,
               wire := s.wire ++
                 [resetFrame (((s.lastChecksumLine + 20) % UINT + 1) % UINT)] } := by
  simp [receiveLine, h, send]

theorem receiveLine_other (s : GCodeSender) (l : List Nat) (h1 : isStart l = false)
    (h2 : isResend l = false) (h3 : isOk l = false) : receiveLine s l = s := by
  simp [receiveLine, h1, h2, h3]

/-- In every state reached from construction the reset frame has been sent,
`content <= lastSent <= pos <= contentEnd`, the buffer is the one given to the
constructor and the line counter is a value of `unsigned`. -/
theorem receiveLine_inv (s : GCodeSender) (l : List Nat)
    (h : s.sentM110 = true ∧ s.lastSent ≤ s.pos ∧ s.pos ≤ s.content.length ∧
      s.lastChecksumLine < UINT) :
    (receiveLine s l).content = s.content ∧ (receiveLine s l).sentM110 = true ∧
    (receiveLine s l).lastSent ≤ (receiveLine s l).pos ∧
    (receiveLine s l).pos ≤ s.content.length ∧
    (receiveLine s l).lastChecksumLine < UINT := by
  obtain ⟨hm, hls, hp, hc⟩ := h
  have hU : 0 < UINT := by rw [UINT_eq]; norm_num
  by_cases h1 : isStart l = true
  · rw [receiveLine_start s l h1]
    exact ⟨rfl, rfl, le_refl _, le_trans hls hp, Nat.mod_lt _ hU⟩
  · by_cases h2 : isResend l = true
    · rw [receiveLine_resend s l h2]
      exact ⟨rfl, hm, le_refl _, le_trans hls hp, Nat.mod_lt _ hU⟩
    · by_cases h3 : isOk l = true
      · rw [receiveLine_ok s l h3]
        rcases send_spec s hm hp with ⟨_, h⟩ | ⟨q, e, e2, k1, k2, k3, k4, _, _, _, _, _, h⟩
        · rw [h]; exact ⟨rfl, hm, le_trans hls hp, le_refl _, hc⟩
        · rw [h]; exact ⟨rfl, hm, by simp only; omega, k4, Nat.mod_lt _ hU⟩
      · rw [receiveLine_other s l (by simpa using h1) (by simpa using h2) (by simpa using h3)]
        exact ⟨rfl, hm, hls, hp, hc⟩

theorem receiveLines_inv (ls : List (List Nat)) : ∀ (s : GCodeSender),
    (s.sentM110 = true ∧ s.lastSent ≤ s.pos ∧ s.pos ≤ s.content.length ∧
      s.lastChecksumLine < UINT) →
    (receiveLines s ls).content = s.content ∧ (receiveLines s ls).sentM110 = true ∧
    (receiveLines s ls).lastSent ≤ (receiveLines s ls).pos ∧
    (receiveLines s ls).pos ≤ s.content.length ∧
    (receiveLines s ls).lastChecksumLine < UINT := by
  induction ls with
  | nil => intro s h; exact ⟨rfl, h⟩
  | cons l ls ih =>
    intro s h
    have h1 := receiveLine_inv s l h
    have h2 := ih (receiveLine s l) ⟨h1.2.1, h1.2.2.1, by rw [h1.1]; exact h1.2.2.2.1, h1.2.2.2.2⟩
    rw [h1.1] at h2
    exact h2

theorem reachable_inv (buf : List Nat) (ls : List (List Nat)) :
    (receiveLines (new buf) ls).content = buf ∧ (receiveLines (new buf) ls).sentM110 = true ∧
    (receiveLines (new buf) ls).lastSent ≤ (receiveLines (new buf) ls).pos ∧
    (receiveLines (new buf) ls).pos ≤ buf.length ∧
    (receiveLines (new buf) ls).lastChecksumLine < UINT := by
  have h := receiveLines_inv ls (new buf) (by
    rw [new_eq]
    exact ⟨rfl, le_refl _, Nat.zero_le _, by rw [UINT_eq]; norm_num⟩)
  rw [new_eq] at h ⊢
  exact h

/-- The strings handed to the transport only accumulate. -/
theorem wire_length_mono (ls : List (List Nat)) : ∀ (s : GCodeSender),
    s.wire.length ≤ (receiveLines s ls).wire.length := by
  induction ls with
  | nil => intro s; exact le_refl _
  | cons l ls ih =>
    intro s
    have h1 : s.wire.length ≤ (receiveLine s l).wire.length := by
      rcases receiveLine_wire_cases s l with h | ⟨f, h⟩ <;> rw [h]
      simp
    exact le_trans h1 (ih (receiveLine s l))

/-- The call of `send` with the cursor on the first byte `q` of a command line
`[q, e)` frames and sends that line. -/
theorem send_at_command (s : GCodeSender) (q e e2 : Nat) (hm : s.sentM110 = true)
    (hq : s.pos = q) (hqe : q < e) (hel : e ≤ s.content.length)
    (h5 : advanceWhile isspace s.content (s.content.length - q) q = q)
    (h6 : e = advanceWhile notCommandEnd s.content (s.content.length - q) q)
    (h7 : e2 = advanceWhile notLineEnd s.content (s.content.length - e) e) :
    send s = { s with pos := e2, lastSent := q,
                      lastChecksumLine := (s.lastChecksumLine + 1) % UINT,
                      wire := s.wire ++ [commandFrame ((s.lastChecksumLine + 1) % UINT)
                        (substring s.content q e)] } := by
  subst hq
  have hf : s.content.length - s.pos = (s.content.length - s.pos - 1) + 1 := by omega
  have hloop : sendLoop (s.content.length - s.pos) s false =
      ({ s with pos := e2, lastSent := s.pos,
                lastChecksumLine := (s.lastChecksumLine + 1) % UINT,
                wire := s.wire ++ [commandFrame ((s.lastChecksumLine + 1) % UINT)
                  (substring s.content s.pos e)] }, true) := by
    have hstep : ∀ fuel, sendLoop (fuel + 1) s false =
        ({ s with pos := e2, lastSent := s.pos,
                  lastChecksumLine := (s.lastChecksumLine + 1) % UINT,
                  wire := s.wire ++ [commandFrame ((s.lastChecksumLine + 1) % UINT)
                    (substring s.content s.pos e)] }, true) := by
      intro fuel
      rw [sendLoop, if_pos ⟨by omega, rfl⟩]
      simp only [h5, ← h6, ← h7]
      rw [if_pos (by omega), sendLoop_true]
    rw [hf]; exact hstep _
  rw [send, if_neg (by simp [hm])]
  simp only [hloop]
  rfl

end GCodeSender

namespace GCodeSender

/-- A line other than `Resend...` that sends nothing leaves `lastSent`, the line
counter and the record of sent strings as they were. -/
theorem quiet_step (t : GCodeSender) (l : List Nat) (hm : t.sentM110 = true)
    (hp : t.pos ≤ t.content.length) (hr : isResend l = false)
    (hq : (receiveLine t l).wire.length ≤ t.wire.length) :
    (receiveLine t l).content = t.content ∧ (receiveLine t l).sentM110 = true ∧
    (receiveLine t l).pos ≤ t.content.length ∧
    (receiveLine t l).lastSent = t.lastSent ∧
    (receiveLine t l).lastChecksumLine = t.lastChecksumLine ∧
    (receiveLine t l).wire = t.wire := by
  by_cases h1 : isStart l = true
  · rw [receiveLine_start t l h1] at hq
    simp at hq
  · by_cases h3 : isOk l = true
    · rw [receiveLine_ok t l h3] at hq ⊢
      rcases send_spec t hm hp with ⟨_, h⟩ | ⟨q, e, e2, _, _, _, _, _, _, _, _, _, h⟩
      · rw [h]; exact ⟨rfl, hm, le_refl _, rfl, rfl, rfl⟩
      · rw [h] at hq; simp at hq
    · rw [receiveLine_other t l (by simpa using h1) hr (by simpa using h3)]
      exact ⟨rfl, hm, hp, rfl, rfl, rfl⟩

theorem quiet_run (mid : List (List Nat)) : ∀ (t : GCodeSender), t.sentM110 = true →
    t.pos ≤ t.content.length → (∀ l ∈ mid, isResend l = false) →
    (receiveLines t mid).wire.length ≤ t.wire.length →
    (receiveLines t mid).content = t.content ∧ (receiveLines t mid).sentM110 = true ∧
    (receiveLines t mid).pos ≤ t.content.length ∧
    (receiveLines t mid).lastSent = t.lastSent ∧
    (receiveLines t mid).lastChecksumLine = t.lastChecksumLine ∧
    (receiveLines t mid).wire = t.wire := by
  induction mid with
  | nil => intro t hm hp _ _; exact ⟨rfl, hm, hp, rfl, rfl, rfl⟩
  | cons l mid ih =>
    intro t hm hp hr hq
    have hmono := wire_length_mono mid (receiveLine t l)
    have hq' : (receiveLines (receiveLine t l) mid).wire.length ≤ t.wire.length := hq
    have h1 := quiet_step t l hm hp (hr l (by simp)) (le_trans hmono hq')
    obtain ⟨a1, a2, a3, a4, a5, a6⟩ := h1
    have h2 := ih (receiveLine t l) a2 (by rw [a1]; exact a3)
      (fun x hx => hr x (by simp [hx])) (by rw [a6]; exact hq')
    obtain ⟨b1, b2, b3, b4, b5, b6⟩ := h2
    have hcons : receiveLines t (l :: mid) = receiveLines (receiveLine t l) mid := rfl
    rw [hcons, b1, b4, b5, b6, a1, a4, a5, a6]
    rw [a1] at b3
    exact ⟨rfl, b2, b3, rfl, rfl, rfl⟩

/-- Retransmission after one `Resend...` line, on explicit states: `s1` is the
state just after `send` dispatched the frame `F`, and `s2` a state reached from
it by lines that are not `Resend...` lines and sent nothing. -/
theorem retransmit_core (s0 s1 s2 : GCodeSender) (F : List Nat) (mid : List (List Nat))
    (rs okl2 : List Nat)
    (i2 : s0.sentM110 = true) (i4 : s0.pos ≤ s0.content.length)
    (hs1 : s1 = send s0) (hF : s1.wire = s0.wire ++ [F])
    (hs2 : s2 = receiveLines s1 mid) (hmid : ∀ l ∈ mid, isResend l = false)
    (hquiet : s2.wire = s1.wire)
    (hrs : isResend rs = true) (hokl2 : isOk okl2 = true) :
    (receiveLine s2 rs).wire = s2.wire ∧
    (receiveLine (receiveLine s2 rs) okl2).wire = s2.wire ++ [F] ∧
    (receiveLine (receiveLine s2 rs) okl2).pos = s1.pos ∧
    (receiveLine (receiveLine s2 rs) okl2).lastSent = s1.lastSent ∧
    (receiveLine (receiveLine s2 rs) okl2).lastChecksumLine = s1.lastChecksumLine ∧
    (∃ payload, F = commandFrame s1.lastChecksumLine payload) := by
  rcases send_spec s0 i2 i4 with ⟨_, h⟩ | ⟨q, e, e2, k1, k2, k3, k4, k5, k6, k7, _, _, h⟩
  · -- nothing was sent: impossible
    rw [← hs1] at h
    have hw : s1.wire = s0.wire := by rw [h]
    rw [hw] at hF
    have := congrArg List.length hF
    simp at this
  · rw [← hs1] at h
    have hw1 : s1.wire = s0.wire ++ [commandFrame
        ((s0.lastChecksumLine + 1) % UINT) (substring s0.content q e)] := by
      rw [h]
    have hFeq : F = commandFrame
        ((s0.lastChecksumLine + 1) % UINT) (substring s0.content q e) := by
      have := hF.symm.trans hw1
      simpa using this
    have hc1 : s1.content = s0.content := by rw [h]
    have hm1 : s1.sentM110 = true := by rw [h]; exact i2
    have hp1 : s1.pos = e2 := by rw [h]
    have hl1 : s1.lastSent = q := by rw [h]
    have hn1 : s1.lastChecksumLine = (s0.lastChecksumLine + 1) % UINT := by rw [h]
    have hq := quiet_run mid s1 hm1 (by rw [hp1, hc1]; exact k4) hmid
      (by rw [← hs2]; exact le_of_eq (congrArg List.length hquiet))
    rw [← hs2] at hq
    obtain ⟨b1, b2, b3, b4, b5, b6⟩ := hq
    have hrs2 := receiveLine_resend s2 rs hrs
    have hU : (0 : Nat) < UINT := by rw [UINT_eq]; norm_num
    have hs3 : receiveLine (receiveLine s2 rs) okl2 = send (receiveLine s2 rs) :=
      receiveLine_ok _ okl2 hokl2
    have hc2 : s2.content = s0.content := b1.trans hc1
    have hsend := send_at_command (receiveLine s2 rs) q e e2
      (by rw [hrs2]; exact b2) (by rw [hrs2]; exact b4.trans hl1) k2
      (by rw [hrs2]; simp only; rw [hc2]; omega)
      (by rw [hrs2]; simp only; rw [hc2]; exact k5)
      (by rw [hrs2]; simp only; rw [hc2]; exact k6)
      (by rw [hrs2]; simp only; rw [hc2]; exact k7)
    have hnum : ((receiveLine s2 rs).lastChecksumLine + 1) % UINT = s1.lastChecksumLine := by
      rw [hrs2]
      show ((s2.lastChecksumLine + (UINT - 1)) % UINT + 1) % UINT = _
      have hlt : s1.lastChecksumLine < UINT := by rw [hn1]; exact Nat.mod_lt _ hU
      rw [b5]
      rw [UINT_eq] at hlt ⊢
      omega
    rw [hnum] at hsend
    refine ⟨by rw [hrs2], ?_, ?_, ?_, ?_, ⟨_, by rw [hn1]; exact hFeq⟩⟩
    · rw [hs3, hsend]
      show (receiveLine s2 rs).wire ++ _ = _
      rw [hrs2, hFeq, hn1]
      show s2.wire ++ [commandFrame _ (substring s2.content q e)] = _
      rw [hc2]
    · rw [hs3, hsend]; exact hp1.symm
    · rw [hs3, hsend]; exact hl1.symm
    · rw [hs3, hsend]

end GCodeSender

/-- C5, as stated, fails: on the buffer `"G1\n"`, after the lines `ok` and
`Resend` the engine is in a reachable state whose most recently sent frame is
the command frame `N2 G1*...`; receiving one `Resend` and one `ok` from there
sends `N1 G1*...`, a different frame, because each `Resend` decrements the line
counter. -/
theorem C5_counterexample :
    (GCodeSender.receiveLines (GCodeSender.new (GCodeSender.bytes "G1\n"))
        [GCodeSender.bytes "ok", GCodeSender.bytes "Resend"]).wire.getLast?
      = some (GCodeSender.commandFrame 2 (GCodeSender.bytes "G1")) ∧
    (GCodeSender.receiveLines (GCodeSender.new (GCodeSender.bytes "G1\n"))
        [GCodeSender.bytes "ok", GCodeSender.bytes "Resend",
         GCodeSender.bytes "Resend", GCodeSender.bytes "ok"]).wire
      = (GCodeSender.receiveLines (GCodeSender.new (GCodeSender.bytes "G1\n"))
          [GCodeSender.bytes "ok", GCodeSender.bytes "Resend"]).wire
        ++ [GCodeSender.commandFrame 1 (GCodeSender.bytes "G1")] ∧
    GCodeSender.commandFrame 1 (GCodeSender.bytes "G1")
      ≠ GCodeSender.commandFrame 2 (GCodeSender.bytes "G1") := by
  decide

/-- C5, amended. Let `F` be the frame sent when an `ok` line is handled in a
state reached from construction (a command frame), and let any lines follow
that are not `Resend...` lines and send nothing, so that `F` is still the most
recently sent frame. Then a `Resend...` line sends nothing, and the `ok...`
line after it sends a frame identical to `F`, leaving the cursor, `lastSent`
and the line counter equal to their values just after `F` was first sent. -/
theorem C5_retransmission_exact (buf : List Nat) (pre mid : List (List Nat))
    (okl rs okl2 F : List Nat)
    (hokl : GCodeSender.isOk okl = true)
    (hF : (GCodeSender.receiveLine (GCodeSender.receiveLines (GCodeSender.new buf) pre) okl).wire
      = (GCodeSender.receiveLines (GCodeSender.new buf) pre).wire ++ [F])
    (hmid : ∀ l ∈ mid, GCodeSender.isResend l = false)
    (hquiet : (GCodeSender.receiveLines
        (GCodeSender.receiveLine (GCodeSender.receiveLines (GCodeSender.new buf) pre) okl) mid).wire
      = (GCodeSender.receiveLine (GCodeSender.receiveLines (GCodeSender.new buf) pre) okl).wire)
    (hrs : GCodeSender.isResend rs = true) (hokl2 : GCodeSender.isOk okl2 = true) :
    let s1 := GCodeSender.receiveLine (GCodeSender.receiveLines (GCodeSender.new buf) pre) okl
    let s2 := GCodeSender.receiveLines s1 mid
    let s3 := GCodeSender.receiveLine (GCodeSender.receiveLine s2 rs) okl2
    (GCodeSender.receiveLine s2 rs).wire = s2.wire ∧
    s3.wire = s2.wire ++ [F] ∧
    s3.pos = s1.pos ∧ s3.lastSent = s1.lastSent ∧
    s3.lastChecksumLine = s1.lastChecksumLine ∧
    (∃ payload, F = GCodeSender.commandFrame s1.lastChecksumLine payload) := by
  intro s1 s2 s3
  obtain ⟨i1, i2, _, i4, _⟩ := GCodeSender.reachable_inv buf pre
  exact GCodeSender.retransmit_core (GCodeSender.receiveLines (GCodeSender.new buf) pre)
    s1 s2 F mid rs okl2 i2 (by rw [i1]; exact i4)
    (GCodeSender.receiveLine_ok _ okl hokl) hF rfl hmid hquiet hrs hokl2

/-- C5, instance of the amended statement: on `"G1 X1\nG1 X2\n"` the second
command frame `N3 G1 X2*97\n` is sent, an unrecognised line follows, and
`Resend:3` then `ok` make the engine send `N3 G1 X2*97\n` again. -/
theorem C5_retransmission_exact_witness :
    (GCodeSender.receiveLine
      (GCodeSender.receiveLine
        (GCodeSender.receiveLines
          (GCodeSender.receiveLine
            (GCodeSender.receiveLines (GCodeSender.new (GCodeSender.bytes "G1 X1\nG1 X2\n"))
              [GCodeSender.bytes "ok"])
            (GCodeSender.bytes "ok"))
          [GCodeSender.bytes "echo"])
        (GCodeSender.bytes "Resend:3"))
      (GCodeSender.bytes "ok")).wire
    = (GCodeSender.receiveLines
          (GCodeSender.receiveLine
            (GCodeSender.receiveLines (GCodeSender.new (GCodeSender.bytes "G1 X1\nG1 X2\n"))
              [GCodeSender.bytes "ok"])
            (GCodeSender.bytes "ok"))
          [GCodeSender.bytes "echo"]).wire
        ++ [GCodeSender.bytes "N3 G1 X2*97\n"] :=
  (C5_retransmission_exact (GCodeSender.bytes "G1 X1\nG1 X2\n") [GCodeSender.bytes "ok"]
    [GCodeSender.bytes "echo"] (GCodeSender.bytes "ok") (GCodeSender.bytes "Resend:3")
    (GCodeSender.bytes "ok") (GCodeSender.bytes "N3 G1 X2*97\n")
    (by decide) (by decide) (by decide) (by decide) (by decide) (by decide)).2.1

/-! ## Line numbers -/

namespace GCodeSender

theorem toString_digits (n : Nat) : ∀ c ∈ toString n, 48 ≤ c ∧ c ≤ 57 := by
  intro c hc
  rw [toString_eq_digits] at hc
  split at hc
  · simp at hc; omega
  · simp only [List.mem_map, List.mem_reverse] at hc
    obtain ⟨d, hd, rfl⟩ := hc
    have := Nat.digits_lt_base (by norm_num : 1 < 10) hd
    omega

theorem toString_ne_nil (n : Nat) : toString n ≠ [] := by
  rw [toString_eq_digits]
  split
  · simp
  · rename_i h
    simp only [ne_eq, List.map_eq_nil_iff, List.reverse_eq_nil_iff]
    intro h0
    exact h (Nat.digits_eq_nil_iff_eq_zero.1 h0)

theorem foldl_digits (ds : List Nat) :
    (ds.reverse.map (fun d => 48 + d)).foldl (fun a d => 10 * a + (d - 48)) 0
      = Nat.ofDigits 10 ds := by
  induction ds with
  | nil => rfl
  | cons d ds ih =>
    simp only [List.reverse_cons, List.map_append, List.map_cons, List.map_nil,
      List.foldl_append, List.foldl_cons, List.foldl_nil, ih, Nat.ofDigits_cons]
    omega

theorem foldl_toString (n : Nat) :
    (toString n).foldl (fun a d => 10 * a + (d - 48)) 0 = n := by
  rw [toString_eq_digits]
  split
  · rename_i h; subst h; rfl
  · rw [foldl_digits, Nat.ofDigits_digits]

/-- Reading back the line number of a frame text `N<number><sp>...`. -/
theorem frameNumber_text (n : Nat) (tail : List Nat) :
    frameNumber (bytes "N" ++ toString n ++ 32 :: tail) = some n := by
  have hN : bytes "N" = [78] := by decide
  rw [hN]
  simp only [List.singleton_append, List.cons_append, List.nil_append, frameNumber]
  have htw : List.takeWhile (fun c => decide (48 ≤ c ∧ c ≤ 57)) (toString n ++ 32 :: tail)
      = toString n := by
    rw [List.takeWhile_append_of_pos]
    · simp
    · intro c hc
      have := toString_digits n c hc
      simpa using this
  rw [htw, if_neg (toString_ne_nil n), foldl_toString]

theorem frameNumber_resetFrame (n : Nat) : frameNumber (resetFrame n) = some n := by
  have h : resetFrame n = bytes "N" ++ toString n ++
      32 :: ([77, 49, 49, 48] ++ ([42] ++ toString (checksum
        (bytes "N" ++ toString n ++ bytes " M110")) ++ [10])) := by
    simp [resetFrame, addChecksum, bytes]
  rw [h, frameNumber_text]

theorem frameNumber_commandFrame (n : Nat) (payload : List Nat) :
    frameNumber (commandFrame n payload) = some n := by
  have h : commandFrame n payload = bytes "N" ++ toString n ++
      32 :: (payload ++ ([42] ++ toString (checksum
        (bytes "N" ++ toString n ++ bytes " " ++ payload)) ++ [10])) := by
    simp [commandFrame, addChecksum, bytes]
  rw [h, frameNumber_text]

end GCodeSender

namespace GCodeSender

theorem sendLoop_counter (fuel : Nat) : ∀ (s : GCodeSender) (b : Bool),
    ((sendLoop fuel s b).1.wire = s.wire ∧
      (sendLoop fuel s b).1.lastChecksumLine = s.lastChecksumLine) ∨
    ∃ payload, (sendLoop fuel s b).1.wire
        = s.wire ++ [commandFrame ((s.lastChecksumLine + 1) % UINT) payload] ∧
      (sendLoop fuel s b).1.lastChecksumLine = (s.lastChecksumLine + 1) % UINT := by
  induction fuel with
  | zero => intro s b; left; exact ⟨rfl, rfl⟩
  | succ fuel ih =>
    intro s b
    rw [sendLoop]
    split
    · simp only
      split
      · right
        rw [sendLoop_true]
        exact ⟨_, rfl, rfl⟩
      · exact ih _ _
    · left; exact ⟨rfl, rfl⟩

/-- A call of `send` either sends nothing and keeps the line counter, or
increments the counter and sends one frame carrying the new value. -/
theorem send_counter (s : GCodeSender) :
    ((send s).wire = s.wire ∧ (send s).lastChecksumLine = s.lastChecksumLine) ∨
    ∃ f, (send s).wire = s.wire ++ [f] ∧
      frameNumber f = some ((s.lastChecksumLine + 1) % UINT) ∧
      (send s).lastChecksumLine = (s.lastChecksumLine + 1) % UINT := by
  rw [send]
  split
  · right
    exact ⟨_, rfl, frameNumber_resetFrame _, rfl⟩
  · have hw : ∀ r : GCodeSender × Bool,
        (if r.2 = false then { r.1 with done := true } else r.1).wire = r.1.wire := by
      intro r; split <;> rfl
    have hn : ∀ r : GCodeSender × Bool,
        (if r.2 = false then { r.1 with done := true } else r.1).lastChecksumLine
          = r.1.lastChecksumLine := by
      intro r; split <;> rfl
    simp only [hw, hn]
    rcases sendLoop_counter (s.content.length - s.pos) s false with h | ⟨payload, h1, h2⟩
    · left; exact h
    · right; exact ⟨_, h1, frameNumber_commandFrame _ _, h2⟩

/-- While nothing is sent, the line counter changes only by the decrements of
the `Resend...` lines received. -/
theorem quiet_counter (mid : List (List Nat)) : ∀ (t : GCodeSender),
    (receiveLines t mid).wire.length ≤ t.wire.length →
    (receiveLines t mid).wire = t.wire ∧
    (receiveLines t mid).lastChecksumLine % UINT
      = (t.lastChecksumLine + mid.countP isResend * (UINT - 1)) % UINT := by
  induction mid with
  | nil => intro t _; exact ⟨rfl, by simp [receiveLines]⟩
  | cons l mid ih =>
    intro t hq
    have hcons : receiveLines t (l :: mid) = receiveLines (receiveLine t l) mid := rfl
    rw [hcons] at hq ⊢
    have hmono : (receiveLine t l).wire.length ≤ t.wire.length :=
      le_trans (wire_length_mono mid (receiveLine t l)) hq
    have hstep : (receiveLine t l).wire = t.wire ∧
        (receiveLine t l).lastChecksumLine % UINT
          = (t.lastChecksumLine + (if isResend l = true then 1 else 0) * (UINT - 1)) % UINT := by
      by_cases h1 : isStart l = true
      · have := receiveLine_start t l h1
        rw [this] at hmono
        simp at hmono
      · by_cases h2 : isResend l = true
        · rw [receiveLine_resend t l h2, if_pos h2]
          simp
        · rw [if_neg h2]
          by_cases h3 : isOk l = true
          · rw [receiveLine_ok t l h3] at hmono ⊢
            rcases send_counter t with ⟨a, b⟩ | ⟨f, a, _, _⟩
            · rw [a, b]; simp
            · rw [a] at hmono; simp at hmono
          · rw [receiveLine_other t l (by simpa using h1) (by simpa using h2)
              (by simpa using h3)]
            simp
    have h2 := ih (receiveLine t l) (by rw [hstep.1]; exact hq)
    refine ⟨h2.1.trans hstep.1, ?_⟩
    rw [h2.2, List.countP_cons]
    have hs := hstep.2
    rw [UINT_eq] at hs ⊢
    split at hs <;> rename_i hr
    · simp only [hr, if_true]; omega
    · simp only [hr]; simp only [Bool.false_eq_true, if_false]; omega

/-- The numbers of two consecutive frames. -/
theorem consecutive_numbers (s0 : GCodeSender) (F1 F2 : List Nat) (mid : List (List Nat))
    (y : List Nat)
    (h1 : (send s0).wire = s0.wire ++ [F1])
    (hmid : (receiveLines (send s0) mid).wire = (send s0).wire)
    (h2 : (receiveLine (receiveLines (send s0) mid) y).wire
      = (receiveLines (send s0) mid).wire ++ [F2]) :
    ∃ p n2, frameNumber F1 = some p ∧ frameNumber F2 = some n2 ∧ p < UINT ∧
      n2 = (p + (if isStart y = true then 21 else 1) + mid.countP isResend * (UINT - 1)) % UINT := by
  have hU : (0 : Nat) < UINT := by rw [UINT_eq]; norm_num
  -- the first frame carries the counter
  rcases send_counter s0 with ⟨a, _⟩ | ⟨f, a, hf, hc1⟩
  · rw [a] at h1
    have := congrArg List.length h1
    simp at this
  · have hF1 : F1 = f := by
      have := h1.symm.trans a
      simpa using this
    subst hF1
    have hq := quiet_counter mid (send s0) (le_of_eq (congrArg List.length hmid))
    obtain ⟨_, hc2⟩ := hq
    rw [hc1] at hc2
    generalize receiveLines (send s0) mid = s2 at h2 hc2
    refine ⟨_, _, hf, ?_, Nat.mod_lt _ hU, rfl⟩
    by_cases hy1 : isStart y = true
    · rw [receiveLine_start s2 y hy1] at h2
      have hF2 : F2 = resetFrame (((s2.lastChecksumLine + 20) % UINT + 1) % UINT) := by
        simpa using h2.symm
      rw [hF2, frameNumber_resetFrame, if_pos hy1]
      congr 1
      rw [UINT_eq] at hc2 ⊢
      omega
    · by_cases hy2 : isResend y = true
      · rw [receiveLine_resend s2 y hy2] at h2
        have := congrArg List.length h2
        simp at this
      · by_cases hy3 : isOk y = true
        · rw [receiveLine_ok s2 y hy3] at h2
          rcases send_counter s2 with ⟨a2, _⟩ | ⟨f2, a2, hf2, _⟩
          · rw [a2] at h2
            have := congrArg List.length h2
            simp at this
          · have hF2 : F2 = f2 := by
              have := h2.symm.trans a2
              simpa using this
            rw [hF2, hf2, if_neg hy1]
            congr 1
            rw [UINT_eq] at hc2 ⊢
            omega
        · rw [receiveLine_other s2 y (by simpa using hy1) (by simpa using hy2)
            (by simpa using hy3)] at h2
          have := congrArg List.length h2
          simp at this

/-- Lines that are not recognised change nothing. -/
theorem receiveLines_ignored (mid : List (List Nat)) (s : GCodeSender)
    (h : ∀ l ∈ mid, isStart l = false ∧ isResend l = false ∧ isOk l = false) :
    receiveLines s mid = s := by
  induction mid with
  | nil => rfl
  | cons l mid ih =>
    have hl := h l (by simp)
    show receiveLines (receiveLine s l) mid = s
    rw [receiveLine_other s l hl.1 hl.2.1 hl.2.2]
    exact ih (fun x hx => h x (by simp [hx]))

/-- When the command lines from the cursor on, and those from `lastSent` on,
are among the tail of a list `L` of payloads, a received line keeps this, and
what it hands to the transport is a reset frame or the frame of a payload in
`L`. -/
theorem tail_step (L : List (List Nat)) (s : GCodeSender) (l : List Nat)
    (hm : s.sentM110 = true) (hp : s.pos ≤ s.content.length)
    (hJ : (∃ A, L = A ++ commandLines (s.content.drop s.pos)) ∧
          (∃ B, L = B ++ commandLines (s.content.drop s.lastSent))) :
    ((∃ A, L = A ++ commandLines (s.content.drop (receiveLine s l).pos)) ∧
      (∃ B, L = B ++ commandLines (s.content.drop (receiveLine s l).lastSent))) ∧
    ∃ fs, (receiveLine s l).wire = s.wire ++ fs ∧
      ∀ f ∈ fs, (∃ n, f = resetFrame n) ∨ (∃ n p, p ∈ L ∧ f = commandFrame n p) := by
  obtain ⟨⟨A, hA⟩, ⟨B, hB⟩⟩ := hJ
  by_cases k1 : isStart l = true
  · rw [receiveLine_start s l k1]
    simp only
    refine ⟨⟨⟨B, hB⟩, ⟨B, hB⟩⟩, _, rfl, ?_⟩
    intro f hf
    rw [List.mem_singleton] at hf
    exact Or.inl ⟨_, hf⟩
  · by_cases k2 : isResend l = true
    · rw [receiveLine_resend s l k2]
      exact ⟨⟨⟨B, hB⟩, ⟨B, hB⟩⟩, [], by simp, by simp⟩
    · by_cases k3 : isOk l = true
      · rw [receiveLine_ok s l k3]
        rcases send_spec s hm hp with ⟨h1, h⟩ | ⟨q, e, e2, _, _, _, _, _, _, _, h8, h8', h⟩
        · rw [h]
          simp only
          refine ⟨⟨⟨A, ?_⟩, ⟨B, hB⟩⟩, [], by simp, by simp⟩
          rw [hA, h1, List.drop_length, commandLines_nil]
        · rw [h]
          simp only
          refine ⟨⟨⟨A ++ [substring s.content q e], ?_⟩, ⟨A, ?_⟩⟩, _, rfl, ?_⟩
          · rw [hA, h8, List.append_assoc, List.singleton_append]
          · rw [hA, h8']
          · intro f hf
            rw [List.mem_singleton] at hf
            refine Or.inr ⟨_, substring s.content q e, ?_, hf⟩
            rw [hA, h8]
            simp
      · rw [receiveLine_other s l (by simpa using k1) (by simpa using k2) (by simpa using k3)]
        exact ⟨⟨⟨A, hA⟩, ⟨B, hB⟩⟩, [], by simp, by simp⟩

/-- The same over a whole run: every string handed to the transport is a reset
frame or the frame of a payload in `L`. -/
theorem tail_run (L : List (List Nat)) (ls : List (List Nat)) : ∀ (s : GCodeSender),
    (s.sentM110 = true ∧ s.lastSent ≤ s.pos ∧ s.pos ≤ s.content.length ∧
      s.lastChecksumLine < UINT) →
    ((∃ A, L = A ++ commandLines (s.content.drop s.pos)) ∧
      (∃ B, L = B ++ commandLines (s.content.drop s.lastSent))) →
    ∃ fs, (receiveLines s ls).wire = s.wire ++ fs ∧
      ∀ f ∈ fs, (∃ n, f = resetFrame n) ∨ (∃ n p, p ∈ L ∧ f = commandFrame n p) := by
  induction ls with
  | nil => intro s _ _; exact ⟨[], by simp [receiveLines], by simp⟩
  | cons l ls ih =>
    intro s hI hJ
    have h1 := receiveLine_inv s l hI
    obtain ⟨h2, fs1, hw1, hf1⟩ := tail_step L s l hI.1 hI.2.2.1 hJ
    obtain ⟨fs2, hw2, hf2⟩ := ih (receiveLine s l)
      ⟨h1.2.1, h1.2.2.1, by rw [h1.1]; exact h1.2.2.2.1, h1.2.2.2.2⟩
      (by rw [h1.1]; exact h2)
    refine ⟨fs1 ++ fs2, ?_, ?_⟩
    · show (receiveLines (receiveLine s l) ls).wire = _
      rw [hw2, hw1, List.append_assoc]
    · intro f hf
      rcases List.mem_append.1 hf with h | h
      · exact hf1 f h
      · exact hf2 f h

/-- Lines that are neither `start` nor `Resend...` act as their `ok...` lines
alone: the unrecognised ones are ignored. -/
theorem receiveLines_filter_ok (pre : List (List Nat)) : ∀ (s : GCodeSender),
    (∀ l ∈ pre, isStart l = false ∧ isResend l = false) →
    receiveLines s pre = receiveLines s (pre.filter isOk) := by
  induction pre with
  | nil => intro s _; rfl
  | cons l pre ih =>
    intro s h
    have hl := h l (by simp)
    have ht : ∀ x ∈ pre, isStart x = false ∧ isResend x = false :=
      fun x hx => h x (by simp [hx])
    by_cases k : isOk l = true
    · rw [List.filter_cons_of_pos k]
      show receiveLines (receiveLine s l) pre = receiveLines (receiveLine s l) (pre.filter isOk)
      exact ih _ ht
    · rw [List.filter_cons_of_neg k]
      show receiveLines (receiveLine s l) pre = receiveLines s (pre.filter isOk)
      rw [receiveLine_other s l hl.1 hl.2 (by simpa using k)]
      exact ih _ ht

/-- A prefix of length two of a list that has at least two elements. -/
theorem take_two (n : Nat) (c1 c2 : List Nat) (rest : List (List Nat))
    (h : ((c1 :: c2 :: rest).take n).length = 2) :
    (c1 :: c2 :: rest).take n = [c1, c2] ∧ min n (c1 :: c2 :: rest).length = 2 := by
  refine ⟨?_, by rw [List.length_take] at h; exact h⟩
  match n, h with
  | 0, h => simp at h
  | 1, h => simp at h
  | n + 2, h =>
    simp only [List.take_succ_cons, List.length_cons] at h ⊢
    have : (rest.take n).length = 0 := by omega
    rw [List.length_eq_zero.1 this]

end GCodeSender

/-- C6, as stated, fails on the buffer `"G1\nG2\n"` (command lines `G1`,
`G2`). In each run below `start` is received after the reset frame and two
command frames have been sent.
After `ok`, `ok`, `Resend`, `Resend`, `Resend` the second command frame is
numbered `n = 3`; `start` then sends the reset frame `N21` and the next `ok`
sends `G2` as `N22`, which is less than `n + 20 = 23`. The same number `22`
results when the three `Resend` lines arrive between `start` and the `ok`.
After `ok`, `Resend`, `ok` the two command frames sent are both `N2 G1`;
`start` and `ok` then send `N23 M110` and `N24 G1`: the first command line is
sent again, not the second.
After `ok`, `start`, `ok` the two command frames sent are again both of `G1`;
a second `start` and `ok` send `N45 M110` and `N46 G1`. -/
theorem C6_counterexample :
    GCodeSender.commandLines (GCodeSender.bytes "G1\nG2\n")
      = [GCodeSender.bytes "G1", GCodeSender.bytes "G2"] ∧
    (GCodeSender.receiveLines (GCodeSender.new (GCodeSender.bytes "G1\nG2\n"))
        [GCodeSender.bytes "ok", GCodeSender.bytes "ok", GCodeSender.bytes "Resend",
         GCodeSender.bytes "Resend", GCodeSender.bytes "Resend"]).wire
      = [GCodeSender.resetFrame 1,
         GCodeSender.commandFrame 2 (GCodeSender.bytes "G1"),
         GCodeSender.commandFrame 3 (GCodeSender.bytes "G2")] ∧
    (GCodeSender.receiveLines (GCodeSender.new (GCodeSender.bytes "G1\nG2\n"))
        [GCodeSender.bytes "ok", GCodeSender.bytes "ok", GCodeSender.bytes "Resend",
         GCodeSender.bytes "Resend", GCodeSender.bytes "Resend", GCodeSender.bytes "start",
         GCodeSender.bytes "ok"]).wire
      = [GCodeSender.resetFrame 1,
         GCodeSender.commandFrame 2 (GCodeSender.bytes "G1"),
         GCodeSender.commandFrame 3 (GCodeSender.bytes "G2"),
         GCodeSender.resetFrame 21,
         GCodeSender.commandFrame 22 (GCodeSender.bytes "G2")] ∧
    GCodeSender.frameNumber (GCodeSender.commandFrame 3 (GCodeSender.bytes "G2")) = some 3 ∧
    GCodeSender.frameNumber (GCodeSender.commandFrame 22 (GCodeSender.bytes "G2")) = some 22 ∧
    ¬ (3 + 20 ≤ 22) ∧
    (GCodeSender.receiveLines (GCodeSender.new (GCodeSender.bytes "G1\nG2\n"))
        [GCodeSender.bytes "ok", GCodeSender.bytes "ok", GCodeSender.bytes "start",
         GCodeSender.bytes "Resend", GCodeSender.bytes "Resend", GCodeSender.bytes "Resend",
         GCodeSender.bytes "ok"]).wire
      = [GCodeSender.resetFrame 1,
         GCodeSender.commandFrame 2 (GCodeSender.bytes "G1"),
         GCodeSender.commandFrame 3 (GCodeSender.bytes "G2"),
         GCodeSender.resetFrame 24,
         GCodeSender.commandFrame 22 (GCodeSender.bytes "G2")] ∧
    (GCodeSender.receiveLines (GCodeSender.new (GCodeSender.bytes "G1\nG2\n"))
        [GCodeSender.bytes "ok", GCodeSender.bytes "Resend", GCodeSender.bytes "ok"]).wire
      = [GCodeSender.resetFrame 1,
         GCodeSender.commandFrame 2 (GCodeSender.bytes "G1"),
         GCodeSender.commandFrame 2 (GCodeSender.bytes "G1")] ∧
    (GCodeSender.receiveLines (GCodeSender.new (GCodeSender.bytes "G1\nG2\n"))
        [GCodeSender.bytes "ok", GCodeSender.bytes "Resend", GCodeSender.bytes "ok",
         GCodeSender.bytes "start", GCodeSender.bytes "ok"]).wire
      = [GCodeSender.resetFrame 1,
         GCodeSender.commandFrame 2 (GCodeSender.bytes "G1"),
         GCodeSender.commandFrame 2 (GCodeSender.bytes "G1"),
         GCodeSender.resetFrame 23,
         GCodeSender.commandFrame 24 (GCodeSender.bytes "G1")] ∧
    GCodeSender.commandFrame 24 (GCodeSender.bytes "G1")
      ≠ GCodeSender.commandFrame 24 (GCodeSender.bytes "G2") ∧
    (GCodeSender.receiveLines (GCodeSender.new (GCodeSender.bytes "G1\nG2\n"))
        [GCodeSender.bytes "ok", GCodeSender.bytes "start", GCodeSender.bytes "ok"]).wire
      = [GCodeSender.resetFrame 1,
         GCodeSender.commandFrame 2 (GCodeSender.bytes "G1"),
         GCodeSender.resetFrame 23,
         GCodeSender.commandFrame 24 (GCodeSender.bytes "G1")] ∧
    (GCodeSender.receiveLines (GCodeSender.new (GCodeSender.bytes "G1\nG2\n"))
        [GCodeSender.bytes "ok", GCodeSender.bytes "start", GCodeSender.bytes "ok",
         GCodeSender.bytes "start", GCodeSender.bytes "ok"]).wire
      = [GCodeSender.resetFrame 1,
         GCodeSender.commandFrame 2 (GCodeSender.bytes "G1"),
         GCodeSender.resetFrame 23,
         GCodeSender.commandFrame 24 (GCodeSender.bytes "G1"),
         GCodeSender.resetFrame 45,
         GCodeSender.commandFrame 46 (GCodeSender.bytes "G1")] ∧
    GCodeSender.commandFrame 46 (GCodeSender.bytes "G1")
      ≠ GCodeSender.commandFrame 46 (GCodeSender.bytes "G2") := by
  decide

/-- C6, amended. For every buffer with at least two command lines `c1`, `c2`:
let the lines received since construction contain no `start` and no
`Resend...` line, and let exactly three strings have been sent. Then these
are the reset frame `N1`, `c1` as `N2` and `c2` as `N3` (so `n = 3`). The line
`start` received now makes the engine send at once a reset frame, numbered 24.
When, after unrecognised lines only, an `ok...` line acknowledges that frame,
the next frame carries `c2`, numbered 25, which is at least `n + 20` (the
numbers being those read back from the frames); further acknowledgements send
the command lines that follow `c2`, in order. And whatever lines are received
after the `start`, every string sent after it is a reset frame or the frame of
`c2` or of a command line that follows it: `c1` is not sent again. -/
theorem C6_reset_recovery (buf c1 c2 : List Nat) (rest : List (List Nat))
    (hcmds : GCodeSender.commandLines buf = c1 :: c2 :: rest)
    (pre mid : List (List Nat)) (l3 : List Nat) (oks more : List (List Nat))
    (hpre : ∀ l ∈ pre, GCodeSender.isStart l = false ∧ GCodeSender.isResend l = false)
    (hsent : (GCodeSender.receiveLines (GCodeSender.new buf) pre).wire.length = 3)
    (hmid : ∀ l ∈ mid, GCodeSender.isStart l = false ∧ GCodeSender.isResend l = false ∧
      GCodeSender.isOk l = false)
    (h3 : GCodeSender.isOk l3 = true) (hoks : ∀ l ∈ oks, GCodeSender.isOk l = true) :
    (GCodeSender.receiveLines (GCodeSender.new buf) pre).wire
      = [GCodeSender.resetFrame 1, GCodeSender.commandFrame 2 c1,
         GCodeSender.commandFrame 3 c2] ∧
    (GCodeSender.receiveLines (GCodeSender.new buf) (pre ++ [GCodeSender.bytes "start"])).wire
      = [GCodeSender.resetFrame 1, GCodeSender.commandFrame 2 c1,
         GCodeSender.commandFrame 3 c2, GCodeSender.resetFrame 24] ∧
    (GCodeSender.receiveLines (GCodeSender.new buf)
        (pre ++ [GCodeSender.bytes "start"] ++ mid ++ [l3])).wire
      = [GCodeSender.resetFrame 1, GCodeSender.commandFrame 2 c1,
         GCodeSender.commandFrame 3 c2, GCodeSender.resetFrame 24,
         GCodeSender.commandFrame 25 c2] ∧
    (∃ n m, GCodeSender.frameNumber (GCodeSender.commandFrame 3 c2) = some n ∧
      GCodeSender.frameNumber (GCodeSender.commandFrame 25 c2) = some m ∧ n + 20 ≤ m) ∧
    (GCodeSender.receiveLines (GCodeSender.new buf)
        (pre ++ [GCodeSender.bytes "start"] ++ mid ++ [l3] ++ oks)).wire
      = [GCodeSender.resetFrame 1, GCodeSender.commandFrame 2 c1,
         GCodeSender.commandFrame 3 c2, GCodeSender.resetFrame 24]
        ++ GCodeSender.commandFrames 24 ((c2 :: rest).take (1 + oks.length)) ∧
    (∃ fs, (GCodeSender.receiveLines (GCodeSender.new buf)
        (pre ++ [GCodeSender.bytes "start"] ++ more)).wire
      = [GCodeSender.resetFrame 1, GCodeSender.commandFrame 2 c1,
         GCodeSender.commandFrame 3 c2, GCodeSender.resetFrame 24] ++ fs ∧
      ∀ f ∈ fs, (∃ n, f = GCodeSender.resetFrame n) ∨
        (∃ n p, p ∈ c2 :: rest ∧ f = GCodeSender.commandFrame n p)) := by
  have hU := GCodeSender.UINT_eq
  -- the lines received before `start` act as their `ok...` lines
  have hf := GCodeSender.receiveLines_filter_ok pre (GCodeSender.new buf) hpre
  have r := GCodeSender.run_ok_from (GCodeSender.new buf)
    (by rw [GCodeSender.new_eq]) (by rw [GCodeSender.new_eq]; exact Nat.zero_le _)
    (by rw [GCodeSender.new_eq, hU]; norm_num) (pre.filter GCodeSender.isOk)
    (fun l hl => (List.mem_filter.1 hl).2)
  rw [← hf] at r
  simp only [GCodeSender.new_eq, List.drop_zero, hcmds, List.singleton_append] at r
  obtain ⟨rc, rm, rp, rw', rn, _, _, rls⟩ := r
  have hinv := (GCodeSender.reachable_inv buf pre).2.2.1
  rw [← GCodeSender.new_eq] at rc rm rp rw' rn rls
  obtain ⟨s, hs⟩ : ∃ s, s = GCodeSender.receiveLines (GCodeSender.new buf) pre := ⟨_, rfl⟩
  rw [← hs] at rc rm rp rw' rn rls hsent hinv
  -- exactly two command frames have been sent
  have h2 : ((c1 :: c2 :: rest).take (pre.filter GCodeSender.isOk).length).length = 2 := by
    have := congrArg List.length rw'
    rw [hsent, List.length_cons, GCodeSender.commandFrames_length] at this
    omega
  obtain ⟨htk, hmin⟩ := GCodeSender.take_two _ c1 c2 rest h2
  rw [hmin] at rn rls
  rw [htk] at rw'
  have rls' : GCodeSender.commandLines (List.drop s.lastSent buf) = c2 :: rest := by
    have := rls (by omega)
    simpa using this
  have rw2 : s.wire = [GCodeSender.resetFrame 1, GCodeSender.commandFrame 2 c1,
      GCodeSender.commandFrame 3 c2] := by
    rw [rw']
    simp [GCodeSender.commandFrames, hU]
  have rn2 : s.lastChecksumLine = 3 := by
    rw [rn, hU]
  -- the state after `start`
  have hst : GCodeSender.isStart (GCodeSender.bytes "start") = true := by decide
  have ht := GCodeSender.receiveLine_start s (GCodeSender.bytes "start") hst
  rw [rn2] at ht
  have hnum : ((3 + 20) % GCodeSender.UINT + 1) % GCodeSender.UINT = 24 := by rw [hU]
  rw [hnum] at ht
  have key : ∀ more : List (List Nat), (∀ l ∈ more, GCodeSender.isOk l = true) →
      (GCodeSender.receiveLines (GCodeSender.receiveLine s (GCodeSender.bytes "start"))
        more).wire
      = [GCodeSender.resetFrame 1, GCodeSender.commandFrame 2 c1,
         GCodeSender.commandFrame 3 c2, GCodeSender.resetFrame 24]
          ++ GCodeSender.commandFrames 24 ((c2 :: rest).take more.length) := by
    intro more hmore
    have r2 := GCodeSender.run_ok_from (GCodeSender.receiveLine s (GCodeSender.bytes "start"))
      (by rw [ht]) (by rw [ht]; simp only; rw [rc]; omega)
      (by rw [ht, hU]; norm_num) more hmore
    have r2w := r2.2.2.2.1
    rw [r2w, ht]
    simp only [rc, rls', rw2, List.cons_append, List.nil_append]
  have split1 : ∀ more : List (List Nat),
      GCodeSender.receiveLines (GCodeSender.new buf) (pre ++ GCodeSender.bytes "start" :: more)
        = GCodeSender.receiveLines (GCodeSender.receiveLine s (GCodeSender.bytes "start"))
            more := by
    intro more
    rw [hs]
    simp only [GCodeSender.receiveLines, List.foldl_append, List.foldl_cons]
  -- unrecognised lines before the acknowledgement change nothing
  have split2 : ∀ more : List (List Nat),
      GCodeSender.receiveLines (GCodeSender.new buf)
          (pre ++ [GCodeSender.bytes "start"] ++ mid ++ more)
        = GCodeSender.receiveLines (GCodeSender.receiveLine s (GCodeSender.bytes "start"))
            more := by
    intro more
    have happ : pre ++ [GCodeSender.bytes "start"] ++ mid ++ more
        = pre ++ GCodeSender.bytes "start" :: (mid ++ more) := by simp
    rw [happ, split1]
    have hm := GCodeSender.receiveLines_ignored mid
      (GCodeSender.receiveLine s (GCodeSender.bytes "start")) hmid
    unfold GCodeSender.receiveLines at hm ⊢
    rw [List.foldl_append, hm]
  refine ⟨hs ▸ rw2, ?_, ?_, ⟨3, 25, GCodeSender.frameNumber_commandFrame _ _,
    GCodeSender.frameNumber_commandFrame _ _, by norm_num⟩, ?_, ?_⟩
  · have := key [] (by simp)
    rw [← split1] at this
    simpa [GCodeSender.commandFrames] using this
  · have := key [l3] (by simpa using h3)
    rw [← split2] at this
    simpa [GCodeSender.commandFrames, hU] using this
  · have := key (l3 :: oks) (by
      intro x hx
      rcases List.mem_cons.1 hx with h | h
      · subst h; exact h3
      · exact hoks x h)
    rw [← split2] at this
    have hlen : (l3 :: oks).length = 1 + oks.length := by simp; omega
    rw [hlen] at this
    have happ : pre ++ [GCodeSender.bytes "start"] ++ mid ++ [l3] ++ oks
        = pre ++ [GCodeSender.bytes "start"] ++ mid ++ l3 :: oks := by simp
    rw [happ]
    exact this
  · have hr := GCodeSender.tail_run (c2 :: rest) more
      (GCodeSender.receiveLine s (GCodeSender.bytes "start"))
      (by rw [ht]; simp only; rw [rc]
          exact ⟨trivial, le_refl _, by omega, by rw [hU]; norm_num⟩)
      (by rw [ht]; simp only; rw [rc, rls']; exact ⟨⟨[], rfl⟩, ⟨[], rfl⟩⟩)
    obtain ⟨fs, hw, hfs⟩ := hr
    refine ⟨fs, ?_, hfs⟩
    have happ : pre ++ [GCodeSender.bytes "start"] ++ more
        = pre ++ GCodeSender.bytes "start" :: more := by simp
    rw [happ, split1, hw, ht]
    simp only [rw2, List.cons_append, List.nil_append]

/-- C6, instance of the amended statement: the buffer
`"G1 X1\nG1 X2\nG1 X3\n"` with the lines `ok`, `echo`, `ok`, `start`, `wait`,
`ok`. -/
theorem C6_reset_recovery_witness :
    (GCodeSender.receiveLines (GCodeSender.new (GCodeSender.bytes "G1 X1\nG1 X2\nG1 X3\n"))
        ([GCodeSender.bytes "ok", GCodeSender.bytes "echo", GCodeSender.bytes "ok"]
          ++ [GCodeSender.bytes "start"] ++ [GCodeSender.bytes "wait"]
          ++ [GCodeSender.bytes "ok"])).wire
      = [GCodeSender.resetFrame 1, GCodeSender.commandFrame 2 (GCodeSender.bytes "G1 X1"),
         GCodeSender.commandFrame 3 (GCodeSender.bytes "G1 X2"), GCodeSender.resetFrame 24,
         GCodeSender.commandFrame 25 (GCodeSender.bytes "G1 X2")] :=
  (C6_reset_recovery (GCodeSender.bytes "G1 X1\nG1 X2\nG1 X3\n") (GCodeSender.bytes "G1 X1")
    (GCodeSender.bytes "G1 X2") [GCodeSender.bytes "G1 X3"] (by decide)
    [GCodeSender.bytes "ok", GCodeSender.bytes "echo", GCodeSender.bytes "ok"]
    [GCodeSender.bytes "wait"] (GCodeSender.bytes "ok") [] []
    (by decide) (by decide) (by decide) (by decide) (by decide)).2.2.1

/-- C7, as stated, fails: on the buffer `"G1\nG2\n"` with the received lines
`ok`, `ok`, `Resend`, `Resend`, `ok` the frames sent are numbered 1, 2, 3, 2.
The last frame is sent by an `ok` line, not by `start`; its number is not
greater than that of the frame before it, and, although `Resend` lines came in
between, it is not equal to it either. -/
theorem C7_counterexample :
    (GCodeSender.receiveLines (GCodeSender.new (GCodeSender.bytes "G1\nG2\n"))
        [GCodeSender.bytes "ok", GCodeSender.bytes "ok", GCodeSender.bytes "Resend",
         GCodeSender.bytes "Resend", GCodeSender.bytes "ok"]).wire.map GCodeSender.frameNumber
      = [some 1, some 2, some 3, some 2] ∧
    (GCodeSender.receiveLines (GCodeSender.new (GCodeSender.bytes "G1\nG2\n"))
        [GCodeSender.bytes "ok", GCodeSender.bytes "ok", GCodeSender.bytes "Resend",
         GCodeSender.bytes "Resend"]).wire.map GCodeSender.frameNumber
      = [some 1, some 2, some 3] ∧
    GCodeSender.isStart (GCodeSender.bytes "ok") = false ∧
    ¬ (3 < 2) ∧ (2 : Nat) ≠ 3 := by
  decide

/-- C7, amended. Let `F1` be a frame sent by a call of `send` (from the
constructor or from `receiveLine`), let lines follow that send nothing, `r` of
them `Resend...` lines, and let the next line `y` send the frame `F2`. With `p`
the line number of `F1`, the line number of `F2` is `p + 1 - r` modulo `2^32`
when `y` is an `ok...` line and `p + 21 - r` modulo `2^32` when `y` is `start`.
So the numbers increase strictly from a frame to the next when no `Resend...`
line came in between and the counter does not wrap, and a frame sent by `ok`
after exactly one `Resend...` line reuses the number of the frame before it. -/
theorem C7_line_numbers (s0 : GCodeSender) (F1 F2 : List Nat) (mid : List (List Nat))
    (y : List Nat)
    (h1 : (GCodeSender.send s0).wire = s0.wire ++ [F1])
    (hmid : (GCodeSender.receiveLines (GCodeSender.send s0) mid).wire = (GCodeSender.send s0).wire)
    (h2 : (GCodeSender.receiveLine (GCodeSender.receiveLines (GCodeSender.send s0) mid) y).wire
      = (GCodeSender.receiveLines (GCodeSender.send s0) mid).wire ++ [F2]) :
    ∃ p n2, GCodeSender.frameNumber F1 = some p ∧ GCodeSender.frameNumber F2 = some n2 ∧
      p < 2 ^ 32 ∧
      n2 = (p + (if GCodeSender.isStart y = true then 21 else 1)
              + mid.countP GCodeSender.isResend * (2 ^ 32 - 1)) % 2 ^ 32 ∧
      (mid.countP GCodeSender.isResend = 0 → p + 21 < 2 ^ 32 → p < n2) ∧
      (mid.countP GCodeSender.isResend = 1 → GCodeSender.isStart y = false → n2 = p) := by
  obtain ⟨p, n2, a, b, c, d⟩ := GCodeSender.consecutive_numbers s0 F1 F2 mid y h1 hmid h2
  rw [GCodeSender.UINT_eq] at c d
  refine ⟨p, n2, a, b, by norm_num; exact c, by norm_num; exact d, ?_, ?_⟩
  · intro hr hp
    rw [hr] at d
    norm_num at hp
    split at d <;> omega
  · intro hr hy
    rw [hr, hy] at d
    simp only [Bool.false_eq_true, if_false] at d
    omega

/-- C7, instance of the amended statement: on `"G1\nG2\n"` the first command
frame is numbered 2; after one `Resend` the `ok` sends a frame numbered 2
again. -/
theorem C7_line_numbers_witness :
    ∃ p n2,
      GCodeSender.frameNumber (GCodeSender.commandFrame 2 (GCodeSender.bytes "G1")) = some p ∧
      GCodeSender.frameNumber (GCodeSender.commandFrame 2 (GCodeSender.bytes "G1")) = some n2 ∧
      p < 2 ^ 32 ∧
      n2 = (p + (if GCodeSender.isStart (GCodeSender.bytes "ok") = true then 21 else 1)
              + [GCodeSender.bytes "Resend"].countP GCodeSender.isResend * (2 ^ 32 - 1)) % 2 ^ 32 ∧
      ([GCodeSender.bytes "Resend"].countP GCodeSender.isResend = 0 → p + 21 < 2 ^ 32 → p < n2) ∧
      ([GCodeSender.bytes "Resend"].countP GCodeSender.isResend = 1 →
        GCodeSender.isStart (GCodeSender.bytes "ok") = false → n2 = p) :=
  C7_line_numbers (GCodeSender.new (GCodeSender.bytes "G1\nG2\n"))
    (GCodeSender.commandFrame 2 (GCodeSender.bytes "G1"))
    (GCodeSender.commandFrame 2 (GCodeSender.bytes "G1"))
    [GCodeSender.bytes "Resend"] (GCodeSender.bytes "ok")
    (by decide) (by decide) (by decide)

/-! ## Completion -/

namespace GCodeSender

/-- `send` never clears `done`. -/
theorem sendLoop_done (fuel : Nat) : ∀ (t : GCodeSender) (b : Bool),
    (sendLoop fuel t b).1.done = t.done := by
  induction fuel with
  | zero => intro t b; rfl
  | succ fuel ih =>
    intro t b
    rw [sendLoop]
    split
    · simp only
      split
      · rw [ih]
      · rw [ih]
    · rfl

theorem send_done (s : GCodeSender) (h : s.done = true) : (send s).done = true := by
  rw [send]
  split
  · exact h
  · have hd : ∀ r : GCodeSender × Bool, r.1.done = true →
        (if r.2 = false then { r.1 with done := true } else r.1).done = true := by
      intro r hr; split
      · rfl
      · exact hr
    exact hd _ (by rw [sendLoop_done]; exact h)

theorem receiveLine_done (s : GCodeSender) (l : List Nat) (h : s.done = true) :
    (receiveLine s l).done = true := by
  rw [receiveLine]
  split
  · exact send_done _ h
  · split
    · exact h
    · split
      · exact send_done _ h
      · exact h

theorem receiveLines_done (ls : List (List Nat)) : ∀ (s : GCodeSender), s.done = true →
    (receiveLines s ls).done = true := by
  induction ls with
  | nil => intro s h; exact h
  | cons l ls ih => intro s h; exact ih _ (receiveLine_done s l h)

/-- In a state with the cursor at `contentEnd` and `done` set, lines other than
`start` and `Resend...` change nothing. -/
theorem done_fixed (post : List (List Nat)) (s : GCodeSender) (hm : s.sentM110 = true)
    (hp : s.pos = s.content.length) (hd : s.done = true)
    (hpost : ∀ l ∈ post, isStart l = false ∧ isResend l = false) :
    receiveLines s post = s := by
  induction post with
  | nil => rfl
  | cons l post ih =>
    have hl := hpost l (by simp)
    have hstep : receiveLine s l = s := by
      by_cases h3 : isOk l = true
      · rw [receiveLine_ok s l h3]
        rcases send_spec s hm (le_of_eq hp) with ⟨_, h⟩ | ⟨q, e, e2, _, _, _, _, _, _, _, h8, _, _⟩
        · rw [h]
          cases s
          simp only at hp hd
          simp [hp, hd]
        · rw [hp, List.drop_length, commandLines_nil] at h8
          exact absurd h8 (by simp)
      · exact receiveLine_other s l hl.1 hl.2 (by simpa using h3)
    show receiveLines (receiveLine s l) post = s
    rw [hstep]
    exact ih (fun x hx => hpost x (by simp [hx]))

/-- The moment `done` is set: the line is an `ok...` line and the call of
`send` found no command line up to `contentEnd`. -/
theorem done_set (s : GCodeSender) (x : List Nat) (hm : s.sentM110 = true)
    (hp : s.pos ≤ s.content.length) (h0 : s.done = false)
    (h1 : (receiveLine s x).done = true) :
    commandLines (s.content.drop s.pos) = [] ∧
    receiveLine s x = { s with pos := s.content.length, done := true } := by
  by_cases k1 : isStart x = true
  · rw [receiveLine_start s x k1] at h1
    simp only at h1
    rw [h0] at h1; exact absurd h1 (by simp)
  · by_cases k2 : isResend x = true
    · rw [receiveLine_resend s x k2] at h1
      simp only at h1
      rw [h0] at h1; exact absurd h1 (by simp)
    · by_cases k3 : isOk x = true
      · rw [receiveLine_ok s x k3] at h1 ⊢
        rcases send_spec s hm hp with ⟨hnil, h⟩ | ⟨q, e, e2, _, _, _, _, _, _, _, _, _, h⟩
        · exact ⟨hnil, h⟩
        · rw [h] at h1
          simp only at h1
          rw [h0] at h1; exact absurd h1 (by simp)
      · rw [receiveLine_other s x (by simpa using k1) (by simpa using k2)
          (by simpa using k3)] at h1
        rw [h0] at h1; exact absurd h1 (by simp)

/-- Frames sent for a list of payloads stay sent when one more string is
handed to the transport. -/
theorem framed_grow (A w : List (List Nat)) (f : List Nat)
    (h : ∃ ns : List Nat, ns.length = A.length ∧ (List.zipWith commandFrame ns A).Sublist w) :
    ∃ ns : List Nat, ns.length = A.length ∧
      (List.zipWith commandFrame ns A).Sublist (w ++ [f]) := by
  obtain ⟨ns, h1, h2⟩ := h
  exact ⟨ns, h1, h2.trans (List.sublist_append_left w [f])⟩

/-- Sending the frame of one more payload extends the payloads sent in order. -/
theorem framed_snoc (A w : List (List Nat)) (n : Nat) (p : List Nat)
    (h : ∃ ns : List Nat, ns.length = A.length ∧ (List.zipWith commandFrame ns A).Sublist w) :
    ∃ ns : List Nat, ns.length = (A ++ [p]).length ∧
      (List.zipWith commandFrame ns (A ++ [p])).Sublist (w ++ [commandFrame n p]) := by
  obtain ⟨ns, h1, h2⟩ := h
  refine ⟨ns ++ [n], by simp [h1], ?_⟩
  rw [List.zipWith_append _ _ _ _ _ h1]
  exact List.Sublist.append h2 (List.Sublist.refl _)

/-- The command lines that begin before the cursor, and those that begin
before `lastSent`, have each been framed and handed to the transport, one
frame per line and in the order of the buffer. This is kept by each received
line. -/
theorem sent_in_order_step (s : GCodeSender) (l : List Nat) (hm : s.sentM110 = true)
    (hp : s.pos ≤ s.content.length)
    (hJ : (∃ A, commandLines s.content = A ++ commandLines (s.content.drop s.pos) ∧
            ∃ ns : List Nat, ns.length = A.length ∧
              (List.zipWith commandFrame ns A).Sublist s.wire) ∧
          (∃ A, commandLines s.content = A ++ commandLines (s.content.drop s.lastSent) ∧
            ∃ ns : List Nat, ns.length = A.length ∧
              (List.zipWith commandFrame ns A).Sublist s.wire)) :
    (∃ A, commandLines s.content
        = A ++ commandLines (s.content.drop (receiveLine s l).pos) ∧
      ∃ ns : List Nat, ns.length = A.length ∧
        (List.zipWith commandFrame ns A).Sublist (receiveLine s l).wire) ∧
    (∃ A, commandLines s.content
        = A ++ commandLines (s.content.drop (receiveLine s l).lastSent) ∧
      ∃ ns : List Nat, ns.length = A.length ∧
        (List.zipWith commandFrame ns A).Sublist (receiveLine s l).wire) := by
  obtain ⟨⟨A, hA, hAw⟩, ⟨B, hB, hBw⟩⟩ := hJ
  by_cases k1 : isStart l = true
  · rw [receiveLine_start s l k1]
    simp only
    have hBw' := framed_grow B s.wire
      (resetFrame (((s.lastChecksumLine + 20) % UINT + 1) % UINT)) hBw
    exact ⟨⟨B, hB, hBw'⟩, ⟨B, hB, hBw'⟩⟩
  · by_cases k2 : isResend l = true
    · rw [receiveLine_resend s l k2]
      exact ⟨⟨B, hB, hBw⟩, ⟨B, hB, hBw⟩⟩
    · by_cases k3 : isOk l = true
      · rw [receiveLine_ok s l k3]
        rcases send_spec s hm hp with ⟨h1, h⟩ | ⟨q, e, e2, _, _, _, _, _, _, _, h8, h8', h⟩
        · rw [h]
          simp only
          refine ⟨⟨A, ?_, hAw⟩, ⟨B, hB, hBw⟩⟩
          rw [hA, h1, List.drop_length, commandLines_nil]
        · rw [h]
          simp only
          refine ⟨⟨A ++ [substring s.content q e], ?_,
            framed_snoc A s.wire _ _ hAw⟩, ⟨A, ?_, framed_grow A s.wire _ hAw⟩⟩
          · rw [hA, h8, List.append_assoc, List.singleton_append]
          · rw [hA, h8']
      · rw [receiveLine_other s l (by simpa using k1) (by simpa using k2) (by simpa using k3)]
        exact ⟨⟨A, hA, hAw⟩, ⟨B, hB, hBw⟩⟩

theorem sent_in_order_run (ls : List (List Nat)) : ∀ (s : GCodeSender),
    (s.sentM110 = true ∧ s.lastSent ≤ s.pos ∧ s.pos ≤ s.content.length ∧
      s.lastChecksumLine < UINT) →
    ((∃ A, commandLines s.content = A ++ commandLines (s.content.drop s.pos) ∧
        ∃ ns : List Nat, ns.length = A.length ∧
          (List.zipWith commandFrame ns A).Sublist s.wire) ∧
      (∃ A, commandLines s.content = A ++ commandLines (s.content.drop s.lastSent) ∧
        ∃ ns : List Nat, ns.length = A.length ∧
          (List.zipWith commandFrame ns A).Sublist s.wire)) →
    (∃ A, commandLines s.content
        = A ++ commandLines (s.content.drop (receiveLines s ls).pos) ∧
      ∃ ns : List Nat, ns.length = A.length ∧
        (List.zipWith commandFrame ns A).Sublist (receiveLines s ls).wire) := by
  induction ls with
  | nil => intro s _ hJ; exact hJ.1
  | cons l ls ih =>
    intro s hI hJ
    have h1 := receiveLine_inv s l hI
    have h2 := sent_in_order_step s l hI.1 hI.2.2.1 hJ
    have h3 := ih (receiveLine s l)
      ⟨h1.2.1, h1.2.2.1, by rw [h1.1]; exact h1.2.2.2.1, h1.2.2.2.2⟩
      (by rw [h1.1]; exact h2)
    rw [h1.1] at h3
    exact h3

end GCodeSender

/-- C8, as stated, fails: on the buffer `"G1\n"`, after two `ok` lines
`getDone()` is true; the line `start` received in that state makes the engine
hand the reset frame `N23 M110*...` to the transport. -/
theorem C8_counterexample :
    (GCodeSender.receiveLines (GCodeSender.new (GCodeSender.bytes "G1\n"))
        [GCodeSender.bytes "ok", GCodeSender.bytes "ok"]).getDone = true ∧
    (GCodeSender.receiveLine
        (GCodeSender.receiveLines (GCodeSender.new (GCodeSender.bytes "G1\n"))
          [GCodeSender.bytes "ok", GCodeSender.bytes "ok"])
        (GCodeSender.bytes "start")).wire
      = (GCodeSender.receiveLines (GCodeSender.new (GCodeSender.bytes "G1\n"))
          [GCodeSender.bytes "ok", GCodeSender.bytes "ok"]).wire
        ++ [GCodeSender.resetFrame 23] := by
  decide

/-- C8, amended. Once `getDone()` is true it stays true under every received
line. At the moment it becomes true, in a run from construction, every command
line of the buffer has been framed and handed to the transport: the strings
sent contain, as a subsequence in the order of the buffer, one command frame
for each command line (equal lines counted separately), carrying that line as
its payload. From then on, as long as no `start` or `Resend...` line is
received, no frame is handed to the transport: the state does not change at
all. -/
theorem C8_done_is_final (buf : List Nat) (pre post : List (List Nat)) (x : List Nat)
    (h0 : (GCodeSender.receiveLines (GCodeSender.new buf) pre).getDone = false)
    (h1 : (GCodeSender.receiveLine (GCodeSender.receiveLines (GCodeSender.new buf) pre) x).getDone
      = true)
    (hpost : ∀ l ∈ post, GCodeSender.isStart l = false ∧ GCodeSender.isResend l = false) :
    (∀ (s : GCodeSender) (lines : List (List Nat)), s.getDone = true →
      (GCodeSender.receiveLines s lines).getDone = true) ∧
    (∃ ns : List Nat, ns.length = (GCodeSender.commandLines buf).length ∧
      (List.zipWith GCodeSender.commandFrame ns (GCodeSender.commandLines buf)).Sublist
        (GCodeSender.receiveLine (GCodeSender.receiveLines (GCodeSender.new buf) pre) x).wire) ∧
    GCodeSender.receiveLines
        (GCodeSender.receiveLine (GCodeSender.receiveLines (GCodeSender.new buf) pre) x) post
      = GCodeSender.receiveLine (GCodeSender.receiveLines (GCodeSender.new buf) pre) x := by
  obtain ⟨i1, i2, i3, i4, i5⟩ := GCodeSender.reachable_inv buf pre
  have hJ := GCodeSender.sent_in_order_run pre (GCodeSender.new buf)
    (by rw [GCodeSender.new_eq]
        exact ⟨rfl, le_refl _, Nat.zero_le _, by rw [GCodeSender.UINT_eq]; norm_num⟩)
    (by rw [GCodeSender.new_eq]
        exact ⟨⟨[], by simp, [], by simp⟩, ⟨[], by simp, [], by simp⟩⟩)
  have hnc : (GCodeSender.new buf).content = buf := by rw [GCodeSender.new_eq]
  rw [hnc] at hJ
  generalize GCodeSender.receiveLines (GCodeSender.new buf) pre = s at *
  subst i1
  have hset := GCodeSender.done_set s x i2 i4 h0 h1
  refine ⟨fun s lines h => GCodeSender.receiveLines_done lines s h, ?_, ?_⟩
  · obtain ⟨A, hA, hAw⟩ := hJ
    rw [hset.2]
    rw [hset.1, List.append_nil] at hA
    rw [hA]
    exact hAw
  · rw [hset.2]
    exact GCodeSender.done_fixed post _ i2 rfl rfl hpost

/-- C8, instance of the amended statement: on `"G1\n"` the second `ok` sets
`done`; a further `ok` and an unrecognised line change nothing. -/
theorem C8_done_is_final_witness :
    GCodeSender.receiveLines
        (GCodeSender.receiveLine
          (GCodeSender.receiveLines (GCodeSender.new (GCodeSender.bytes "G1\n"))
            [GCodeSender.bytes "ok"])
          (GCodeSender.bytes "ok"))
        [GCodeSender.bytes "ok", GCodeSender.bytes "echo"]
      = GCodeSender.receiveLine
          (GCodeSender.receiveLines (GCodeSender.new (GCodeSender.bytes "G1\n"))
            [GCodeSender.bytes "ok"])
          (GCodeSender.bytes "ok") :=
  (C8_done_is_final (GCodeSender.bytes "G1\n") [GCodeSender.bytes "ok"]
    [GCodeSender.bytes "ok", GCodeSender.bytes "echo"] (GCodeSender.bytes "ok")
    (by decide) (by decide) (by decide)).2.2

/-! ## Resend lines and the positions in the buffer -/

namespace GCodeSender

/-- Lines that are not `ok...` lines leave `lastSent` as it is. -/
theorem no_ok_lastSent (mid : List (List Nat)) : ∀ t : GCodeSender,
    (∀ l ∈ mid, isOk l = false) → (receiveLines t mid).lastSent = t.lastSent := by
  induction mid with
  | nil => intro t _; rfl
  | cons l mid ih =>
    intro t h
    have hl := h l (by simp)
    have hstep : (receiveLine t l).lastSent = t.lastSent := by
      by_cases k1 : isStart l = true
      · rw [receiveLine_start t l k1]
      · by_cases k2 : isResend l = true
        · rw [receiveLine_resend t l k2]
        · rw [receiveLine_other t l (by simpa using k1) (by simpa using k2) hl]
    have hcons : receiveLines t (l :: mid) = receiveLines (receiveLine t l) mid := rfl
    rw [hcons, ih (receiveLine t l) (fun x hx => h x (by simp [hx])), hstep]

theorem advanceWhileChecked_eq (ok : Nat → Bool) (content : List Nat) (fuel : Nat) :
    ∀ p, p ≤ content.length →
      advanceWhileChecked ok content fuel p = some (advanceWhile ok content fuel p) := by
  induction fuel with
  | zero => intro p _; rfl
  | succ fuel ih =>
    intro p hp
    rw [advanceWhileChecked, advanceWhile]
    by_cases hlen : p = content.length
    · rw [if_neg (by simp [hlen]), if_neg (by simp [hlen])]
    · have hlt : p < content.length := by omega
      rw [if_pos hlen, List.getElem?_eq_getElem hlt, List.getD_eq_getElem _ _ hlt]
      simp only
      by_cases hok : ok content[p] = true
      · rw [if_pos hok, if_pos ⟨hlen, hok⟩, ih (p + 1) (by omega)]
      · rw [if_neg hok, if_neg (fun h => hok h.2)]

theorem sendLoopChecked_eq (fuel : Nat) : ∀ (s : GCodeSender) (b : Bool),
    s.pos ≤ s.content.length → sendLoopChecked fuel s b = some (sendLoop fuel s b) := by
  induction fuel with
  | zero => intro s b _; rfl
  | succ fuel ih =>
    intro s b hp
    rw [sendLoopChecked, sendLoop]
    by_cases hc : s.pos ≠ s.content.length ∧ b = false
    · rw [if_pos hc, if_pos hc]
      have hq_le := advanceWhile_le isspace s.content (s.content.length - s.pos) s.pos hp
        (le_refl _)
      have he_ge := le_advanceWhile notCommandEnd s.content
        (s.content.length - advanceWhile isspace s.content (s.content.length - s.pos) s.pos)
        (advanceWhile isspace s.content (s.content.length - s.pos) s.pos)
      have he_le := advanceWhile_le notCommandEnd s.content _ _ hq_le (le_refl _)
      have he2_le := advanceWhile_le notLineEnd s.content _ _ he_le (le_refl _)
      simp only [advanceWhileChecked_eq _ _ _ _ hp, advanceWhileChecked_eq _ _ _ _ hq_le,
        advanceWhileChecked_eq _ _ _ _ he_le]
      split
      · rw [substringChecked, if_pos ⟨he_ge, he_le⟩]
        simp only
        rw [ih _ _ he2_le]
        rfl
      · rw [ih _ _ he2_le]
    · rw [if_neg hc, if_neg hc]

theorem sendChecked_eq (s : GCodeSender) (hp : s.pos ≤ s.content.length) :
    sendChecked s = some (send s) := by
  rw [sendChecked, send]
  split
  · rfl
  · rw [sendLoopChecked_eq _ _ _ hp]

theorem sendLoop_pos_mono (fuel : Nat) : ∀ (s : GCodeSender) (b : Bool) (p : Nat),
    p ≤ s.pos → p ≤ (sendLoop fuel s b).1.pos := by
  induction fuel with
  | zero => intro s b p h; exact h
  | succ fuel ih =>
    intro s b p hp
    rw [sendLoop]
    split
    · have h1 := le_advanceWhile isspace s.content (s.content.length - s.pos) s.pos
      have h2 := le_advanceWhile notCommandEnd s.content
        (s.content.length - advanceWhile isspace s.content (s.content.length - s.pos) s.pos)
        (advanceWhile isspace s.content (s.content.length - s.pos) s.pos)
      have h3 := le_advanceWhile notLineEnd s.content
        (s.content.length - advanceWhile notCommandEnd s.content
          (s.content.length - advanceWhile isspace s.content (s.content.length - s.pos) s.pos)
          (advanceWhile isspace s.content (s.content.length - s.pos) s.pos))
        (advanceWhile notCommandEnd s.content
          (s.content.length - advanceWhile isspace s.content (s.content.length - s.pos) s.pos)
          (advanceWhile isspace s.content (s.content.length - s.pos) s.pos))
      simp only
      split
      · apply ih
        exact le_trans hp (le_trans h1 (le_trans h2 h3))
      · apply ih
        exact le_trans hp (le_trans h1 (le_trans h2 h3))
    · exact hp

/-- `send` never moves the cursor backward. -/
theorem send_pos_mono (s : GCodeSender) : s.pos ≤ (send s).pos := by
  rw [send]
  split
  · exact le_refl _
  · have h := sendLoop_pos_mono (s.content.length - s.pos) s false s.pos (le_refl _)
    have hp : ∀ r : GCodeSender × Bool,
        (if r.2 = false then { r.1 with done := true } else r.1).pos = r.1.pos := by
      intro r; split <;> rfl
    simp only [hp]
    exact h

theorem receiveLineChecked_eq (s : GCodeSender) (l : List Nat)
    (hls : s.lastSent ≤ s.content.length) (hp : s.pos ≤ s.content.length) :
    receiveLineChecked s l = some (receiveLine s l) := by
  rw [receiveLineChecked, receiveLine]
  split
  · exact sendChecked_eq _ hls
  · split
    · rfl
    · split
      · exact sendChecked_eq _ hp
      · rfl

end GCodeSender

/-- C12. For every engine state, a `Resend...` line sends no frame and puts
the cursor on `lastSent`, which it leaves as it is; a second `Resend...` line,
received directly or after any lines that are not `ok...` lines, sends no frame
either, and after it the cursor and `lastSent` both equal `lastSent` as it was
before the first `Resend...` line. -/
theorem C12_resend_idempotent (s : GCodeSender) (r1 r2 : List Nat) (mid : List (List Nat))
    (h1 : GCodeSender.isResend r1 = true) (h2 : GCodeSender.isResend r2 = true)
    (hmid : ∀ l ∈ mid, GCodeSender.isOk l = false) :
    (GCodeSender.receiveLine s r1).wire = s.wire ∧
    (GCodeSender.receiveLine s r1).pos = s.lastSent ∧
    (GCodeSender.receiveLine s r1).lastSent = s.lastSent ∧
    (GCodeSender.receiveLine (GCodeSender.receiveLine s r1) r2).wire = s.wire ∧
    (GCodeSender.receiveLine (GCodeSender.receiveLine s r1) r2).pos = s.lastSent ∧
    (GCodeSender.receiveLine (GCodeSender.receiveLine s r1) r2).lastSent = s.lastSent ∧
    (GCodeSender.receiveLine
        (GCodeSender.receiveLines (GCodeSender.receiveLine s r1) mid) r2).wire
      = (GCodeSender.receiveLines (GCodeSender.receiveLine s r1) mid).wire ∧
    (GCodeSender.receiveLine
        (GCodeSender.receiveLines (GCodeSender.receiveLine s r1) mid) r2).pos = s.lastSent ∧
    (GCodeSender.receiveLine
        (GCodeSender.receiveLines (GCodeSender.receiveLine s r1) mid) r2).lastSent
      = s.lastSent := by
  have hmidls := GCodeSender.no_ok_lastSent mid (GCodeSender.receiveLine s r1) hmid
  have e1 := GCodeSender.receiveLine_resend s r1 h1
  have e2 := GCodeSender.receiveLine_resend (GCodeSender.receiveLine s r1) r2 h2
  have e3 := GCodeSender.receiveLine_resend
    (GCodeSender.receiveLines (GCodeSender.receiveLine s r1) mid) r2 h2
  have l1 : (GCodeSender.receiveLine s r1).lastSent = s.lastSent := by rw [e1]
  refine ⟨by rw [e1], by rw [e1], l1, ?_, ?_, ?_, by rw [e3], ?_, ?_⟩
  · rw [e2]; show (GCodeSender.receiveLine s r1).wire = _; rw [e1]
  · rw [e2]; exact l1
  · rw [e2]; exact l1
  · rw [e3]; exact hmidls.trans l1
  · rw [e3]; exact hmidls.trans l1

/-- C12, instance: on `"G1 X1\nG1 X2\n"` after two acknowledgements, `Resend`,
an unrecognised line and `Resend: 3` leave the cursor and `lastSent` at offset
6, the first byte of the second line. -/
theorem C12_resend_idempotent_witness :
    (GCodeSender.receiveLine
        (GCodeSender.receiveLines
          (GCodeSender.receiveLine
            (GCodeSender.receiveLines (GCodeSender.new (GCodeSender.bytes "G1 X1\nG1 X2\n"))
              [GCodeSender.bytes "ok", GCodeSender.bytes "ok"])
            (GCodeSender.bytes "Resend"))
          [GCodeSender.bytes "echo"])
        (GCodeSender.bytes "Resend: 3")).pos
      = (GCodeSender.receiveLines (GCodeSender.new (GCodeSender.bytes "G1 X1\nG1 X2\n"))
          [GCodeSender.bytes "ok", GCodeSender.bytes "ok"]).lastSent ∧
    (GCodeSender.receiveLines (GCodeSender.new (GCodeSender.bytes "G1 X1\nG1 X2\n"))
        [GCodeSender.bytes "ok", GCodeSender.bytes "ok"]).lastSent = 6 :=
  ⟨(C12_resend_idempotent
      (GCodeSender.receiveLines (GCodeSender.new (GCodeSender.bytes "G1 X1\nG1 X2\n"))
        [GCodeSender.bytes "ok", GCodeSender.bytes "ok"])
      (GCodeSender.bytes "Resend") (GCodeSender.bytes "Resend: 3") [GCodeSender.bytes "echo"]
      (by decide) (by decide) (by decide)).2.2.2.2.2.2.2.1,
   by decide⟩

/-- C13. In every engine state reached from construction under any sequence
of received lines, `content <= lastSent <= pos <= contentEnd` (as offsets,
`0 <= lastSent <= pos <= length`), and handling any further line with every
read of the buffer checked succeeds with the same result, as does the call of
`send` in the constructor, so `send` reads no byte outside
`[content, contentEnd)`. A call of `send` never moves the cursor
backward. When handling a line moves the cursor backward, the line is `start`
or a `Resend...` line and the cursor ends on `lastSent`. When handling a line
changes `lastSent`, a command frame is dispatched whose payload is the bytes
`[lastSent, e)` of the buffer for the new `lastSent`. -/
theorem C13_position_invariant (buf : List Nat) (lines : List (List Nat)) (l : List Nat) :
    ((GCodeSender.receiveLines (GCodeSender.new buf) lines).content = buf ∧
      (GCodeSender.receiveLines (GCodeSender.new buf) lines).lastSent
        ≤ (GCodeSender.receiveLines (GCodeSender.new buf) lines).pos ∧
      (GCodeSender.receiveLines (GCodeSender.new buf) lines).pos ≤ buf.length) ∧
    GCodeSender.receiveLineChecked (GCodeSender.receiveLines (GCodeSender.new buf) lines) l
      = some (GCodeSender.receiveLine (GCodeSender.receiveLines (GCodeSender.new buf) lines) l) ∧
    GCodeSender.sendChecked (GCodeSender.mk buf 0 0 0 false false []) = some (GCodeSender.new buf) ∧
    (∀ t : GCodeSender, t.pos ≤ (GCodeSender.send t).pos) ∧
    ((GCodeSender.receiveLine (GCodeSender.receiveLines (GCodeSender.new buf) lines) l).pos
        < (GCodeSender.receiveLines (GCodeSender.new buf) lines).pos →
      (GCodeSender.isStart l = true ∨ GCodeSender.isResend l = true) ∧
      (GCodeSender.receiveLine (GCodeSender.receiveLines (GCodeSender.new buf) lines) l).pos
        = (GCodeSender.receiveLines (GCodeSender.new buf) lines).lastSent) ∧
    ((GCodeSender.receiveLine (GCodeSender.receiveLines (GCodeSender.new buf) lines) l).lastSent
        ≠ (GCodeSender.receiveLines (GCodeSender.new buf) lines).lastSent →
      ∃ e,
        (GCodeSender.receiveLine (GCodeSender.receiveLines (GCodeSender.new buf) lines) l).lastSent
          < e ∧ e ≤ buf.length ∧
        (GCodeSender.receiveLine (GCodeSender.receiveLines (GCodeSender.new buf) lines) l).wire
          = (GCodeSender.receiveLines (GCodeSender.new buf) lines).wire ++
            [GCodeSender.commandFrame
              (GCodeSender.receiveLine
                (GCodeSender.receiveLines (GCodeSender.new buf) lines) l).lastChecksumLine
              (GCodeSender.substring buf
                (GCodeSender.receiveLine
                  (GCodeSender.receiveLines (GCodeSender.new buf) lines) l).lastSent e)]) := by
  obtain ⟨i1, i2, i3, i4, _⟩ := GCodeSender.reachable_inv buf lines
  generalize GCodeSender.receiveLines (GCodeSender.new buf) lines = s at i1 i2 i3 i4 ⊢
  subst i1
  refine ⟨⟨rfl, i3, i4⟩, GCodeSender.receiveLineChecked_eq s l (le_trans i3 i4) i4,
    rfl, GCodeSender.send_pos_mono, ?_, ?_⟩
  · intro hlt
    by_cases k1 : GCodeSender.isStart l = true
    · exact ⟨Or.inl k1, by rw [GCodeSender.receiveLine_start s l k1]⟩
    · by_cases k2 : GCodeSender.isResend l = true
      · exact ⟨Or.inr k2, by rw [GCodeSender.receiveLine_resend s l k2]⟩
      · by_cases k3 : GCodeSender.isOk l = true
        · rw [GCodeSender.receiveLine_ok s l k3] at hlt
          have := GCodeSender.send_pos_mono s
          omega
        · rw [GCodeSender.receiveLine_other s l (by simpa using k1) (by simpa using k2)
            (by simpa using k3)] at hlt
          exact absurd hlt (lt_irrefl _)
  · intro hne
    by_cases k1 : GCodeSender.isStart l = true
    · rw [GCodeSender.receiveLine_start s l k1] at hne
      exact absurd rfl hne
    · by_cases k2 : GCodeSender.isResend l = true
      · rw [GCodeSender.receiveLine_resend s l k2] at hne
        exact absurd rfl hne
      · by_cases k3 : GCodeSender.isOk l = true
        · rw [GCodeSender.receiveLine_ok s l k3] at hne ⊢
          rcases GCodeSender.send_spec s i2 i4 with ⟨_, h⟩ |
            ⟨q, e, e2, _, a2, a3, a4, _, _, _, _, _, h⟩
          · rw [h] at hne
            exact absurd rfl hne
          · rw [h]
            exact ⟨e, a2, by omega, rfl⟩
        · rw [GCodeSender.receiveLine_other s l (by simpa using k1) (by simpa using k2)
            (by simpa using k3)] at hne
          exact absurd rfl hne

/-- C13, instance: on `"  G1 X1\nG1 X2\n"` the first `ok` moves `lastSent` from
0 to 2, the first byte of `G1 X1`, and the checked run agrees. -/
theorem C13_position_invariant_witness :
    GCodeSender.receiveLineChecked
        (GCodeSender.receiveLines (GCodeSender.new (GCodeSender.bytes "  G1 X1\nG1 X2\n")) [])
        (GCodeSender.bytes "ok")
      = some (GCodeSender.receiveLine
          (GCodeSender.receiveLines (GCodeSender.new (GCodeSender.bytes "  G1 X1\nG1 X2\n")) [])
          (GCodeSender.bytes "ok")) ∧
    (∃ e,
      (GCodeSender.receiveLine
        (GCodeSender.receiveLines (GCodeSender.new (GCodeSender.bytes "  G1 X1\nG1 X2\n")) [])
        (GCodeSender.bytes "ok")).lastSent < e ∧
      e ≤ (GCodeSender.bytes "  G1 X1\nG1 X2\n").length ∧
      (GCodeSender.receiveLine
        (GCodeSender.receiveLines (GCodeSender.new (GCodeSender.bytes "  G1 X1\nG1 X2\n")) [])
        (GCodeSender.bytes "ok")).wire
        = (GCodeSender.receiveLines
            (GCodeSender.new (GCodeSender.bytes "  G1 X1\nG1 X2\n")) []).wire ++
          [GCodeSender.commandFrame
            (GCodeSender.receiveLine
              (GCodeSender.receiveLines
                (GCodeSender.new (GCodeSender.bytes "  G1 X1\nG1 X2\n")) [])
              (GCodeSender.bytes "ok")).lastChecksumLine
            (GCodeSender.substring (GCodeSender.bytes "  G1 X1\nG1 X2\n")
              (GCodeSender.receiveLine
                (GCodeSender.receiveLines
                  (GCodeSender.new (GCodeSender.bytes "  G1 X1\nG1 X2\n")) [])
                (GCodeSender.bytes "ok")).lastSent e)]) ∧
    (GCodeSender.receiveLine
      (GCodeSender.receiveLines (GCodeSender.new (GCodeSender.bytes "  G1 X1\nG1 X2\n")) [])
      (GCodeSender.bytes "ok")).lastSent = 2 :=
  ⟨(C13_position_invariant (GCodeSender.bytes "  G1 X1\nG1 X2\n") [] (GCodeSender.bytes "ok")).2.1,
   (C13_position_invariant (GCodeSender.bytes "  G1 X1\nG1 X2\n") []
      (GCodeSender.bytes "ok")).2.2.2.2.2 (by decide),
   by decide⟩

/-! ## The read path of the transport -/

namespace Serial

theorem scanWhile_eq_advanceWhile (ok : Nat → Bool) (buf : List Nat) (fuel : Nat) :
    ∀ p, p ≤ buf.length → scanWhile ok buf fuel p = GCodeSender.advanceWhile ok buf fuel p := by
  induction fuel with
  | zero => intro p _; rfl
  | succ fuel ih =>
    intro p hp
    rw [scanWhile, GCodeSender.advanceWhile]
    by_cases hlt : p < buf.length
    · have hne : p ≠ buf.length := by omega
      by_cases hok : ok (buf.getD p 0) = true
      · rw [if_pos ⟨hlt, hok⟩, if_pos ⟨hne, hok⟩, ih (p + 1) (by omega)]
      · rw [if_neg (fun h => hok h.2), if_neg (fun h => hok h.2)]
    · have he : p = buf.length := by omega
      rw [if_neg (by simp [hlt]), if_neg (by simp [he])]

theorem scanWhile_eq (ok : Nat → Bool) (buf : List Nat) (fuel p : Nat)
    (hp : p ≤ buf.length) (hf : buf.length - p ≤ fuel) :
    scanWhile ok buf fuel p = p + ((buf.drop p).takeWhile ok).length := by
  rw [scanWhile_eq_advanceWhile ok buf fuel p hp, GCodeSender.advanceWhile_eq ok buf fuel p hp hf]

/-- No piece of a split holds a separator. -/
theorem splitOnP_no_sep (P : Nat → Bool) (l : List Nat) :
    ∀ piece ∈ l.splitOnP P, ∀ x ∈ piece, P x = false := by
  induction l with
  | nil => intro piece hp; simp [List.splitOnP_nil] at hp; subst hp; simp
  | cons a l ih =>
    intro piece hp
    rw [List.splitOnP_cons] at hp
    by_cases ha : P a = true
    · rw [if_pos ha] at hp
      rcases List.mem_cons.1 hp with h | h
      · subst h; simp
      · exact ih piece h
    · rw [if_neg ha] at hp
      cases hs : l.splitOnP P with
      | nil => exact absurd hs (List.splitOnP_ne_nil _ _)
      | cons h t =>
        rw [hs] at hp ih
        simp only [List.modifyHead] at hp
        rcases List.mem_cons.1 hp with h' | h'
        · subst h'
          intro x hx
          rcases List.mem_cons.1 hx with hx | hx
          · subst hx; simpa using ha
          · exact ih h (by simp) x hx
        · exact ih piece (List.mem_cons_of_mem _ h')

/-- Splitting a stream that grows: the pieces before the last terminator stay,
and the bytes after it are split together with the new bytes. -/
theorem splitOnP_append (P : Nat → Bool) (S c : List Nat) :
    (S ++ c).splitOnP P
      = (S.splitOnP P).dropLast ++ (((S.splitOnP P).getLast?).getD [] ++ c).splitOnP P := by
  induction S with
  | nil => simp [List.splitOnP_nil]
  | cons a S ih =>
    rw [List.cons_append, List.splitOnP_cons, List.splitOnP_cons]
    cases hs : S.splitOnP P with
    | nil => exact absurd hs (List.splitOnP_ne_nil _ _)
    | cons h t =>
      rw [hs] at ih
      by_cases ha : P a = true
      · rw [if_pos ha, if_pos ha, ih]
        simp [List.dropLast, List.getLast?_cons_cons]
      · rw [if_neg ha, if_neg ha, ih]
        cases t with
        | nil =>
          show List.modifyHead (List.cons a) (List.splitOnP P (h ++ c))
            = [] ++ List.splitOnP P ((a :: h) ++ c)
          rw [List.nil_append, List.cons_append, List.splitOnP_cons, if_neg ha]
        | cons b t' =>
          simp [List.dropLast, List.modifyHead, List.getLast?_cons_cons]

theorem notLineEnd_eq (c : Nat) : notLineEnd c = !isLineEnd c := by
  simp [notLineEnd, isLineEnd, Bool.not_or, bne]

theorem streamLines_append (S c : List Nat) :
    streamLines (S ++ c) = streamLines S ++ streamLines (streamRest S ++ c) := by
  unfold streamLines streamRest
  rw [splitOnP_append, List.dropLast_append_of_ne_nil _ (List.splitOnP_ne_nil _ _),
    List.filter_append]

theorem streamRest_append (S c : List Nat) :
    streamRest (S ++ c) = streamRest (streamRest S ++ c) := by
  unfold streamRest
  rw [splitOnP_append]
  cases h : List.splitOnP isLineEnd ((List.splitOnP isLineEnd S).getLast?.getD [] ++ c) with
  | nil => exact absurd h (List.splitOnP_ne_nil _ _)
  | cons a l => rw [List.getLast?_append_cons]

/-- A buffer without terminator holds no complete line. -/
theorem stream_no_sep (l : List Nat) (h : ∀ x ∈ l, isLineEnd x = false) :
    streamLines l = [] ∧ streamRest l = l := by
  have hs : l.splitOnP isLineEnd = [l] :=
    List.splitOnP_eq_single _ _ (fun x hx => by simp [h x hx])
  simp [streamLines, streamRest, hs]

/-- A buffer with a terminator: the bytes before the first terminator are a
line, when there are any, and the rest follows. -/
theorem stream_first (run rest : List Nat) (t : Nat) (hrun : ∀ x ∈ run, isLineEnd x = false)
    (ht : isLineEnd t = true) :
    streamLines (run ++ t :: rest) = (if run = [] then [] else [run]) ++ streamLines rest ∧
    streamRest (run ++ t :: rest) = streamRest rest := by
  have hs : (run ++ t :: rest).splitOnP isLineEnd = run :: rest.splitOnP isLineEnd :=
    List.splitOnP_first _ _ (fun x hx => by simp [hrun x hx]) t ht rest
  cases hr : rest.splitOnP isLineEnd with
  | nil => exact absurd hr (List.splitOnP_ne_nil _ _)
  | cons a l =>
    unfold streamLines streamRest
    rw [hs, hr]
    constructor
    · by_cases he : run = [] <;> simp [he, List.dropLast, List.filter_cons]
    · rw [List.getLast?_cons_cons]

theorem stream_dropWhile (l : List Nat) :
    streamLines (l.dropWhile isLineEnd) = streamLines l ∧
    streamRest (l.dropWhile isLineEnd) = streamRest l := by
  induction l with
  | nil => exact ⟨rfl, rfl⟩
  | cons a l ih =>
    by_cases ha : isLineEnd a = true
    · rw [List.dropWhile_cons_of_pos ha]
      have h := stream_first [] l a (by simp) ha
      simp only [List.nil_append, if_true] at h
      rw [h.1, h.2]
      exact ih
    · rw [List.dropWhile_cons_of_neg ha]
      exact ⟨rfl, rfl⟩

/-- The inner loop of `processCommState` delivers the complete lines of the
read buffer and keeps the bytes after the last terminator, provided these do
not fill the buffer. -/
theorem lineLoop_spec (fuel : Nat) : ∀ s : Serial, s.readBuffer.length < fuel →
    (streamRest s.readBuffer).length ≠ readBufferSize →
    lineLoop fuel s = { s with readBuffer := streamRest s.readBuffer,
                               lines := s.lines ++ streamLines s.readBuffer } := by
  induction fuel with
  | zero => intro s h; exact absurd h (Nat.not_lt_zero _)
  | succ fuel ih =>
    intro s hlen hrest
    obtain ⟨fo, hv, wr, q, buf, wt, ln, st⟩ := s
    simp only at hlen hrest ⊢
    have hp : scanWhile notLineEnd buf buf.length 0 = (buf.takeWhile notLineEnd).length := by
      rw [scanWhile_eq _ _ _ _ (Nat.zero_le _) (by omega)]; simp
    have hsplit := List.takeWhile_append_dropWhile notLineEnd buf
    have hrun : ∀ x ∈ buf.takeWhile notLineEnd, isLineEnd x = false := by
      intro x hx
      have := List.mem_takeWhile_imp hx
      rw [notLineEnd_eq] at this
      simpa using this
    rw [lineLoop]
    simp only [hp]
    cases hd : buf.dropWhile notLineEnd with
    | nil =>
      rw [hd, List.append_nil] at hsplit
      rw [hsplit] at hrun ⊢
      have hns := stream_no_sep buf hrun
      rw [hns.2] at hrest
      rw [if_neg (lt_irrefl _), if_neg hrest, hns.1, hns.2, List.append_nil]
    | cons t rest =>
      rw [hd] at hsplit
      have ht : isLineEnd t = true := by
        have := List.head_dropWhile_not notLineEnd buf (by rw [hd]; simp)
        simp only [hd, List.head_cons] at this
        rw [notLineEnd_eq] at this
        simpa using this
      have hlt : (buf.takeWhile notLineEnd).length < buf.length := by
        have := congrArg List.length hsplit
        simp at this; omega
      have hdrop : buf.drop (buf.takeWhile notLineEnd).length = t :: rest := by
        rw [GCodeSender.drop_length_takeWhile, hd]
      have hp2 : buf.drop (scanWhile isLineEnd buf (buf.length - (buf.takeWhile notLineEnd).length)
          (buf.takeWhile notLineEnd).length) = (t :: rest).dropWhile isLineEnd := by
        rw [scanWhile_eq _ _ _ _ (le_of_lt hlt) (le_refl _), ← List.drop_drop, hdrop,
          GCodeSender.drop_length_takeWhile]
      have hfirst := stream_first (buf.takeWhile notLineEnd) rest t hrun ht
      rw [hsplit] at hfirst
      have hdw := stream_dropWhile (t :: rest)
      have h0 := stream_first [] rest t (by simp) ht
      simp only [List.nil_append, if_true] at h0
      rw [if_pos hlt, hp2]
      have hshort : ((t :: rest).dropWhile isLineEnd).length < fuel := by
        rw [List.dropWhile_cons_of_pos ht]
        have h1 := (List.dropWhile_suffix isLineEnd (l := rest)).length_le
        have h2 := congrArg List.length hsplit
        simp at h2
        omega
      rw [ih _ hshort (by simp only; rw [hdw.2, h0.2, ← hfirst.2]; exact hrest)]
      simp only [hdw.1, hdw.2, h0.1, h0.2, hfirst.1, hfirst.2]
      rw [GCodeSender.take_length_takeWhile]
      by_cases he : buf.takeWhile notLineEnd = []
      · simp [he]
      · have : (buf.takeWhile notLineEnd).length ≠ 0 := by
          intro h; exact he (List.eq_nil_of_length_eq_zero h)
        simp [he, this]

theorem streamRest_no_sep (l : List Nat) : ∀ x ∈ streamRest l, isLineEnd x = false := by
  unfold streamRest
  cases h : (l.splitOnP isLineEnd).getLast? with
  | none => simp
  | some piece =>
    simp only [Option.getD_some]
    exact splitOnP_no_sep isLineEnd l piece (List.mem_of_getLast?_eq_some h)

theorem splitOnP_head (T B : List Nat) (hT : ∀ x ∈ T, isLineEnd x = false) :
    ∃ r rest, (T ++ B).splitOnP isLineEnd = (T ++ r) :: rest := by
  induction T with
  | nil =>
    cases h : B.splitOnP isLineEnd with
    | nil => exact absurd h (List.splitOnP_ne_nil _ _)
    | cons a l => exact ⟨a, l, by simp [h]⟩
  | cons x T ih =>
    obtain ⟨r, rest, h⟩ := ih (fun y hy => hT y (List.mem_cons_of_mem _ hy))
    refine ⟨r, rest, ?_⟩
    have hx : ¬ isLineEnd x = true := by simp [hT x (List.mem_cons_self _ _)]
    rw [List.cons_append, List.splitOnP_cons, if_neg hx, h]
    rfl

/-- The bytes after the last terminator of a prefix of a stream are the
beginning of a run of the stream. -/
theorem streamRest_length_lt (A B : List Nat) (N : Nat)
    (h : ∀ piece ∈ (A ++ B).splitOnP isLineEnd, piece.length < N) :
    (streamRest A).length < N := by
  obtain ⟨r, rest, hr⟩ := splitOnP_head (streamRest A) B (streamRest_no_sep A)
  have hmem : streamRest A ++ r ∈ (A ++ B).splitOnP isLineEnd := by
    rw [splitOnP_append]
    apply List.mem_append_right
    show streamRest A ++ r ∈ List.splitOnP isLineEnd (streamRest A ++ B)
    rw [hr]; exact List.mem_cons_self _ _
  have := h _ hmem
  rw [List.length_append] at this
  omega

theorem pieces_of_rest (A B : List Nat) :
    ∀ piece ∈ (streamRest A ++ B).splitOnP isLineEnd, piece ∈ (A ++ B).splitOnP isLineEnd := by
  intro piece hp
  rw [splitOnP_append]
  exact List.mem_append_right _ hp

/-- One data-available step on a read that fits the free space. -/
theorem onRxChar_spec (s : Serial) (c : List Nat)
    (hns : ∀ x ∈ s.readBuffer, isLineEnd x = false)
    (hfit : c.length ≤ readBufferSize - s.readBuffer.length)
    (hrest : (streamRest (s.readBuffer ++ c)).length ≠ readBufferSize) :
    onRxChar s c = { s with readBuffer := streamRest (s.readBuffer ++ c),
                            lines := s.lines ++ streamLines (s.readBuffer ++ c) } := by
  rw [onRxChar]
  simp only [List.take_of_length_le hfit]
  by_cases hc : c.length ≠ 0
  · rw [if_pos hc, lineLoop_spec _ _ (by simp) hrest]
  · have hnil : c = [] := List.eq_nil_of_length_eq_zero (by omega)
    subst hnil
    have := stream_no_sep s.readBuffer hns
    rw [if_neg hc, List.append_nil, this.1, this.2, List.append_nil]

/-- Successive reads that fit: the lines delivered and the bytes kept depend
only on the concatenation of the reads. -/
theorem feed_spec (chunks : List (List Nat)) : ∀ s : Serial,
    (∀ x ∈ s.readBuffer, isLineEnd x = false) →
    (∀ piece ∈ (s.readBuffer ++ chunks.flatten).splitOnP isLineEnd,
      piece.length < readBufferSize) →
    fits s chunks = true →
    feed s chunks = { s with readBuffer := streamRest (s.readBuffer ++ chunks.flatten),
                             lines := s.lines ++ streamLines (s.readBuffer ++ chunks.flatten) } := by
  induction chunks with
  | nil =>
    intro s hns _ _
    have := stream_no_sep s.readBuffer hns
    simp [feed, this.1, this.2]
  | cons c cs ih =>
    intro s hns hrun hfit
    simp only [fits, Bool.and_eq_true, decide_eq_true_eq] at hfit
    simp only [List.flatten_cons, ← List.append_assoc] at hrun ⊢
    have hlt := streamRest_length_lt (s.readBuffer ++ c) cs.flatten readBufferSize hrun
    have h1 := onRxChar_spec s c hns hfit.1 (by omega)
    have hfeed : feed s (c :: cs) = feed (onRxChar s c) cs := rfl
    rw [hfeed]
    have h2 := ih (onRxChar s c)
      (by rw [h1]; exact streamRest_no_sep _)
      (by rw [h1]; exact fun piece hp => hrun piece (pieces_of_rest _ _ piece hp))
      hfit.2
    rw [h2, h1]
    simp only
    rw [← streamRest_append, streamLines_append (s.readBuffer ++ c) cs.flatten,
      List.append_assoc s.lines]
end Serial

/-- C9. For every byte stream received as successive reads, each fitting the
free space of the read buffer, in which no run of bytes other than `\r` and
`\n` reaches the capacity 1024: the `receivedLine` callback fires, in stream
order, for exactly the lines of the stream (`streamLines`: each maximal
non-empty run of bytes other than `\r` and `\n` that a terminator follows); the
read buffer keeps the bytes after the last terminator; no delivered range is
empty or holds `\r` or `\n`; and any other way of cutting the same stream into
reads that fit delivers the same lines. -/
theorem C9_line_framing (chunks : List (List Nat))
    (hrun : ∀ piece ∈ (chunks.flatten).splitOnP Serial.isLineEnd,
      piece.length < Serial.readBufferSize)
    (hfit : Serial.fits Serial.opened chunks = true) :
    (Serial.feed Serial.opened chunks).lines = Serial.streamLines chunks.flatten ∧
    (Serial.feed Serial.opened chunks).readBuffer = Serial.streamRest chunks.flatten ∧
    (∀ l ∈ (Serial.feed Serial.opened chunks).lines, l ≠ [] ∧ ∀ c ∈ l, c ≠ 13 ∧ c ≠ 10) ∧
    (∀ chunks' : List (List Nat), chunks'.flatten = chunks.flatten →
      Serial.fits Serial.opened chunks' = true →
      (Serial.feed Serial.opened chunks').lines = (Serial.feed Serial.opened chunks).lines) := by
  have key : ∀ cs : List (List Nat), cs.flatten = chunks.flatten →
      Serial.fits Serial.opened cs = true →
      (Serial.feed Serial.opened cs).lines = Serial.streamLines chunks.flatten ∧
      (Serial.feed Serial.opened cs).readBuffer = Serial.streamRest chunks.flatten := by
    intro cs hcs hf
    have h := Serial.feed_spec cs Serial.opened (by simp [Serial.opened])
      (by simpa [Serial.opened, hcs] using hrun) hf
    rw [h]
    simp [Serial.opened, hcs]
  have h0 := key chunks rfl hfit
  refine ⟨h0.1, h0.2, ?_, ?_⟩
  · intro l hl
    rw [h0.1] at hl
    simp only [Serial.streamLines, List.mem_filter, decide_eq_true_eq] at hl
    refine ⟨hl.2, ?_⟩
    intro c hc
    have hsep := Serial.splitOnP_no_sep Serial.isLineEnd chunks.flatten l
      (List.mem_of_mem_dropLast hl.1) c hc
    simp only [Serial.isLineEnd, Bool.or_eq_false_iff, beq_eq_false_iff_ne, ne_eq] at hsep
    exact hsep
  · intro cs hcs hf
    rw [(key cs hcs hf).1, h0.1]

/-- C9, instance: the stream `"ok\r\nstart\n\n\rfoo"` read in three pieces, one
boundary inside the `\r\n` pair and one inside a line, and read in one
piece. -/
theorem C9_line_framing_witness :
    (Serial.feed Serial.opened
        [GCodeSender.bytes "ok\r", GCodeSender.bytes "\nsta", GCodeSender.bytes "rt\n\n\rfoo"]).lines
      = [GCodeSender.bytes "ok", GCodeSender.bytes "start"] ∧
    (Serial.feed Serial.opened [GCodeSender.bytes "ok\r\nstart\n\n\rfoo"]).lines
      = (Serial.feed Serial.opened
          [GCodeSender.bytes "ok\r", GCodeSender.bytes "\nsta",
           GCodeSender.bytes "rt\n\n\rfoo"]).lines := by
  have h := C9_line_framing
    [GCodeSender.bytes "ok\r", GCodeSender.bytes "\nsta", GCodeSender.bytes "rt\n\n\rfoo"]
    (by decide) (by decide)
  refine ⟨?_, h.2.2.2 [GCodeSender.bytes "ok\r\nstart\n\n\rfoo"] (by decide) (by decide)⟩
  rw [h.1]
  decide

/-! ## The bound of the read buffer -/

namespace Serial

theorem streamRest_length_le (l : List Nat) : (streamRest l).length ≤ l.length := by
  induction l with
  | nil => simp [streamRest, List.splitOnP_nil]
  | cons a l ih =>
    unfold streamRest at ih ⊢
    rw [List.splitOnP_cons]
    cases hs : l.splitOnP isLineEnd with
    | nil => exact absurd hs (List.splitOnP_ne_nil _ _)
    | cons h t =>
      rw [hs] at ih
      by_cases ha : isLineEnd a = true
      · rw [if_pos ha, List.getLast?_cons_cons]
        exact Nat.le_succ_of_le ih
      · rw [if_neg ha]
        cases t with
        | nil =>
          simp only [List.modifyHead, List.getLast?_singleton, Option.getD_some,
            List.length_cons] at ih ⊢
          omega
        | cons b t' =>
          simp only [List.modifyHead, List.getLast?_cons_cons] at ih ⊢
          exact Nat.le_succ_of_le ih

/-- The inner loop of `processCommState` when the bytes after the last
terminator fill the buffer: the complete lines before them are delivered, the
buffer is emptied and the diagnostic is written. -/
theorem lineLoop_overflow (fuel : Nat) : ∀ s : Serial, s.readBuffer.length < fuel →
    (streamRest s.readBuffer).length = readBufferSize →
    lineLoop fuel s = { s with readBuffer := [],
                               lines := s.lines ++ streamLines s.readBuffer,
                               status := s.status ++
                                 ["buffer overfilled with garbage; dumping\n"] } := by
  induction fuel with
  | zero => intro s h; exact absurd h (Nat.not_lt_zero _)
  | succ fuel ih =>
    intro s hlen hrest
    obtain ⟨fo, hv, wr, q, buf, wt, ln, st⟩ := s
    simp only at hlen hrest ⊢
    have hp : scanWhile notLineEnd buf buf.length 0 = (buf.takeWhile notLineEnd).length := by
      rw [scanWhile_eq _ _ _ _ (Nat.zero_le _) (by omega)]; simp
    have hsplit := List.takeWhile_append_dropWhile notLineEnd buf
    have hrun : ∀ x ∈ buf.takeWhile notLineEnd, isLineEnd x = false := by
      intro x hx
      have := List.mem_takeWhile_imp hx
      rw [notLineEnd_eq] at this
      simpa using this
    rw [lineLoop]
    simp only [hp]
    cases hd : buf.dropWhile notLineEnd with
    | nil =>
      rw [hd, List.append_nil] at hsplit
      rw [hsplit] at hrun ⊢
      have hns := stream_no_sep buf hrun
      rw [hns.2] at hrest
      rw [if_neg (lt_irrefl _), if_pos hrest, hns.1, List.append_nil]
    | cons t rest =>
      rw [hd] at hsplit
      have ht : isLineEnd t = true := by
        have := List.head_dropWhile_not notLineEnd buf (by rw [hd]; simp)
        simp only [hd, List.head_cons] at this
        rw [notLineEnd_eq] at this
        simpa using this
      have hlt : (buf.takeWhile notLineEnd).length < buf.length := by
        have := congrArg List.length hsplit
        simp at this; omega
      have hdrop : buf.drop (buf.takeWhile notLineEnd).length = t :: rest := by
        rw [GCodeSender.drop_length_takeWhile, hd]
      have hp2 : buf.drop (scanWhile isLineEnd buf (buf.length - (buf.takeWhile notLineEnd).length)
          (buf.takeWhile notLineEnd).length) = (t :: rest).dropWhile isLineEnd := by
        rw [scanWhile_eq _ _ _ _ (le_of_lt hlt) (le_refl _), ← List.drop_drop, hdrop,
          GCodeSender.drop_length_takeWhile]
      have hfirst := stream_first (buf.takeWhile notLineEnd) rest t hrun ht
      rw [hsplit] at hfirst
      have hdw := stream_dropWhile (t :: rest)
      have h0 := stream_first [] rest t (by simp) ht
      simp only [List.nil_append, if_true] at h0
      rw [if_pos hlt, hp2]
      have hshort : ((t :: rest).dropWhile isLineEnd).length < fuel := by
        rw [List.dropWhile_cons_of_pos ht]
        have h1 := (List.dropWhile_suffix isLineEnd (l := rest)).length_le
        have h2 := congrArg List.length hsplit
        simp at h2
        omega
      rw [ih _ hshort (by simp only; rw [hdw.2, h0.2, ← hfirst.2]; exact hrest)]
      simp only [hdw.1, h0.1, hfirst.1]
      rw [GCodeSender.take_length_takeWhile]
      by_cases he : buf.takeWhile notLineEnd = []
      · simp [he]
      · have : (buf.takeWhile notLineEnd).length ≠ 0 := by
          intro h; exact he (List.eq_nil_of_length_eq_zero h)
        simp [he, this]

theorem isLineEnd_false_iff (c : Nat) : isLineEnd c = false ↔ c ≠ 13 ∧ c ≠ 10 := by
  simp [isLineEnd]

/-- A data-available step keeps the read buffer below its capacity and free of
terminators. -/
theorem onRxChar_inv (s : Serial) (avail : List Nat)
    (hlen : s.readBuffer.length < readBufferSize)
    (hns : ∀ x ∈ s.readBuffer, isLineEnd x = false) :
    (onRxChar s avail).readBuffer.length < readBufferSize ∧
    ∀ x ∈ (onRxChar s avail).readBuffer, isLineEnd x = false := by
  rw [onRxChar]
  split
  · have hdata : (avail.take (readBufferSize - s.readBuffer.length)).length
        ≤ readBufferSize - s.readBuffer.length := by
      rw [List.length_take]; exact Nat.min_le_left _ _
    have hbuf : (s.readBuffer ++ avail.take (readBufferSize - s.readBuffer.length)).length
        ≤ readBufferSize := by
      rw [List.length_append]; omega
    by_cases hfull : (streamRest
        (s.readBuffer ++ avail.take (readBufferSize - s.readBuffer.length))).length
        = readBufferSize
    · rw [lineLoop_overflow _ _ (by simp) hfull]
      exact ⟨by simp [readBufferSize], by simp⟩
    · rw [lineLoop_spec _ _ (by simp) hfull]
      simp only
      have hle := streamRest_length_le
        (s.readBuffer ++ avail.take (readBufferSize - s.readBuffer.length))
      exact ⟨by omega, streamRest_no_sep _⟩
  · exact ⟨hlen, hns⟩

theorem feed_inv (chunks : List (List Nat)) : ∀ s : Serial,
    s.readBuffer.length < readBufferSize → (∀ x ∈ s.readBuffer, isLineEnd x = false) →
    (feed s chunks).readBuffer.length < readBufferSize ∧
    ∀ x ∈ (feed s chunks).readBuffer, isLineEnd x = false := by
  induction chunks with
  | nil => intro s h1 h2; exact ⟨h1, h2⟩
  | cons c cs ih =>
    intro s h1 h2
    have h := onRxChar_inv s c h1 h2
    exact ih (onRxChar s c) h.1 h.2

/-- The step in which the received bytes fill the read buffer with no
terminator present: the buffer is emptied, the diagnostic is written and no
line is delivered. -/
theorem onRxChar_overflow (s : Serial) (avail : List Nat)
    (hlen : s.readBuffer.length < readBufferSize)
    (hno : ∀ x ∈ s.readBuffer ++ avail.take (readBufferSize - s.readBuffer.length),
      isLineEnd x = false)
    (hfull : (s.readBuffer ++ avail.take (readBufferSize - s.readBuffer.length)).length
      = readBufferSize) :
    onRxChar s avail = { s with readBuffer := [],
                                status := s.status ++
                                  ["buffer overfilled with garbage; dumping\n"] } := by
  have hne : (avail.take (readBufferSize - s.readBuffer.length)).length ≠ 0 := by
    rw [List.length_append] at hfull; omega
  have hns := stream_no_sep _ hno
  rw [onRxChar]
  rw [if_pos hne, lineLoop_overflow _ _ (by simp) (by simp only; rw [hns.2]; exact hfull)]
  simp only [hns.1, List.append_nil]

/-- A terminated line received, in reads that fit, by a transport whose read
buffer is empty is delivered whole. -/
theorem feed_line (s : Serial) (line : List Nat) (t : Nat) (reads : List (List Nat))
    (hempty : s.readBuffer = []) (hne : line ≠ [])
    (hlen : line.length < readBufferSize) (hline : ∀ x ∈ line, isLineEnd x = false)
    (ht : isLineEnd t = true) (hreads : reads.flatten = line ++ [t])
    (hfit : fits s reads = true) :
    (feed s reads).lines = s.lines ++ [line] ∧ (feed s reads).readBuffer = [] := by
  have hsplit : (line ++ [t]).splitOnP isLineEnd = [line, []] := by
    rw [List.splitOnP_first _ _ (fun x hx => by simp [hline x hx]) t ht [], List.splitOnP_nil]
  have h := feed_spec reads s (by rw [hempty]; simp)
    (by
      rw [hempty, List.nil_append, hreads, hsplit]
      intro piece hp
      simp only [List.mem_cons, List.mem_singleton, List.not_mem_nil, or_false] at hp
      rcases hp with h | h
      · rw [h]; exact hlen
      · rw [h]; simp [readBufferSize])
    hfit
  rw [h, hempty, List.nil_append, hreads]
  have hf := stream_first line [] t hline ht
  have hnil := stream_no_sep [] (by simp)
  simp only [hf.1, hf.2, hnil.1, hnil.2, if_neg hne, List.append_nil]
  exact ⟨trivial, trivial⟩

end Serial

/-- C11. In every state of the transport reached from the opened state by
data-available steps, the read buffer holds fewer than 1024 bytes and neither
`\r` nor `\n`; during the next step, after the bytes read are appended, it
holds at most 1024 bytes. When the bytes read fill it to 1024 with no
terminator present, the step empties the buffer, writes the diagnostic and
delivers no line; and a line of fewer than 1024 bytes followed by a terminator,
received afterwards in reads that fit the free space, is delivered whole and
alone. -/
theorem C11_read_buffer_bound (chunks : List (List Nat)) (avail : List Nat) :
    Serial.readBufferSize = 1024 ∧
    ((Serial.feed Serial.opened chunks).readBuffer.length < Serial.readBufferSize ∧
      ∀ c ∈ (Serial.feed Serial.opened chunks).readBuffer, c ≠ 13 ∧ c ≠ 10) ∧
    ((Serial.feed Serial.opened chunks).readBuffer ++
        avail.take (Serial.readBufferSize
          - (Serial.feed Serial.opened chunks).readBuffer.length)).length
      ≤ Serial.readBufferSize ∧
    ((∀ c ∈ (Serial.feed Serial.opened chunks).readBuffer ++
          avail.take (Serial.readBufferSize
            - (Serial.feed Serial.opened chunks).readBuffer.length), c ≠ 13 ∧ c ≠ 10) →
      ((Serial.feed Serial.opened chunks).readBuffer ++
          avail.take (Serial.readBufferSize
            - (Serial.feed Serial.opened chunks).readBuffer.length)).length
        = Serial.readBufferSize →
      Serial.onRxChar (Serial.feed Serial.opened chunks) avail
        = { Serial.feed Serial.opened chunks with
              readBuffer := [],
              status := (Serial.feed Serial.opened chunks).status ++
                ["buffer overfilled with garbage; dumping\n"] } ∧
      (Serial.onRxChar (Serial.feed Serial.opened chunks) avail).lines
        = (Serial.feed Serial.opened chunks).lines ∧
      ∀ (line : List Nat) (t : Nat) (reads : List (List Nat)),
        line ≠ [] → line.length < Serial.readBufferSize →
        (∀ c ∈ line, c ≠ 13 ∧ c ≠ 10) → (t = 13 ∨ t = 10) →
        reads.flatten = line ++ [t] →
        Serial.fits (Serial.onRxChar (Serial.feed Serial.opened chunks) avail) reads = true →
        (Serial.feed (Serial.onRxChar (Serial.feed Serial.opened chunks) avail) reads).lines
          = (Serial.feed Serial.opened chunks).lines ++ [line]) := by
  have hinv := Serial.feed_inv chunks Serial.opened (by decide) (by simp [Serial.opened])
  generalize Serial.feed Serial.opened chunks = s at hinv ⊢
  obtain ⟨hlen, hns⟩ := hinv
  refine ⟨rfl, ⟨hlen, fun c hc => (Serial.isLineEnd_false_iff c).1 (hns c hc)⟩, ?_, ?_⟩
  · rw [List.length_append, List.length_take]
    omega
  · intro hno hfull
    have hov := Serial.onRxChar_overflow s avail hlen
      (fun x hx => (Serial.isLineEnd_false_iff x).2 (hno x hx)) hfull
    refine ⟨hov, by rw [hov], ?_⟩
    intro line t reads hne hl hline ht hreads hfit
    have h := Serial.feed_line (Serial.onRxChar s avail) line t reads (by rw [hov]) hne hl
      (fun x hx => (Serial.isLineEnd_false_iff x).2 (hline x hx))
      (by rcases ht with h | h <;> subst h <;> decide) hreads hfit
    rw [h.1, hov]

/-- C11, instance: 1024 bytes `A` with no terminator are received by the
opened transport; the step empties the read buffer and delivers nothing, and
the line `ok` received next is delivered. -/
theorem C11_read_buffer_bound_witness :
    Serial.onRxChar (Serial.feed Serial.opened []) (List.replicate 1024 65)
      = { Serial.feed Serial.opened [] with
            readBuffer := [],
            status := (Serial.feed Serial.opened []).status ++
              ["buffer overfilled with garbage; dumping\n"] } ∧
    (Serial.feed (Serial.onRxChar (Serial.feed Serial.opened []) (List.replicate 1024 65))
        [GCodeSender.bytes "ok\n"]).lines
      = (Serial.feed Serial.opened []).lines ++ [GCodeSender.bytes "ok"] := by
  have h := (C11_read_buffer_bound [] (List.replicate 1024 65)).2.2.2
    (by
      intro c hc
      simp only [Serial.feed, List.foldl_nil, Serial.opened, Serial.readBufferSize,
        List.nil_append, List.length_nil, Nat.sub_zero, List.take_replicate,
        List.mem_replicate] at hc
      rw [hc.2]; decide)
    (by
      simp only [Serial.feed, List.foldl_nil, Serial.opened, Serial.readBufferSize,
        List.nil_append, List.length_nil, Nat.sub_zero, List.take_replicate,
        List.length_replicate, Nat.min_self])
  refine ⟨h.1, ?_⟩
  refine h.2.2 (GCodeSender.bytes "ok") 10 [GCodeSender.bytes "ok\n"] (by decide) (by decide)
    (by decide) (Or.inr rfl) (by decide) ?_
  rw [h.1]
  decide

/-! ## The write path of the transport -/

namespace Serial

/-- What one successful call into the write path does to the write queue, the
in-flight flag and the record of dispatched strings, in a state where the port
is open and the flag is set exactly when the queue is not empty. -/
theorem writeStep_inv (s s' : Serial) (ev : WriteEvent) (hist : List (List Nat))
    (ho : s.fullyOpened = true) (hh : s.handleValid = true)
    (hw : s.writing = true → ∃ front rest, s.writeQueue = front :: rest ∧
      s.written.getLast? = some front)
    (hn : s.writing = false → s.writeQueue = [])
    (hs : s.written ++ s.writeQueue.drop (if s.writing = true then 1 else 0) = hist)
    (hstep : writeStep s ev = .ok s') :
    s'.fullyOpened = true ∧ s'.handleValid = true ∧
    (s'.writing = true → ∃ front rest, s'.writeQueue = front :: rest ∧
      s'.written.getLast? = some front) ∧
    (s'.writing = false → s'.writeQueue = []) ∧
    s'.written ++ s'.writeQueue.drop (if s'.writing = true then 1 else 0)
      = hist ++ sentData [ev] ∧
    (s'.writeQueue = s.writeQueue ∨
      (∃ d p, ev = .send d p ∧ s'.writeQueue = s.writeQueue ++ [d]) ∨
      (∃ front n p, ev = .onWrite true n p ∧ s.writeQueue = front :: s'.writeQueue ∧
        n = front.length)) := by
  obtain ⟨fo, hv, wr, q, rb, wt, ln, st⟩ := s
  simp only at ho hh hw hn hs
  subst ho hh
  cases ev with
  | send d pending =>
    cases wr with
    | true =>
      obtain ⟨front, rest, hq, hl⟩ := hw rfl
      subst hq
      simp only [writeStep, send, startWrite, Bool.true_eq_false, if_false] at hstep
      injection hstep with hstep
      subst hstep
      simp only [if_true, List.drop_succ_cons, List.drop_zero] at hs
      subst hs
      refine ⟨rfl, rfl, ?_, ?_, ?_, ?_⟩
      · intro _; exact ⟨front, rest ++ [d], rfl, hl⟩
      · intro h; exact absurd h (by simp)
      · simp [sentData]
      · right; left; exact ⟨d, pending, rfl, rfl⟩
    | false =>
      have hq := hn rfl
      subst hq
      cases pending with
      | false => simp [writeStep, send, startWrite] at hstep
      | true =>
        simp only [writeStep, send, startWrite, Bool.true_eq_false, if_false, List.nil_append,
          if_true] at hstep
        injection hstep with hstep
        subst hstep
        simp only [Bool.false_eq_true, if_false, List.drop_zero, List.append_nil] at hs
        subst hs
        refine ⟨rfl, rfl, ?_, ?_, ?_, ?_⟩
        · intro _; exact ⟨d, [], rfl, by simp⟩
        · intro h; exact absurd h (by simp)
        · simp [sentData]
        · right; left; exact ⟨d, true, rfl, rfl⟩
  | onWrite ok numWritten pending =>
    cases wr with
    | false =>
      simp only [writeStep, onWrite, or_true, if_true] at hstep
      injection hstep with hstep
      subst hstep
      exact ⟨rfl, rfl, hw, hn, by simpa [sentData] using hs, Or.inl rfl⟩
    | true =>
      obtain ⟨front, rest, hq, hl⟩ := hw rfl
      subst hq
      simp only [if_true, List.drop_succ_cons, List.drop_zero] at hs
      subst hs
      simp only [writeStep, onWrite, Bool.true_eq_false, or_self, if_false] at hstep
      by_cases hc : ok = false ∨ numWritten ≠ front.length
      · rw [if_pos hc] at hstep; exact absurd hstep (by simp)
      · rw [if_neg hc] at hstep
        have hok : ok = true := by
          cases ok with
          | true => rfl
          | false => exact absurd (Or.inl rfl) hc
        have hnw : numWritten = front.length := by
          by_contra h; exact hc (Or.inr h)
        cases rest with
        | nil =>
          simp only [startWrite] at hstep
          injection hstep with hstep
          subst hstep
          refine ⟨rfl, rfl, ?_, ?_, ?_, ?_⟩
          · intro h; exact absurd h (by simp)
          · intro _; rfl
          · simp [sentData]
          · right; right; exact ⟨front, numWritten, pending, by rw [hok], rfl, hnw⟩
        | cons r rest' =>
          cases pending with
          | false => simp [startWrite] at hstep
          | true =>
            simp only [startWrite, if_true] at hstep
            injection hstep with hstep
            subst hstep
            refine ⟨rfl, rfl, ?_, ?_, ?_, ?_⟩
            · intro _; exact ⟨r, rest', rfl, by simp⟩
            · intro h; exact absurd h (by simp)
            · simp [sentData]
            · right; right; exact ⟨front, numWritten, true, by rw [hok], rfl, hnw⟩

/-- The invariant of the write path along a run without exception. -/
theorem writeRun_inv (evs : List WriteEvent) : ∀ (s s' : Serial) (hist : List (List Nat)),
    s.fullyOpened = true → s.handleValid = true →
    (s.writing = true → ∃ front rest, s.writeQueue = front :: rest ∧
      s.written.getLast? = some front) →
    (s.writing = false → s.writeQueue = []) →
    s.written ++ s.writeQueue.drop (if s.writing = true then 1 else 0) = hist →
    writeRun s evs = .ok s' →
    s'.fullyOpened = true ∧ s'.handleValid = true ∧
    (s'.writing = true → ∃ front rest, s'.writeQueue = front :: rest ∧
      s'.written.getLast? = some front) ∧
    (s'.writing = false → s'.writeQueue = []) ∧
    s'.written ++ s'.writeQueue.drop (if s'.writing = true then 1 else 0)
      = hist ++ sentData evs := by
  induction evs with
  | nil =>
    intro s s' hist ho hh hw hn hs hrun
    simp only [writeRun] at hrun
    have : s' = s := by injection hrun with h; exact h.symm
    subst this
    exact ⟨ho, hh, hw, hn, by simp [sentData, hs]⟩
  | cons ev evs ih =>
    intro s s' hist ho hh hw hn hs hrun
    simp only [writeRun] at hrun
    cases hstep : writeStep s ev with
    | error msg => rw [hstep] at hrun; simp at hrun
    | ok s1 =>
      rw [hstep] at hrun
      simp only at hrun
      obtain ⟨a1, a2, a3, a4, a5, _⟩ := writeStep_inv s s1 ev hist ho hh hw hn hs hstep
      have h := ih s1 s' (hist ++ sentData [ev]) a1 a2 a3 a4 a5 hrun
      have hsd : hist ++ sentData [ev] ++ sentData evs = hist ++ sentData (ev :: evs) := by
        cases ev <;> simp [sentData]
      rw [hsd] at h
      exact h

end Serial

/-- C10. On an open transport, after any sequence of `send` calls and write
completions that raises no exception: the strings passed to `WriteFile`,
followed by the queued strings not yet dispatched, are exactly the strings
passed to `send`, in order, so strings reach the wire in the order they were
sent; the in-flight flag is set exactly when the queue is not empty, and then
the string in flight, the last one dispatched, is the head of the queue; the
number of strings dispatched and not yet removed is the flag, so at most one;
and a call removes the head of the queue only if it is a completion that
succeeded with a byte count equal to the length of the head. -/
theorem C10_write_order (evs : List Serial.WriteEvent) (s : Serial)
    (hrun : Serial.writeRun Serial.opened evs = .ok s) :
    s.written ++ s.writeQueue.drop (if s.writing = true then 1 else 0) = Serial.sentData evs ∧
    s.written = (Serial.sentData evs).take s.written.length ∧
    (s.writing = true → ∃ front rest, s.writeQueue = front :: rest ∧
      s.written.getLast? = some front) ∧
    (s.writing = false → s.writeQueue = []) ∧
    s.written.length + s.writeQueue.length
      = (Serial.sentData evs).length + (if s.writing = true then 1 else 0) ∧
    (∀ (ev : Serial.WriteEvent) (s' : Serial), Serial.writeStep s ev = .ok s' →
      s'.writeQueue = s.writeQueue ∨
      (∃ d p, ev = .send d p ∧ s'.writeQueue = s.writeQueue ++ [d]) ∨
      (∃ front n p, ev = .onWrite true n p ∧ s.writeQueue = front :: s'.writeQueue ∧
        n = front.length)) := by
  obtain ⟨a1, a2, a3, a4, a5⟩ := Serial.writeRun_inv evs Serial.opened s []
    rfl rfl (by intro h; exact absurd h (by decide)) (by intro _; rfl) rfl hrun
  rw [List.nil_append] at a5
  refine ⟨a5, ?_, a3, a4, ?_, ?_⟩
  · rw [← a5, List.take_left]
  · have h := congrArg List.length a5
    rw [List.length_append, List.length_drop] at h
    cases hw : s.writing with
    | true =>
      obtain ⟨front, rest, hq, _⟩ := a3 hw
      rw [hw, hq] at h
      rw [hq]
      simp only [if_true, List.length_cons] at h ⊢
      omega
    | false =>
      rw [hw] at h
      simp only [Bool.false_eq_true, if_false] at h ⊢
      omega
  · intro ev s' hstep
    exact (Serial.writeStep_inv s s' ev _ a1 a2 a3 a4 rfl hstep).2.2.2.2.2

/-- C10, instance: two frames are sent, the first completes, a third is sent;
the second is then in flight and the third waits behind it. -/
theorem C10_write_order_witness :
    Serial.writeRun Serial.opened
        [.send (GCodeSender.bytes "N1 M110*34\n") true,
         .send (GCodeSender.bytes "N2 G1 X1*99\n") true,
         .onWrite true 11 true,
         .send (GCodeSender.bytes "N3 G1 X2*97\n") true]
      = .ok { fullyOpened := true, handleValid := true, writing := true,
              writeQueue := [GCodeSender.bytes "N2 G1 X1*99\n",
                             GCodeSender.bytes "N3 G1 X2*97\n"],
              readBuffer := [],
              written := [GCodeSender.bytes "N1 M110*34\n",
                          GCodeSender.bytes "N2 G1 X1*99\n"],
              lines := [], status := [] } ∧
    [GCodeSender.bytes "N1 M110*34\n", GCodeSender.bytes "N2 G1 X1*99\n"]
      = (Serial.sentData
          [.send (GCodeSender.bytes "N1 M110*34\n") true,
           .send (GCodeSender.bytes "N2 G1 X1*99\n") true,
           .onWrite true 11 true,
           .send (GCodeSender.bytes "N3 G1 X2*97\n") true]).take 2 :=
  ⟨by rfl,
   (C10_write_order
      [.send (GCodeSender.bytes "N1 M110*34\n") true,
       .send (GCodeSender.bytes "N2 G1 X1*99\n") true,
       .onWrite true 11 true,
       .send (GCodeSender.bytes "N3 G1 X2*97\n") true]
      { fullyOpened := true, handleValid := true, writing := true,
        writeQueue := [GCodeSender.bytes "N2 G1 X1*99\n",
                       GCodeSender.bytes "N3 G1 X2*97\n"],
        readBuffer := [],
        written := [GCodeSender.bytes "N1 M110*34\n",
                    GCodeSender.bytes "N2 G1 X1*99\n"],
        lines := [], status := [] }
      (by rfl)).2.1⟩

